import Mathlib

/-!
# A shallow embedding of `hslam/wal` (write-ahead log)

This file models the Go package `wal` (file `wal.go`, the `WAL` variant) in
Lean 4 and proves properties of the model.

Modelling conventions:

* Go `uint64` values (indices, offsets, slot contents) are modelled as `Nat`.
  None of the verified properties depend on wrap-around at `2 ^ 64`.
* A byte slice (`[]byte`) is a `List Nat`.
* A segment's on-disk state is its data file (`log`, the byte list) and its
  index file, viewed through the mmap as a list of 8-byte slots (`slots`).
  The in-memory `len` field of the Go struct is kept as `len` (it is `0`
  when the segment is closed / not yet loaded).
* Fallible operations return `Option Err × State`: the Go methods mutate the
  receiver and return an `error`, so the model always returns the (possibly
  partially mutated) state together with the optional error.  A Go runtime
  panic (slice bounds, nil-map dereference) is modelled as `Err.panic`.
* The external package `github.com/hslam/code` supplies the varint codec:
  `EncodeVarint`/`DecodeVarint` implement the standard little-endian
  7-bits-per-byte varint; `DecodeVarint` returns `0` consumed bytes when the
  buffer ends before the terminating byte.
-/

/-- The error kinds of the package (`wal.go` lines 42-55), plus `io` for
errors surfaced verbatim from the filesystem layer (e.g. operations on a
closed `*os.File` return `ErrInvalid`) and `panic` for Go runtime panics. -/
inductive Err where
  | closed
  | unexpectedSize
  | outOfRange
  | zeroIndex
  | outOfOrder
  | base
  | io
  | panic
  deriving Repr, DecidableEq

namespace Wal

/-- The recursion of `code.EncodeVarint`, driven by a fuel argument that
dominates the encoded value so that the definition is structural (and thus
kernel-evaluable); `encodeVarint` below instantiates the fuel. -/
def encodeVarintAux : Nat → Nat → List Nat
  | 0, _ => []
  | f + 1, n => if n < 128 then [n] else (n % 128 + 128) :: encodeVarintAux f (n / 128)

/-- `code.EncodeVarint`: standard little-endian base-128 varint encoding of
an unsigned integer. -/
def encodeVarint (n : Nat) : List Nat := encodeVarintAux (n + 1) n

theorem encodeVarintAux_irrel (f1 : Nat) : ∀ f2 n : Nat, n < f1 → n < f2 →
    encodeVarintAux f1 n = encodeVarintAux f2 n := by
  induction f1 with
  | zero => intro f2 n h1 _; omega
  | succ f ih =>
    intro f2 n h1 h2
    cases f2 with
    | zero => omega
    | succ f2 =>
      show (if n < 128 then [n] else (n % 128 + 128) :: encodeVarintAux f (n / 128)) =
        (if n < 128 then [n] else (n % 128 + 128) :: encodeVarintAux f2 (n / 128))
      by_cases hc : n < 128
      · rw [if_pos hc, if_pos hc]
      · rw [if_neg hc, if_neg hc]
        have hd : n / 128 < n := Nat.div_lt_self (by omega) (by omega)
        rw [ih f2 (n / 128) (by omega) (by omega)]

/-- The recursive unfolding of `encodeVarint` as the Go source writes it. -/
theorem encodeVarint_eq (n : Nat) :
    encodeVarint n = if n < 128 then [n]
      else (n % 128 + 128) :: encodeVarint (n / 128) := by
  show (if n < 128 then [n] else (n % 128 + 128) :: encodeVarintAux n (n / 128)) = _
  by_cases hc : n < 128
  · rw [if_pos hc, if_pos hc]
  · rw [if_neg hc, if_neg hc]
    have hd : n / 128 < n := Nat.div_lt_self (by omega) (by omega)
    rw [show encodeVarint (n / 128) = encodeVarintAux (n / 128 + 1) (n / 128) from rfl]
    rw [encodeVarintAux_irrel n (n / 128 + 1) (n / 128) (by omega) (by omega)]

/-- `code.DecodeVarint`: returns `(consumed, value)`; `consumed = 0` when the
buffer ends before a byte with the continuation bit cleared. -/
def decodeVarint : List Nat → Nat × Nat
  | [] => (0, 0)
  | b :: rest =>
    if b < 128 then (1, b)
    else
      let p := decodeVarint rest
      if p.1 = 0 then (0, 0) else (p.1 + 1, (b - 128) + 128 * p.2)

theorem encodeVarint_length_pos (n : Nat) : 0 < (encodeVarint n).length := by
  rw [encodeVarint_eq]
  split <;> simp

theorem encodeVarint_ne_nil (n : Nat) : encodeVarint n ≠ [] := by
  intro h
  have := encodeVarint_length_pos n
  rw [h] at this
  simp at this

/-- Decoding an encoded varint followed by arbitrary bytes recovers the
encoded value and consumes exactly the encoding. -/
theorem decodeVarint_encodeVarint (n : Nat) (rest : List Nat) :
    decodeVarint (encodeVarint n ++ rest) = ((encodeVarint n).length, n) := by
  induction n using Nat.strong_induction_on with
  | _ n ih =>
    rw [encodeVarint_eq]
    split
    · rename_i h
      simp only [List.singleton_append, List.length_singleton]
      show decodeVarint (n :: rest) = (1, n)
      simp [decodeVarint, h]
    · rename_i h
      have hdiv : n / 128 < n := Nat.div_lt_self (by omega) (by omega)
      have hrec := ih (n / 128) hdiv
      simp only [List.cons_append, decodeVarint]
      rw [if_neg (by omega : ¬ n % 128 + 128 < 128)]
      simp only [List.append_eq]
      rw [hrec]
      have hlenpos := encodeVarint_length_pos (n / 128)
      rw [if_neg (by omega : ¬ (((encodeVarint (n / 128)).length, n / 128) : Nat × Nat).1 = 0)]
      simp only [Prod.mk.injEq, List.length_cons]
      exact ⟨trivial, by omega⟩

/-- The on-disk encoding of one entry: `varint(len(data)) ‖ data`
(`WAL.Write`, lines 499-501). -/
def entryEnc (data : List Nat) : List Nat :=
  encodeVarint data.length ++ data

/-- Concatenation of the encodings of a list of payloads: the content of a
fully flushed segment data file holding exactly those entries. -/
def encAll (es : List (List Nat)) : List Nat :=
  (es.map entryEnc).flatten

theorem encAll_nil : encAll [] = [] := rfl

theorem encAll_cons (p : List Nat) (es : List (List Nat)) :
    encAll (p :: es) = entryEnc p ++ encAll es := by
  simp [encAll]

theorem encAll_append (es fs : List (List Nat)) :
    encAll (es ++ fs) = encAll es ++ encAll fs := by
  simp [encAll]

/-- Cumulative end position (in the data file) of the `r`-th entry
(1-based); `cum es 0 = 0`. -/
def cum (es : List (List Nat)) (r : Nat) : Nat :=
  (encAll (es.take r)).length

theorem cum_zero (es : List (List Nat)) : cum es 0 = 0 := rfl

theorem cum_length (es : List (List Nat)) : cum es es.length = (encAll es).length := by
  simp [cum]

theorem entryEnc_length (p : List Nat) :
    (entryEnc p).length = (encodeVarint p.length).length + p.length := by
  simp [entryEnc]

/-- The rebuild loop of `segment.load` (`wal.go` lines 138-148): starting at
byte 0 it repeatedly decodes `varint(size)`, skips `size` bytes and records
the cumulative end position of the entry.  The loop body executes
`data = data[n:]`, which **panics** when `n` exceeds the remaining length,
and loops forever when `DecodeVarint` consumes nothing and `size = 0`
(a truncated varint at the end of the file); both are modelled as `none`. -/
def rebuildScan (data : List Nat) (position : Nat) : Option (List Nat) :=
  if h : data = [] then some []
  else
    if hn : (decodeVarint data).1 + (decodeVarint data).2 = 0 then none
    else if hlen : data.length < (decodeVarint data).1 + (decodeVarint data).2 then none
    else
      match rebuildScan (data.drop ((decodeVarint data).1 + (decodeVarint data).2))
          (position + ((decodeVarint data).1 + (decodeVarint data).2)) with
      | none => none
      | some rest => some ((position + ((decodeVarint data).1 + (decodeVarint data).2)) :: rest)
  termination_by data.length
  decreasing_by
    simp only [List.length_drop]
    have : 0 < data.length := List.length_pos.mpr h
    omega

/-- On the concatenation of complete entries the rebuild scan terminates and
returns the cumulative end position of every entry. -/
theorem rebuildScan_encAll (es : List (List Nat)) (position : Nat) :
    rebuildScan (encAll es) position =
      some ((List.range es.length).map (fun i => position + cum es (i + 1))) := by
  induction es generalizing position with
  | nil => simp [rebuildScan, encAll]
  | cons p es ih =>
    rw [encAll_cons]
    rw [rebuildScan]
    have hne : entryEnc p ++ encAll es ≠ [] := by
      intro hcontra
      rcases List.append_eq_nil.mp hcontra with ⟨h1, _⟩
      rcases List.append_eq_nil.mp h1 with ⟨h2, _⟩
      exact encodeVarint_ne_nil _ h2
    rw [dif_neg hne]
    have hdec : decodeVarint (entryEnc p ++ encAll es) =
        ((encodeVarint p.length).length, p.length) := by
      rw [entryEnc, List.append_assoc]
      exact decodeVarint_encodeVarint _ _
    simp only [hdec]
    have hn : (encodeVarint p.length).length + p.length ≠ 0 := by
      have := encodeVarint_length_pos p.length
      omega
    rw [dif_neg hn]
    have hlen : ¬ (entryEnc p ++ encAll es).length <
        (encodeVarint p.length).length + p.length := by
      simp only [List.length_append, entryEnc]
      omega
    rw [dif_neg hlen]
    have hdrop : (entryEnc p ++ encAll es).drop
        ((encodeVarint p.length).length + p.length) = encAll es := by
      rw [show (encodeVarint p.length).length + p.length = (entryEnc p).length by
        simp [entryEnc]]
      simp
    rw [hdrop, ih]
    dsimp only
    congr 1
    rw [show (p :: es).length = es.length + 1 from rfl, List.range_succ_eq_map]
    simp only [List.map_cons, List.map_map]
    congr 1
    · simp [cum, encAll_cons, entryEnc, encAll_nil]
    · apply List.map_congr_left
      intro i _
      simp only [Function.comp_apply]
      have hc : cum (p :: es) (i + 1 + 1) = (entryEnc p).length + cum es (i + 1) := by
        simp only [cum, List.take_succ_cons, encAll_cons, List.length_append]
      rw [hc]
      simp [entryEnc]
      omega

/-- State of one segment: `offset` and the in-memory `len` field of the Go
`segment` struct, the index file seen through its mmap (`slots`, one `Nat`
per 8-byte slot), and the bytes of the data file (`log`).  `len = 0` means
the segment is closed or not yet loaded. -/
structure Segment where
  offset : Nat
  len : Nat
  slots : List Nat
  log : List Nat
  deriving Repr, DecidableEq

namespace Segment

/-- `segment.readIndex` (`wal.go` lines 91-104): the byte range
`[start, end)` of entry `index` in the data file, read from slots `r-1` and
`r` of the index mmap, `r = index - offset`. -/
def readIndex (s : Segment) (index : Nat) : Nat × Nat :=
  if index - s.offset = 1 then (0, s.slots.getD 1 0)
  else (s.slots.getD (index - s.offset - 1) 0, s.slots.getD (index - s.offset) 0)

/-- Writing the scan results into consecutive slots starting at slot `i`
(the `copy(s.indexMmap[i*8:i*8+8], …)` updates of the rebuild loop). -/
def setSlots (slots : List Nat) (ends : List Nat) (i : Nat) : List Nat :=
  match ends with
  | [] => slots
  | e :: rest => setSlots (slots.set i e) rest (i + 1)

/-- `segment.load` (`wal.go` lines 106-154), file-handle bookkeeping elided
(a missing index file is recreated zeroed, which is how `slots` already
represents it).  Reads `len` from slot 0 and the expected data size from
slot `len`; when the size disagrees with the data file length it rebuilds
the index by scanning the data file.  `none` models a Go panic: reading or
writing a slot past the mmap, or the scan's failure modes. -/
def load (E : Nat) (s : Segment) : Option Segment :=
  if E < s.slots.getD 0 0 then none
  else if s.slots.getD (s.slots.getD 0 0) 0 = s.log.length then
    some { s with len := s.slots.getD 0 0 }
  else
    match rebuildScan s.log 0 with
    | none => none
    | some ends =>
      if E < ends.length then none
      else some { s with slots := (setSlots s.slots ends 1).set 0 ends.length,
                         len := ends.length }

end Segment

/-- What the Go `w.lastSegment` pointer designates.  `valid` means it points
to the final element of `w.segments`; `stale` means it points to a segment
that has been closed and dropped from the list (the `Truncate` boundary
fast path leaves it dangling this way; every file operation through it then
fails with `os.ErrInvalid`, modelled as `Err.io`). -/
inductive LastPtr where
  | none
  | valid
  | stale
  deriving Repr, DecidableEq

/-- The log state (`WAL` struct, `wal.go` lines 57-77).  Path and suffix
naming, the encode buffer and the mutex are elided; `lastPtr` models the
`lastSegment` pointer as described at `LastPtr`. -/
structure WAL where
  segmentSize : Nat
  segmentEntries : Nat
  noSplitSegment : Bool
  closed : Bool
  segments : List Segment
  firstIndex : Nat
  lastIndex : Nat
  writeBuffer : List Nat
  lastPtr : LastPtr
  deriving Repr, DecidableEq

namespace WAL

/-- `WAL.checkIndex` (`wal.go` lines 641-649). -/
def checkIndex (w : WAL) (index : Nat) : Option Err :=
  if w.closed then some .closed
  else if index = 0 ∨ w.lastIndex = 0 ∨ index < w.firstIndex ∨ w.lastIndex < index then
    some .outOfRange
  else none

/-- `WAL.IsExist` (`wal.go` lines 629-639). -/
def isExist (w : WAL) (index : Nat) : Bool × Option Err :=
  match w.checkIndex index with
  | some e => if e = .closed then (false, some e) else (false, none)
  | none => (true, none)

/-- `WAL.FirstIndex` (`wal.go` lines 595-602). -/
def firstIndexOp (w : WAL) : Nat × Option Err :=
  if w.closed then (0, some .closed) else (w.firstIndex, none)

/-- `WAL.LastIndex` (`wal.go` lines 605-612). -/
def lastIndexOp (w : WAL) : Nat × Option Err :=
  if w.closed then (0, some .closed) else (w.lastIndex, none)

/-- The loop of `WAL.searchSegmentIndex` (`wal.go` lines 614-626).  Every
call site has `0 ≤ low`, where Go's truncated integer division of
`low + high` by 2 agrees with `Int`'s division. -/
def searchLoop (offsets : List Nat) (index : Nat) (low high : Int) : Int :=
  if _ : low ≤ high then
    if offsets.getD ((low + high) / 2).toNat 0 < index then
      searchLoop offsets index ((low + high) / 2 + 1) high
    else
      searchLoop offsets index low ((low + high) / 2 - 1)
  else high
  termination_by (high + 1 - low).toNat
  decreasing_by all_goals omega

/-- `WAL.searchSegmentIndex`: binary search for the last segment whose
`offset` is less than `index`. -/
def searchSegmentIndex (w : WAL) (index : Nat) : Int :=
  searchLoop (w.segments.map Segment.offset) index 0 (w.segments.length - 1)

end WAL

/-- Placeholder segment used with `List.getD`; every verified access is
within bounds. -/
def defaultSeg : Segment := { offset := 0, len := 0, slots := [], log := [] }

/-- `segment.close` (`wal.go` lines 161-183): fsync and close the handles,
munmap the index, zero the in-memory `len`. The on-disk state persists. -/
def Segment.closeSeg (s : Segment) : Segment := { s with len := 0 }

/-- Segment files are named after their offsets, so when `appendSegment`
creates a segment whose offset equals an existing segment's (the rollover
on an oversized entry written to an empty tail), `os.Create` truncates and
reuses that name's file pair.  The directory therefore holds ONE file pair
per distinct offset, with the content written through the newest segment
of that offset.  `dedupSegs` is that directory view of a segment list with
non-decreasing offsets: of each run of equal-offset entries, the last
(newest) one's files survive. -/
def dedupSegs : List Segment → List Segment
  | [] => []
  | s :: rest =>
    match rest with
    | [] => [s]
    | t :: _ => if s.offset = t.offset then dedupSegs rest else s :: dedupSegs rest

namespace WAL

/-- The segment created by `WAL.appendSegment` (lines 354-377): empty data
file, index file truncated to `indexSpace = (SegmentEntries + 1) * 8` bytes
of zeros. -/
def freshSegment (E offset : Nat) : Segment :=
  { offset := offset, len := 0, slots := List.replicate (E + 1) 0, log := [] }

/-- Replace the final element of the segment list (in-place mutation of the
tail segment in Go). -/
def setLast (ss : List Segment) (s : Segment) : List Segment :=
  ss.set (ss.length - 1) s

/-- The tail segment `w.segments[len(w.segments)-1]`. -/
def lastSeg (w : WAL) : Segment := w.segments.getLastD defaultSeg

/-- `WAL.closeLastSegment` (lines 403-408): closes whatever `lastSegment`
points to.  When the pointer is stale the closed object is no longer in the
list, so the state is unchanged. -/
def closeLastSegment (w : WAL) : WAL :=
  match w.lastPtr with
  | .valid => { w with segments := setLast w.segments (lastSeg w).closeSeg }
  | _ => w

/-- `WAL.appendSegment` (lines 350-379): close the current tail, then create
and mmap a fresh pair of files named after `w.lastIndex`.  When that name
collides with an existing segment's (the tail being empty, its offset
equals `lastIndex`), `os.Create` truncates and reuses the existing file
pair, so from then on the older list entry's files are the new segment's;
the in-memory `log` here models the bytes each segment itself writes (the
older duplicate owns none), and `diskOf` below recovers the shared-file
directory view. -/
def appendSegment (w : WAL) : WAL :=
  let w1 := closeLastSegment w
  { w1 with segments := w1.segments ++ [freshSegment w1.segmentEntries w1.lastIndex],
            lastPtr := .valid }

/-- `WAL.flush` (lines 533-544).  Writing through a stale `lastSegment`
pointer hits a closed `*os.File` and fails (`Err.io`); a nil pointer would
panic. -/
def flushOp (w : WAL) : Option Err × WAL :=
  if w.closed then (some .closed, w)
  else if w.writeBuffer = [] then (none, w)
  else match w.lastPtr with
    | .none => (some .panic, w)
    | .stale => (some .io, w)
    | .valid =>
      (none, { w with
        segments := setLast w.segments
          { lastSeg w with log := (lastSeg w).log ++ w.writeBuffer },
        writeBuffer := [] })

/-- `WAL.sync` (lines 555-565): fsync of the tail data file; fails on the
closed file handle behind a stale pointer. -/
def syncOp (w : WAL) : Option Err × WAL :=
  if w.closed then (some .closed, w)
  else match w.lastPtr with
    | .stale => (some .io, w)
    | _ => (none, w)

/-- `WAL.Close` (lines 568-582): flush, sync, mark closed, close every
segment.  Note the flush reports `Closed` when the log is already closed. -/
def closeOp (w : WAL) : Option Err × WAL :=
  match flushOp w with
  | (some e, w') => (some e, w')
  | (none, w1) =>
    match syncOp w1 with
    | (some e, w') => (some e, w')
    | (none, w2) =>
      if w2.closed then (none, w2)
      else (none, { w2 with closed := true,
                            segments := w2.segments.map Segment.closeSeg })

/-- The tail of `WAL.Write` (lines 515-523): record the new entry count in
slot 0 and its end position in slot `entries`, append the encoded entry to
the write buffer, advance `lastIndex`.  `pos` is the current size of the
tail data file (0 right after a rollover). -/
def writeInto (w : WAL) (index : Nat) (data : List Nat) (pos : Nat) : WAL :=
  let s := lastSeg w
  let entries := index - s.offset
  let entryData := entryEnc data
  { w with
    segments := setLast w.segments
      { s with slots := ((s.slots.set 0 entries).set entries
                 (pos + w.writeBuffer.length + entryData.length)),
               len := entries },
    writeBuffer := w.writeBuffer ++ entryData,
    lastIndex := index }

/-- `WAL.Write` (lines 468-524).  In every reachable call the tail's
`offset` is at most `index`, so the `Nat` subtraction `index - offset`
agrees with the Go `uint64` arithmetic. -/
def writeOp (w : WAL) (index : Nat) (data : List Nat) : Option Err × WAL :=
  if w.closed then (some .closed, w)
  else if index = 0 then (some .zeroIndex, w)
  else if 0 < w.lastIndex ∧ index ≠ w.lastIndex + 1 then (some .outOfOrder, w)
  else
    let w1 := if w.lastIndex = 0 then
        { w with firstIndex := index, lastIndex := index - 1 } else w
    let w2 := if w1.segments = [] then appendSegment w1 else w1
    match w2.lastPtr with
    | .none => (some .panic, w2)
    | .stale => (some .io, w2)
    | .valid =>
      if w2.segmentSize <
           (lastSeg w2).log.length + w2.writeBuffer.length + (entryEnc data).length
         ∨ w2.segmentEntries < index - (lastSeg w2).offset then
        match flushOp w2 with
        | (some e, w') => (some e, w')
        | (none, w3) =>
          match syncOp w3 with
          | (some e, w') => (some e, w')
          | (none, w4) => (none, writeInto (appendSegment w4) index data 0)
      else (none, writeInto w2 index data (lastSeg w2).log.length)

/-- `WAL.resetLastSegment` (lines 381-401): close the current tail pointer,
point it at the final list element, probe the data file size, and load the
segment when the file is non-empty. -/
def resetLastSegment (w : WAL) : Option Err × WAL :=
  let w1 := closeLastSegment w
  match w1.segments.getLast? with
  | none => (some .panic, w1)
  | some s =>
    let w2 := { w1 with lastPtr := .valid }
    if s.log.length = 0 then (none, { w2 with lastIndex := s.offset })
    else
      match Segment.load w2.segmentEntries s with
      | none => (some .panic, w2)
      | some s' => (none, { w2 with segments := setLast w2.segments s',
                                    lastIndex := s'.offset + s'.len })

/-- `WAL.loadSegment` (lines 410-417) applied to the segment at list
position `k`. -/
def loadSegmentAt (w : WAL) (k : Nat) : Option Err × WAL :=
  let s := w.segments.getD k defaultSeg
  if s.len ≠ 0 then (none, w)
  else match Segment.load w.segmentEntries s with
    | none => (some .panic, w)
    | some s' => (none, { w with segments := w.segments.set k s' })

/-- `os.File.ReadAt` of `count` bytes at offset `start`: returns the bytes
or an error when the file ends early (Go reports `io.EOF` with a short
read, which `WAL.Read` propagates). -/
def readAt (log : List Nat) (start count : Nat) : Option (List Nat) :=
  if start + count ≤ log.length then some ((log.drop start).take count) else none

/-- `WAL.Read` (lines 652-679).  Returned state reflects the lazy segment
load the read performs. -/
def readOp (w : WAL) (index : Nat) : Except Err (List Nat) × WAL :=
  match w.checkIndex index with
  | some e => (.error e, w)
  | none =>
    let si := w.searchSegmentIndex index
    if si < 0 ∨ w.segments.length ≤ si.toNat then (.error .panic, w)
    else
      match loadSegmentAt w si.toNat with
      | (some e, w') => (.error e, w')
      | (none, w') =>
        let s := w'.segments.getD si.toNat defaultSeg
        match readAt s.log (s.readIndex index).1
            ((s.readIndex index).2 - (s.readIndex index).1) with
        | none => (.error .io, w')
        | some entryData =>
          if entryData.length - (decodeVarint entryData).1 ≠ (decodeVarint entryData).2 then
            (.error .unexpectedSize, w')
          else (.ok (entryData.drop (decodeVarint entryData).1), w')

/-- The mmap-to-mmap copy of `WAL.copy` (lines 801-847): extract
`[offset, offset+size)` from the source file; slicing past the end of the
source mmap panics. -/
def copyRange (logBytes : List Nat) (offset size : Nat) : Option (List Nat) :=
  if offset + size ≤ logBytes.length then some ((logBytes.drop offset).take size)
  else none

/-- `WAL.Clean` (lines 682-747).  In the split path the reused segment's
index file is deleted from disk and recreated zeroed on its next load,
which is what `slots := replicate 0` captures. -/
def cleanOp (w : WAL) (index : Nat) : Option Err × WAL :=
  if index = w.firstIndex then (none, w)
  else match w.checkIndex index with
  | some e => (some e, w)
  | none =>
    let si := w.searchSegmentIndex index
    if si < 0 ∨ w.segments.length ≤ si.toNat then (some .panic, w)
    else
      let k := si.toNat
      match loadSegmentAt w k with
      | (some e, w') => (some e, w')
      | (none, w1) =>
        let s := w1.segments.getD k defaultSeg
        if s.offset = index - 1 then
          (none, { w1 with
            segments := w1.segments.drop k, firstIndex := index })
        else if w1.noSplitSegment then
          if 0 < k then
            (none, { w1 with
              segments := w1.segments.drop k,
              firstIndex := ((w1.segments.drop k).headD defaultSeg).offset + 1 })
          else (none, w1)
        else
          match copyRange s.log (s.readIndex index).1
              ((s.readIndex (s.offset + s.len)).2 - (s.readIndex index).1) with
          | none => (some .panic, w1)
          | some newLog =>
            let w2 := { w1 with
              segments := ({ offset := index - 1, len := 0,
                             slots := List.replicate (w1.segmentEntries + 1) 0,
                             log := newLog } : Segment) :: w1.segments.drop (k + 1),
              firstIndex := index }
            if w2.segments.length = 1 then resetLastSegment w2 else (none, w2)

/-- The slow path of `WAL.Truncate` (lines 779-798): copy the byte range of
the entries up to `index` out of segment `k`, drop every segment after `k`,
replace `k`'s files with the copy (its index file is deleted and will be
recreated zeroed), and reset the tail. -/
def truncSlow (w : WAL) (k : Nat) (index : Nat) : Option Err × WAL :=
  let s := w.segments.getD k defaultSeg
  match copyRange s.log (s.readIndex (s.offset + 1)).1
      ((s.readIndex index).2 - (s.readIndex (s.offset + 1)).1) with
  | none => (some .panic, w)
  | some newLog =>
    resetLastSegment { w with
      segments := w.segments.take k ++
        [{ offset := s.offset, len := 0,
           slots := List.replicate (w.segmentEntries + 1) 0, log := newLog }],
      lastIndex := index }

/-- `WAL.Truncate` (lines 750-799).  The boundary fast path (lines 764-777)
drops the tail segments without updating the `lastSegment` pointer, leaving
it stale. -/
def truncateOp (w : WAL) (index : Nat) : Option Err × WAL :=
  if index = w.lastIndex then (none, w)
  else match w.checkIndex index with
  | some e => (some e, w)
  | none =>
    let si := w.searchSegmentIndex index
    if si < 0 ∨ w.segments.length ≤ si.toNat then (some .panic, w)
    else
      let k := si.toNat
      match loadSegmentAt w k with
      | (some e, w') => (some e, w')
      | (none, w1) =>
        if k + 1 < w1.segments.length then
          match loadSegmentAt w1 (k + 1) with
          | (some e, w') => (some e, w')
          | (none, w2) =>
            if (w2.segments.getD (k + 1) defaultSeg).offset = index then
              (none, { w2 with segments := w2.segments.take (k + 1),
                               lastIndex := index, lastPtr := .stale })
            else truncSlow w2 k index
        else truncSlow w1 k index

/-- `WAL.Reset` (lines 420-435): close and delete every segment, reset the
bounds.  The write buffer is *not* cleared. -/
def resetOp (w : WAL) : Option Err × WAL :=
  if w.closed then (some .closed, w)
  else (none, { w with segments := [], firstIndex := 1, lastIndex := 0,
                       lastPtr := .none })

/-- A fresh `WAL` as produced by `Open` (lines 256-268) followed by
`WAL.load` (lines 276-348) on an empty directory, for already-validated
option values. -/
def initialWAL (SS E : Nat) (ns : Bool) : WAL :=
  { segmentSize := SS, segmentEntries := E, noSplitSegment := ns,
    closed := false, segments := [], firstIndex := 1, lastIndex := 0,
    writeBuffer := [], lastPtr := .none }

/-- The on-disk state `(offset, data file, index file slots)` of the
directory owned by a log: the file names encode the offsets, so the
directory holds one file pair per distinct offset — segments with equal
offsets share the pair, whose content is the newest such segment's
(`dedupSegs`) — and the directory walk of a later `Open` recovers exactly
these triples in ascending name (= offset) order. -/
def diskOf (w : WAL) : List (Nat × List Nat × List Nat) :=
  (dedupSegs w.segments).map (fun s => (s.offset, s.log, s.slots))

/-- `Open` + `WAL.load` (lines 247-348) over the directory of a cleanly
closed log: no sidecar or tmp files are present, so the walk classifies
every segment file as canonical and appends it in name (= offset) order;
then `firstIndex` is taken from the first segment and the tail segment is
reset.  A segment whose index file is absent carries the zero slots that
its recreation on first load produces. -/
def openFromDisk (SS E : Nat) (ns : Bool)
    (files : List (Nat × List Nat × List Nat)) : Option Err × WAL :=
  let segs := files.map (fun f =>
    ({ offset := f.1, len := 0, slots := f.2.2, log := f.2.1 } : Segment))
  match segs with
  | [] => (none, initialWAL SS E ns)
  | s0 :: _ =>
      resetLastSegment { initialWAL SS E ns with
        segments := segs, firstIndex := s0.offset + 1 }

end WAL

/-- `Options` (`wal.go` lines 186-204).  Go `int` fields are `Int`; the
suffix strings only matter through emptiness here. -/
structure Options where
  SegmentSize : Int := 0
  SegmentEntries : Int := 0
  EncodeBufferSize : Int := 0
  WriteBufferSize : Int := 0
  LogSuffix : String := ""
  IndexSuffix : String := ""
  Base : Int := 0
  NoSplitSegment : Bool := false
  deriving Repr, DecidableEq

/-- `DefaultOptions` (lines 207-217). -/
def defaultOptions : Options :=
  { SegmentSize := 1024 * 1024 * 512, SegmentEntries := 1024 * 1024 * 8,
    EncodeBufferSize := 1024 * 64, WriteBufferSize := 1024 * 1024,
    LogSuffix := ".log", IndexSuffix := ".idx", Base := 10 }

/-- `Options.check` (lines 219-244): non-positive numeric fields and empty
suffixes fall back to defaults; a base that is at least 1 but outside
`[2, 36]` is rejected with `ErrBase`. -/
def Options.check (o : Options) : Except Err Options :=
  let o1 := if o.SegmentSize < 1 then { o with SegmentSize := 1024 * 1024 * 512 } else o
  let o2 := if o1.SegmentEntries < 1 then
    { o1 with SegmentEntries := 1024 * 1024 * 8 } else o1
  let o3 := if o2.EncodeBufferSize < 1 then
    { o2 with EncodeBufferSize := 1024 * 64 } else o2
  let o4 := if o3.WriteBufferSize < 1 then
    { o3 with WriteBufferSize := 1024 * 1024 } else o3
  let o5 := if o4.LogSuffix.length < 1 then { o4 with LogSuffix := ".log" } else o4
  let o6 := if o5.IndexSuffix.length < 1 then { o5 with IndexSuffix := ".idx" } else o5
  if o6.Base < 1 then .ok { o6 with Base := 10 }
  else if o6.Base < 2 ∨ 36 < o6.Base then .error .base
  else .ok o6

/-- `Open(path, opts)` (lines 247-274) on a fresh (empty) directory:
validate the options (or take the defaults when `opts == nil`), build the
`WAL`, and run `load`, which finds no segment files. -/
def openEmptyDir (opts : Option Options) : Except Err WAL :=
  match opts with
  | some o =>
    match o.check with
    | .error e => .error e
    | .ok o' => .ok (WAL.initialWAL o'.SegmentSize.toNat o'.SegmentEntries.toNat
        o'.NoSplitSegment)
  | none => .ok (WAL.initialWAL (1024 * 1024 * 512) (1024 * 1024 * 8) false)

theorem getD_set_self (l : List Nat) (i a : Nat) (h : i < l.length) :
    (l.set i a).getD i 0 = a := by
  rw [List.getD_eq_getElem _ _ (by simpa using h)]
  simp

theorem getD_set_ne (l : List Nat) (i j a : Nat) (h : i ≠ j) :
    (l.set i a).getD j 0 = l.getD j 0 := by
  simp [List.getD_eq_getD_get?, List.getElem?_set_ne h]

theorem getD_replicate_zero (n j : Nat) :
    (List.replicate n (0 : Nat)).getD j 0 = 0 := by
  rcases lt_or_ge j n with h | h
  · rw [List.getD_eq_getElem _ _ (by simpa using h)]
    simp
  · rw [List.getD_eq_default _ _ (by simpa using h)]

theorem setSlots_length (ends slots : List Nat) (i : Nat) :
    (Segment.setSlots slots ends i).length = slots.length := by
  induction ends generalizing slots i with
  | nil => rfl
  | cons e rest ih => simp [Segment.setSlots, ih]

theorem setSlots_getD_ge (ends : List Nat) (slots : List Nat) (i j : Nat)
    (h : j < i ∨ i + ends.length ≤ j) :
    (Segment.setSlots slots ends i).getD j 0 = slots.getD j 0 := by
  induction ends generalizing slots i with
  | nil => rfl
  | cons e rest ih =>
    simp only [Segment.setSlots]
    rw [ih (slots.set i e) (i + 1) (by simp only [List.length_cons] at h; omega)]
    exact getD_set_ne slots i j e (by simp only [List.length_cons] at h; omega)

theorem setSlots_getD_lt (ends : List Nat) (slots : List Nat) (i j : Nat)
    (h1 : i ≤ j) (h2 : j < i + ends.length) (h3 : j < slots.length) :
    (Segment.setSlots slots ends i).getD j 0 = ends.getD (j - i) 0 := by
  induction ends generalizing slots i with
  | nil => exact absurd (by simpa using h2 : j < i) (by omega)
  | cons e rest ih =>
    simp only [Segment.setSlots]
    rcases Nat.eq_or_lt_of_le h1 with rfl | hlt
    · rw [setSlots_getD_ge rest _ _ _ (by omega : i < i + 1 ∨ i + 1 + rest.length ≤ i)]
      rw [Nat.sub_self, List.getD_cons_zero]
      exact getD_set_self slots i e h3
    · rw [ih (slots.set i e) (i + 1) (by omega)
        (by simp only [List.length_cons] at h2; omega) (by simpa using h3)]
      have hj : j - i = (j - (i + 1)) + 1 := by omega
      rw [hj, List.getD_cons_succ]

theorem getD_map_range (f : Nat → Nat) (n j : Nat) (h : j < n) :
    ((List.range n).map f).getD j 0 = f j := by
  rw [List.getD_eq_getElem _ _ (by simpa using h)]
  simp

theorem encAll_length_pos (es : List (List Nat)) (h : 1 ≤ es.length) :
    0 < (encAll es).length := by
  match es, h with
  | p :: es, _ =>
    rw [encAll_cons]
    have := encodeVarint_length_pos p.length
    simp [entryEnc]
    omega

/-- The payloads of the `cnt` entries owned by a segment whose baseline is
`offset`, read from the abstract content map `m` (entry `r` of the segment
is the log entry with index `offset + r`). -/
def segEs (m : Nat → List Nat) (offset cnt : Nat) : List (List Nat) :=
  (List.range cnt).map (fun j => m (offset + 1 + j))

theorem segEs_length (m : Nat → List Nat) (offset cnt : Nat) :
    (segEs m offset cnt).length = cnt := by
  simp [segEs]

/-- A consistent index mmap for a segment holding the entries `es`: slot 0
is the entry count and slot `r` the cumulative end position of entry `r`;
slots beyond the count are unconstrained residue. -/
def slotsOk (E : Nat) (slots : List Nat) (es : List (List Nat)) : Prop :=
  slots.length = E + 1 ∧ slots.getD 0 0 = es.length ∧
  ∀ r, 1 ≤ r → r ≤ es.length → slots.getD r 0 = cum es r

/-- Invariant of a non-tail segment holding payloads `es`: the data file is
fully flushed, and the index mmap is either consistent (the in-memory `len`
loaded, or zeroed by a close), or the all-zero state left behind by a
`Clean`/`Truncate` split, which the next load rebuilds from the data
file. -/
def SegWFmid (E : Nat) (s : Segment) (es : List (List Nat)) : Prop :=
  s.log = encAll es ∧ es.length ≤ E ∧
  ((slotsOk E s.slots es ∧ (s.len = es.length ∨ s.len = 0)) ∨
   (s.slots = List.replicate (E + 1) 0 ∧ s.len = 0 ∧ 1 ≤ es.length))

/-- Invariant of the tail segment: the data file followed by the write
buffer holds the encoded entries, the index mmap is consistent, and the
in-memory `len` is the entry count. -/
def SegWFlast (E : Nat) (s : Segment) (es : List (List Nat)) (buf : List Nat) : Prop :=
  s.log ++ buf = encAll es ∧ es.length ≤ E ∧ slotsOk E s.slots es ∧ s.len = es.length

/-- `segment.load` on a segment whose mmap is consistent with its fully
flushed data file is a pure in-memory reload of `len`. -/
theorem Segment.load_consistent (E : Nat) (s : Segment) (es : List (List Nat))
    (h : slotsOk E s.slots es) (hlog : s.log = encAll es) (hE : es.length ≤ E) :
    Segment.load E s = some { s with len := es.length } := by
  obtain ⟨hlen, h0, hr⟩ := h
  unfold Segment.load
  rw [h0, if_neg (by omega)]
  have hsize : s.slots.getD es.length 0 = s.log.length := by
    rcases Nat.eq_zero_or_pos es.length with hz | hpos
    · have hes : es = [] := List.length_eq_zero.mp hz
      rw [hz, h0, hz, hlog, hes, encAll_nil]
      rfl
    · rw [hr es.length hpos le_rfl, hlog, cum_length]
  rw [if_pos hsize]

/-- `segment.load` on a loadable segment (consistent mmap, or the zeroed
mmap of a recreated index file over a non-empty complete data file)
succeeds, leaves `offset` and the data file alone, sets `len` to the entry
count and establishes a consistent mmap. -/
theorem Segment.load_spec (E : Nat) (s : Segment) (es : List (List Nat))
    (hlog : s.log = encAll es) (hE : es.length ≤ E)
    (hslots : slotsOk E s.slots es ∨
      (s.slots = List.replicate (E + 1) 0 ∧ 1 ≤ es.length)) :
    ∃ slots', Segment.load E s = some { s with slots := slots', len := es.length } ∧
      slotsOk E slots' es := by
  rcases hslots with hok | ⟨hz, hne⟩
  · exact ⟨s.slots, Segment.load_consistent E s es hok hlog hE, hok⟩
  · have hpos := encAll_length_pos es hne
    unfold Segment.load
    rw [hz]
    rw [if_neg (by rw [getD_replicate_zero]; omega)]
    rw [getD_replicate_zero, getD_replicate_zero,
      if_neg (by rw [hlog]; omega)]
    rw [hlog, rebuildScan_encAll]
    dsimp only
    have hlenmap : ((List.range es.length).map fun i => 0 + cum es (i + 1)).length
        = es.length := by simp
    rw [if_neg (by rw [hlenmap]; omega)]
    refine ⟨_, by rw [hlenmap], ?_⟩
    have hsetlen : (Segment.setSlots (List.replicate (E + 1) 0)
        ((List.range es.length).map fun i => 0 + cum es (i + 1)) 1).length = E + 1 := by
      rw [setSlots_length]; simp
    refine ⟨?_, ?_, ?_⟩
    · rw [List.length_set, hsetlen]
    · exact getD_set_self _ _ _ (by rw [hsetlen]; omega)
    · intro r h1 h2
      rw [getD_set_ne _ _ _ _ (by omega)]
      rw [setSlots_getD_lt _ _ _ _ (by omega) (by rw [hlenmap]; omega)
        (by simp only [List.length_replicate]; omega)]
      rw [getD_map_range _ _ _ (by omega)]
      have hr1 : r - 1 + 1 = r := by omega
      rw [hr1, Nat.zero_add]

/-- Correctness of the binary-search loop over non-decreasing offsets: from
an interval whose outside is already classified it returns the position of
the last offset below `index` (interpreting `-1` as "none"). -/
theorem searchLoop_spec (offsets : List Nat) (index : Nat)
    (hmono : ∀ j1 j2 : Nat, j1 ≤ j2 → j2 < offsets.length →
      offsets.getD j1 0 ≤ offsets.getD j2 0)
    (low high : Int) (hlow : 0 ≤ low) (hlh : low - 1 ≤ high)
    (hhigh : high < offsets.length)
    (hI1 : ∀ j : Nat, (j : Int) < low → j < offsets.length → offsets.getD j 0 < index)
    (hI2 : ∀ j : Nat, high < (j : Int) → j < offsets.length → ¬ offsets.getD j 0 < index) :
    low - 1 ≤ WAL.searchLoop offsets index low high ∧
    WAL.searchLoop offsets index low high < offsets.length ∧
    (∀ j : Nat, (j : Int) ≤ WAL.searchLoop offsets index low high → j < offsets.length →
      offsets.getD j 0 < index) ∧
    (∀ j : Nat, WAL.searchLoop offsets index low high < (j : Int) → j < offsets.length →
      ¬ offsets.getD j 0 < index) := by
  generalize hsz : (high + 1 - low).toNat = sz
  induction sz using Nat.strong_induction_on generalizing low high with
  | _ sz ih =>
    rw [WAL.searchLoop]
    split
    · rename_i hle
      split
      · rename_i hmid
        refine ih ((high + 1 - ((low + high) / 2 + 1)).toNat) (by omega)
          ((low + high) / 2 + 1) high (by omega) (by omega) hhigh ?_ hI2 rfl |>.imp ?_ id
        · intro j hj hjlen
          have hmidnat : ((low + high) / 2).toNat < offsets.length := by omega
          rcases lt_or_ge (j : Int) ((low + high) / 2) with hcase | hcase
          · calc offsets.getD j 0 ≤ offsets.getD ((low + high) / 2).toNat 0 :=
                hmono _ _ (by omega) hmidnat
              _ < index := hmid
          · have : j = ((low + high) / 2).toNat := by omega
            rw [this]; exact hmid
        · intro h; omega
      · rename_i hmid
        refine ih ((((low + high) / 2 - 1) + 1 - low).toNat) (by omega)
          low ((low + high) / 2 - 1) hlow (by omega) (by omega) hI1 ?_ rfl
        intro j hj hjlen
        have hmidnat : ((low + high) / 2).toNat < offsets.length := by omega
        intro hcon
        rcases lt_or_ge (j:Int) ((low+high)/2).toNat with hc | hc
        · omega
        · exact hmid (lt_of_le_of_lt (hmono ((low+high)/2).toNat j (by omega) hjlen) hcon)
    · rename_i hgt
      refine ⟨by omega, by omega, ?_, ?_⟩
      · intro j hj hjlen
        exact hI1 j (by omega) hjlen
      · intro j hj hjlen
        exact hI2 j (by omega) hjlen

theorem cum_mono (es : List (List Nat)) (r1 r2 : Nat) (h : r1 ≤ r2) :
    cum es r1 ≤ cum es r2 := by
  unfold cum
  conv_rhs => rw [show es.take r2 = (es.take r2).take r1 ++ (es.take r2).drop r1 from
    (List.take_append_drop _ _).symm]
  rw [List.take_take, Nat.min_eq_left h, encAll_append]
  simp

theorem cum_succ (es : List (List Nat)) (r : Nat) (h : r < es.length) :
    cum es (r + 1) = cum es r + (entryEnc (es.getD r [])).length := by
  unfold cum
  rw [List.take_succ]
  have hget : es[r]? = some (es.getD r []) := by
    rw [List.getElem?_eq_getElem h, List.getD_eq_getElem _ _ h]
  rw [hget, encAll_append]
  simp [encAll]

theorem encAll_extract (es : List (List Nat)) (r : Nat) (h1 : 1 ≤ r)
    (h2 : r ≤ es.length) :
    ((encAll es).drop (cum es (r - 1))).take (cum es r - cum es (r - 1)) =
      entryEnc (es.getD (r - 1) []) := by
  have hdropcons : es.drop (r - 1) = es.getD (r - 1) [] :: es.drop r := by
    rw [List.drop_eq_getElem_cons (by omega : r - 1 < es.length)]
    rw [List.getD_eq_getElem _ _ (by omega : r - 1 < es.length)]
    congr 1
    congr 1
    omega
  have hsplit : encAll es = encAll (es.take (r - 1)) ++ encAll (es.drop (r - 1)) := by
    rw [← encAll_append, List.take_append_drop]
  have hcumdef : cum es (r - 1) = (encAll (es.take (r - 1))).length := rfl
  have hdelta : cum es r - cum es (r - 1) = (entryEnc (es.getD (r - 1) [])).length := by
    have := cum_succ es (r - 1) (by omega)
    have hr : r - 1 + 1 = r := by omega
    rw [hr] at this
    omega
  rw [hdelta, hsplit, hcumdef, List.drop_left, hdropcons, encAll_cons, List.take_left]

namespace WAL

/-- `offset` of the segment at list position `k` (`0` past the end, the
`defaultSeg` offset). -/
def segOffD (w : WAL) (k : Nat) : Nat := (w.segments.getD k defaultSeg).offset

/-- Logical entry count of the segment at position `k`: the following
segment's offset (`lastIndex` for the tail) minus its own offset. -/
def segCnt (w : WAL) (k : Nat) : Nat :=
  if k + 1 = w.segments.length then w.lastIndex - w.segOffD k
  else w.segOffD (k + 1) - w.segOffD k

/-- The payloads owned by segment `k` under the abstract content map `m`. -/
def segPayloads (w : WAL) (m : Nat → List Nat) (k : Nat) : List (List Nat) :=
  segEs m (w.segOffD k) (w.segCnt k)

end WAL

/-- Representation invariant of an open log with abstract contents `m`
(`m i` is the payload of the last accepted write at index `i`).  It holds
in every state reachable between public operations under the flush
discipline of `Reach` below. -/
structure WF (w : WAL) (m : Nat → List Nat) : Prop where
  esz : 1 ≤ w.segmentEntries
  ssz : 1 ≤ w.segmentSize
  notClosed : w.closed = false
  firstPos : 1 ≤ w.firstIndex
  emptyState : w.segments = [] →
    w.firstIndex = 1 ∧ w.lastIndex = 0 ∧ w.writeBuffer = [] ∧ w.lastPtr = .none
  ptrNotNone : w.segments ≠ [] → w.lastPtr ≠ .none
  bufPtr : w.writeBuffer ≠ [] → w.lastPtr = .valid
  firstOff : w.segments ≠ [] → w.segOffD 0 = w.firstIndex - 1
  lastLe : w.segments ≠ [] → w.segOffD (w.segments.length - 1) ≤ w.lastIndex
  lastPos : w.segments ≠ [] → 1 ≤ w.lastIndex
  mono : ∀ k, k + 1 < w.segments.length → w.segOffD k ≤ w.segOffD (k + 1)
  midWF : ∀ k, k + 1 < w.segments.length →
    SegWFmid w.segmentEntries (w.segments.getD k defaultSeg) (w.segPayloads m k)
  lastWF : ∀ k, k + 1 = w.segments.length →
    SegWFlast w.segmentEntries (w.segments.getD k defaultSeg) (w.segPayloads m k)
      w.writeBuffer

namespace WF

/-- Offsets are non-decreasing across any distance. -/
theorem monoLe {w : WAL} {m : Nat → List Nat} (h : WF w m) :
    ∀ j1 j2, j1 ≤ j2 → j2 < w.segments.length → w.segOffD j1 ≤ w.segOffD j2 := by
  intro j1 j2 hle hlt
  induction j2 with
  | zero => cases Nat.le_zero.mp hle; rfl
  | succ j ih =>
    rcases Nat.lt_or_ge j1 (j + 1) with hc | hc
    · exact le_trans (ih (by omega) (by omega)) (h.mono j (by omega))
    · have : j1 = j + 1 := by omega
      rw [this]

/-- `offset + count` of segment `k` is the next segment's offset, or
`lastIndex` for the tail. -/
theorem offCnt {w : WAL} {m : Nat → List Nat} (h : WF w m) (k : Nat)
    (hk : k < w.segments.length) :
    w.segOffD k + w.segCnt k =
      if k + 1 = w.segments.length then w.lastIndex else w.segOffD (k + 1) := by
  unfold WAL.segCnt
  split
  · rename_i hlast
    have hle := h.lastLe (by intro hc; rw [hc] at hk; simp at hk)
    have : w.segments.length - 1 = k := by omega
    rw [this] at hle
    omega
  · rename_i hnot
    have := h.mono k (by omega)
    omega

/-- The tail's `offset + count` is `lastIndex`. -/
theorem lastIdxEq {w : WAL} {m : Nat → List Nat} (h : WF w m)
    (hne : w.segments ≠ []) :
    w.segOffD (w.segments.length - 1) + w.segCnt (w.segments.length - 1) =
      w.lastIndex := by
  have hlen : 0 < w.segments.length := List.length_pos.mpr hne
  have := h.offCnt (w.segments.length - 1) (by omega)
  rw [if_pos (by omega)] at this
  exact this

end WF

theorem offs_getD (w : WAL) (j : Nat) :
    (w.segments.map Segment.offset).getD j 0 = w.segOffD j := by
  rcases lt_or_ge j w.segments.length with h | h
  · rw [List.getD_eq_getElem _ _ (by simpa using h)]
    rw [WAL.segOffD, List.getD_eq_getElem _ _ h]
    simp
  · rw [List.getD_eq_default _ _ (by simpa using h)]
    rw [WAL.segOffD, List.getD_eq_default _ _ h]
    rfl

/-- Under the invariant, for any in-range `index` the binary search returns
the position of the unique segment owning it. -/
theorem WF.search_found {w : WAL} {m : Nat → List Nat} (h : WF w m) (i : Nat)
    (h1 : w.firstIndex ≤ i) (h2 : i ≤ w.lastIndex) :
    ∃ k : Nat, w.searchSegmentIndex i = (k : Int) ∧ k < w.segments.length ∧
      w.segOffD k < i ∧ i ≤ w.segOffD k + w.segCnt k := by
  have hne : w.segments ≠ [] := by
    intro hc
    rcases h.emptyState hc with ⟨hf, hl, -, -⟩
    omega
  have hlen : 0 < w.segments.length := List.length_pos.mpr hne
  have hmono' : ∀ j1 j2 : Nat, j1 ≤ j2 → j2 < (w.segments.map Segment.offset).length →
      (w.segments.map Segment.offset).getD j1 0 ≤
        (w.segments.map Segment.offset).getD j2 0 := by
    intro j1 j2 hle hlt
    rw [offs_getD, offs_getD]
    exact h.monoLe j1 j2 hle (by simpa using hlt)
  have hspec := searchLoop_spec (w.segments.map Segment.offset) i hmono'
    0 ((w.segments.length : Int) - 1) (by omega) (by omega)
    (by simp only [List.length_map]; omega)
    (by intro j hj _; omega)
    (by intro j hj hjlen; simp only [List.length_map] at hjlen; omega)
  obtain ⟨hge, hlt, hI1, hI2⟩ := hspec
  simp only [List.length_map] at hlt hI1 hI2
  set r := WAL.searchLoop (w.segments.map Segment.offset) i 0
    ((w.segments.length : Int) - 1) with hr
  have hoff0 : w.segOffD 0 < i := by
    have := h.firstOff hne
    have := h.firstPos
    omega
  have hrnn : 0 ≤ r := by
    by_contra hc
    have := hI2 0 (by omega) hlen
    rw [offs_getD] at this
    exact this hoff0
  refine ⟨r.toNat, ?_, by omega, ?_, ?_⟩
  · rw [WAL.searchSegmentIndex, ← hr]
    omega
  · have := hI1 r.toNat (by omega) (by omega)
    rw [offs_getD] at this
    exact this
  · have hklen : r.toNat < w.segments.length := by omega
    have hoc := h.offCnt r.toNat hklen
    by_cases hcase : r.toNat + 1 = w.segments.length
    · rw [if_pos hcase] at hoc
      omega
    · rw [if_neg hcase] at hoc
      have := hI2 (r.toNat + 1) (by omega) (by omega)
      rw [offs_getD] at this
      omega

theorem getD_set_self' {α : Type} (l : List α) (i : Nat) (a d : α)
    (h : i < l.length) : (l.set i a).getD i d = a := by
  rw [List.getD_eq_getElem _ _ (by simpa using h)]
  simp

theorem getD_set_ne' {α : Type} (l : List α) (i j : Nat) (a d : α)
    (h : i ≠ j) : (l.set i a).getD j d = l.getD j d := by
  simp [List.getD_eq_getD_get?, List.getElem?_set_ne h]

/-- Two logs with the same segment count, offsets and `lastIndex` assign
the same payload lists to their segments. -/
theorem segPayloads_congr {w w' : WAL} (m : Nat → List Nat)
    (hlen : w'.segments.length = w.segments.length)
    (hoff : ∀ j, w'.segOffD j = w.segOffD j)
    (hlast : w'.lastIndex = w.lastIndex) (j : Nat) :
    w'.segCnt j = w.segCnt j ∧ w'.segPayloads m j = w.segPayloads m j := by
  have hcnt : w'.segCnt j = w.segCnt j := by
    unfold WAL.segCnt
    rw [hlen, hoff, hoff, hlast]
  exact ⟨hcnt, by unfold WAL.segPayloads; rw [hcnt, hoff]⟩

/-- `loadSegment` on segment `k` always succeeds under the invariant: it
normalizes the segment to its loaded state (consistent mmap, `len` equal to
the entry count) and preserves the invariant and every observable. -/
theorem WF.loadAt {w : WAL} {m : Nat → List Nat} (h : WF w m) (k : Nat) :
    ∃ w', WAL.loadSegmentAt w k = (none, w') ∧ WF w' m ∧
      w'.segmentSize = w.segmentSize ∧ w'.segmentEntries = w.segmentEntries ∧
      w'.noSplitSegment = w.noSplitSegment ∧ w'.closed = w.closed ∧
      w'.firstIndex = w.firstIndex ∧ w'.lastIndex = w.lastIndex ∧
      w'.writeBuffer = w.writeBuffer ∧ w'.lastPtr = w.lastPtr ∧
      w'.segments.length = w.segments.length ∧
      (∀ j, w'.segOffD j = w.segOffD j) ∧
      (∀ j, (w'.segments.getD j defaultSeg).log = (w.segments.getD j defaultSeg).log) ∧
      (∀ j, j ≠ k → w'.segments.getD j defaultSeg = w.segments.getD j defaultSeg) ∧
      (k < w.segments.length →
        slotsOk w.segmentEntries (w'.segments.getD k defaultSeg).slots
          (w.segPayloads m k) ∧
        (w'.segments.getD k defaultSeg).len = (w.segPayloads m k).length) := by
  rcases lt_or_ge k w.segments.length with hk | hk
  swap
  · refine ⟨w, ?_, h, rfl, rfl, rfl, rfl, rfl, rfl, rfl, rfl, rfl,
      fun j => rfl, fun j => rfl, fun j _ => rfl, fun hc => absurd hc (by omega)⟩
    unfold WAL.loadSegmentAt
    rw [List.getD_eq_default _ _ hk]
    have hload : Segment.load w.segmentEntries defaultSeg = some defaultSeg := by
      unfold Segment.load defaultSeg
      simp
    simp only [defaultSeg, ne_eq, not_true_eq_false, if_false, hload]
    show (none, { w with segments := w.segments.set k defaultSeg }) = (none, w)
    rw [List.set_eq_of_length_le hk]
  · have hE : (w.segPayloads m k).length ≤ w.segmentEntries := by
      by_cases hlast : k + 1 = w.segments.length
      · exact (h.lastWF k hlast).2.1
      · exact (h.midWF k (by omega)).2.1
    have hlen_ne : (w.segments.getD k defaultSeg).len ≠ 0 →
        slotsOk w.segmentEntries (w.segments.getD k defaultSeg).slots (w.segPayloads m k) ∧
        (w.segments.getD k defaultSeg).len = (w.segPayloads m k).length := by
      intro hne
      by_cases hlast : k + 1 = w.segments.length
      · obtain ⟨-, -, hok0, hl⟩ := h.lastWF k hlast
        exact ⟨hok0, hl⟩
      · obtain ⟨-, -, hdisj⟩ := h.midWF k (by omega)
        rcases hdisj with ⟨hok0, hl | hl⟩ | ⟨-, hl0, -⟩
        · exact ⟨hok0, hl⟩
        · exact absurd hl hne
        · exact absurd hl0 hne
    have hlen_z : (w.segments.getD k defaultSeg).len = 0 →
        (w.segments.getD k defaultSeg).log = encAll (w.segPayloads m k) ∧
        (slotsOk w.segmentEntries (w.segments.getD k defaultSeg).slots (w.segPayloads m k) ∨
         ((w.segments.getD k defaultSeg).slots = List.replicate (w.segmentEntries + 1) 0 ∧
          1 ≤ (w.segPayloads m k).length)) := by
      intro hz
      by_cases hlast : k + 1 = w.segments.length
      · obtain ⟨hb, -, hok0, hl⟩ := h.lastWF k hlast
        have hesnil : w.segPayloads m k = [] := List.length_eq_zero.mp (by omega)
        have hlog0 : (w.segments.getD k defaultSeg).log = [] := by
          rw [hesnil, encAll_nil] at hb
          exact (List.append_eq_nil.mp hb).1
        exact ⟨by rw [hlog0, hesnil, encAll_nil], Or.inl hok0⟩
      · obtain ⟨hb, -, hdisj⟩ := h.midWF k (by omega)
        refine ⟨hb, ?_⟩
        rcases hdisj with ⟨hok0, -⟩ | ⟨hrep, -, hpos⟩
        · exact Or.inl hok0
        · exact Or.inr ⟨hrep, hpos⟩
    unfold WAL.loadSegmentAt
    by_cases hz : (w.segments.getD k defaultSeg).len = 0
    swap
    · rw [if_pos hz]
      obtain ⟨hok0, hl⟩ := hlen_ne hz
      exact ⟨w, rfl, h, rfl, rfl, rfl, rfl, rfl, rfl, rfl, rfl, rfl,
        fun j => rfl, fun j => rfl, fun j _ => rfl, fun _ => ⟨hok0, hl⟩⟩
    · rw [if_neg (by simpa using hz)]
      obtain ⟨hlog, hslots⟩ := hlen_z hz
      obtain ⟨slots', hloadeq, hok'⟩ := Segment.load_spec _ _ _ hlog hE hslots
      rw [hloadeq]
      set s' : Segment := { w.segments.getD k defaultSeg with slots := slots', len := (w.segPayloads m k).length } with hs'
      set w2 : WAL := { w with segments := w.segments.set k s' } with hw2
      have hlen2 : w2.segments.length = w.segments.length := by
        rw [hw2]; simp
      have hgetk : w2.segments.getD k defaultSeg = s' := by
        rw [hw2]
        exact getD_set_self' _ _ _ _ (by simpa using hk)
      have hgetne : ∀ j, j ≠ k → w2.segments.getD j defaultSeg = w.segments.getD j defaultSeg := by
        intro j hne
        rw [hw2]
        exact getD_set_ne' _ _ _ _ _ (Ne.symm hne)
      have hoff : ∀ j, w2.segOffD j = w.segOffD j := by
        intro j
        rcases eq_or_ne j k with rfl | hne
        · rw [WAL.segOffD, hgetk, hs']
          rfl
        · rw [WAL.segOffD, hgetne j hne]
          rfl
      have hcng := fun j => segPayloads_congr m hlen2 hoff rfl j
      have hwne : w2.segments ≠ [] → w.segments ≠ [] := by
        intro _ hc
        rw [hc] at hk
        simp at hk
      refine ⟨w2, rfl, ?_, rfl, rfl, rfl, rfl, rfl, rfl, rfl, rfl, hlen2, hoff, ?_,
        hgetne, ?_⟩
      · refine
          { esz := h.esz
            ssz := h.ssz
            notClosed := h.notClosed
            firstPos := h.firstPos
            emptyState := ?_
            ptrNotNone := ?_
            bufPtr := h.bufPtr
            firstOff := ?_
            lastLe := ?_
            lastPos := ?_
            mono := ?_
            midWF := ?_
            lastWF := ?_ }
        · intro hc
          have hcl : w.segments.length = 0 := by
            rw [← hlen2, hc]
            rfl
          exact absurd hcl (by omega)
        · intro hne
          exact h.ptrNotNone (hwne hne)
        · intro hne
          rw [hoff 0]
          exact h.firstOff (hwne hne)
        · intro hne
          rw [hlen2, hoff]
          exact h.lastLe (hwne hne)
        · intro hne
          exact h.lastPos (hwne hne)
        · intro j hj
          rw [hoff, hoff]
          exact h.mono j (by rw [hlen2] at hj; exact hj)
        · intro j hj
          rw [hlen2] at hj
          rw [(hcng j).2]
          rcases eq_or_ne j k with rfl | hne
          · rw [hgetk, hs']
            exact ⟨hlog, hE, Or.inl ⟨hok', Or.inl rfl⟩⟩
          · rw [hgetne j hne]
            exact h.midWF j hj
        · intro j hj
          rw [hlen2] at hj
          rw [(hcng j).2]
          rcases eq_or_ne j k with rfl | hne
          · rw [hgetk, hs']
            obtain ⟨hb0, hE0, hok0, hl0⟩ := h.lastWF j hj
            exact ⟨hb0, hE0, hok', rfl⟩
          · rw [hgetne j hne]
            exact h.lastWF j hj
      · intro j
        rcases eq_or_ne j k with rfl | hne
        · rw [hgetk, hs']
        · rw [hgetne j hne]
      · intro _
        rw [hgetk, hs']
        exact ⟨hok', rfl⟩

theorem segEs_getD (m : Nat → List Nat) (offset cnt r : Nat)
    (h1 : 1 ≤ r) (h2 : r ≤ cnt) :
    (segEs m offset cnt).getD (r - 1) [] = m (offset + r) := by
  unfold segEs
  rw [List.getD_eq_getElem _ _ (by simp only [List.length_map, List.length_range]; omega)]
  simp only [List.getElem_map, List.getElem_range]
  congr 1
  omega

/-- `segment.readIndex` on a consistent mmap returns the byte range of the
entry. -/
theorem readIndex_spec (E : Nat) (s : Segment) (es : List (List Nat))
    (hok : slotsOk E s.slots es) (i r : Nat)
    (hr : i - s.offset = r) (h1 : 1 ≤ r) (h2 : r ≤ es.length) :
    s.readIndex i = (cum es (r - 1), cum es r) := by
  obtain ⟨-, -, hslot⟩ := hok
  unfold Segment.readIndex
  rw [hr]
  rcases eq_or_ne r 1 with rfl | hne
  · rw [if_pos rfl, hslot 1 le_rfl h2]
    rfl
  · rw [if_neg hne, hslot (r - 1) (by omega) (by omega), hslot r h1 h2]

/-- `WAL.Read` returns the abstract payload at every in-range index of a
fully flushed log, and preserves the invariant. -/
theorem WF.read_ok {w : WAL} {m : Nat → List Nat} (h : WF w m)
    (hbuf : w.writeBuffer = []) (i : Nat)
    (h1 : w.firstIndex ≤ i) (h2 : i ≤ w.lastIndex) :
    ∃ w', WAL.readOp w i = (.ok (m i), w') ∧ WF w' m ∧
      w'.firstIndex = w.firstIndex ∧ w'.lastIndex = w.lastIndex ∧
      w'.writeBuffer = w.writeBuffer ∧ w'.closed = w.closed ∧
      w'.lastPtr = w.lastPtr ∧ w'.segments.length = w.segments.length := by
  have hchk : w.checkIndex i = none := by
    unfold WAL.checkIndex
    rw [h.notClosed]
    have := h.firstPos
    rw [if_neg (by simp), if_neg (by push_neg; omega)]
  obtain ⟨k, hsk, hklen, hlo, hhi⟩ := h.search_found i h1 h2
  obtain ⟨w', hload, hwf', hsz', hE', hns', hcl', hfi', hli', hwb', hlp', hlen', hoff',
    hlog', hgd', hfacts⟩ := h.loadAt k
  obtain ⟨hok', hslen'⟩ := hfacts hklen
  -- the byte content of segment k is its full encoding (buffer empty)
  have hbytes : (w.segments.getD k defaultSeg).log = encAll (w.segPayloads m k) := by
    by_cases hlast : k + 1 = w.segments.length
    · have := (h.lastWF k hlast).1
      rw [hbuf, List.append_nil] at this
      exact this
    · exact (h.midWF k (by omega)).1
  have hcnt : (w.segPayloads m k).length = w.segCnt k := segEs_length m _ _
  set r := i - w.segOffD k with hrdef
  have hr1 : 1 ≤ r := by omega
  have hr2 : r ≤ (w.segPayloads m k).length := by omega
  have hsoff : (w'.segments.getD k defaultSeg).offset = w.segOffD k := hoff' k
  have hslog : (w'.segments.getD k defaultSeg).log = encAll (w.segPayloads m k) := by
    rw [hlog' k, hbytes]
  have hri : (w'.segments.getD k defaultSeg).readIndex i =
      (cum (w.segPayloads m k) (r - 1), cum (w.segPayloads m k) r) := by
    refine readIndex_spec w.segmentEntries _ _ hok' i r ?_ hr1 hr2
    rw [hsoff]
  have hcumle : cum (w.segPayloads m k) r ≤
      (encAll (w.segPayloads m k)).length := by
    rw [← cum_length]
    exact cum_mono _ _ _ hr2
  have hread : WAL.readAt (w'.segments.getD k defaultSeg).log
      (cum (w.segPayloads m k) (r - 1))
      (cum (w.segPayloads m k) r - cum (w.segPayloads m k) (r - 1)) =
      some (entryEnc ((w.segPayloads m k).getD (r - 1) [])) := by
    unfold WAL.readAt
    have hmle : cum (w.segPayloads m k) (r - 1) ≤ cum (w.segPayloads m k) r :=
      cum_mono _ _ _ (by omega)
    rw [if_pos (by rw [hslog]; omega)]
    rw [hslog, encAll_extract _ r hr1 hr2]
  have hpay : (w.segPayloads m k).getD (r - 1) [] = m i := by
    have hstep : (w.segPayloads m k).getD (r - 1) [] = m (w.segOffD k + r) := by
      have h2' : r ≤ w.segCnt k := by omega
      exact segEs_getD m (w.segOffD k) (w.segCnt k) r hr1 h2'
    rw [hstep]
    congr 1
    omega
  -- assemble the run of readOp
  refine ⟨w', ?_, hwf', hfi', hli', hwb', hcl', hlp', hlen'⟩
  unfold WAL.readOp
  rw [hchk, hsk]
  rw [if_neg (by push_neg; exact ⟨by omega, by omega⟩)]
  rw [show ((k : Int)).toNat = k from by omega, hload]
  dsimp only
  rw [hri]
  dsimp only
  rw [hread]
  dsimp only
  rw [hpay]
  have hdec := decodeVarint_encodeVarint (m i).length (m i)
  rw [show entryEnc (m i) = encodeVarint (m i).length ++ (m i) from rfl]
  rw [hdec]
  dsimp only
  rw [if_neg (by
    simp only [List.length_append]
    omega)]
  rw [List.drop_left]


theorem setLast_length (ss : List Segment) (s : Segment) :
    (WAL.setLast ss s).length = ss.length := by
  simp [WAL.setLast]

theorem setLast_getD_last (ss : List Segment) (s : Segment) (hne : ss ≠ []) :
    (WAL.setLast ss s).getD (ss.length - 1) defaultSeg = s := by
  unfold WAL.setLast
  have hlen : 0 < ss.length := List.length_pos.mpr hne
  exact getD_set_self' _ _ _ _ (by omega)

theorem setLast_getD_ne (ss : List Segment) (s : Segment) (j : Nat)
    (hj : j ≠ ss.length - 1) :
    (WAL.setLast ss s).getD j defaultSeg = ss.getD j defaultSeg := by
  unfold WAL.setLast
  exact getD_set_ne' _ _ _ _ _ (Ne.symm hj)

theorem lastSeg_eq_getD (w : WAL) (hne : w.segments ≠ []) :
    WAL.lastSeg w = w.segments.getD (w.segments.length - 1) defaultSeg := by
  unfold WAL.lastSeg
  have hlen : 0 < w.segments.length := List.length_pos.mpr hne
  rw [List.getLastD_eq_getLast?, List.getLast?_eq_getElem?]
  rw [List.getD_eq_getD_get?, List.get?_eq_getElem?]

theorem getD_append_last {α : Type} (ss : List α) (x d : α) :
    (ss ++ [x]).getD ss.length d = x := by
  rw [List.getD_append_right _ _ _ _ le_rfl]
  simp

theorem getD_append_lt {α : Type} (ss : List α) (x d : α) (j : Nat)
    (hj : j < ss.length) :
    (ss ++ [x]).getD j d = ss.getD j d := by
  rw [List.getD_append _ _ _ _ hj]

theorem segEs_congr (m1 m2 : Nat → List Nat) (offset cnt : Nat)
    (h : ∀ j, offset < j → j ≤ offset + cnt → m1 j = m2 j) :
    segEs m1 offset cnt = segEs m2 offset cnt := by
  unfold segEs
  apply List.map_congr_left
  intro j hj
  rw [List.mem_range] at hj
  exact h (offset + 1 + j) (by omega) (by omega)

theorem segEs_snoc (m : Nat → List Nat) (offset cnt : Nat) :
    segEs m offset (cnt + 1) = segEs m offset cnt ++ [m (offset + 1 + cnt)] := by
  unfold segEs
  rw [List.range_succ, List.map_append]
  rfl

theorem cum_append_le (es fs : List (List Nat)) (r : Nat) (hr : r ≤ es.length) :
    cum (es ++ fs) r = cum es r := by
  unfold cum
  rw [List.take_append_of_le_length hr]

theorem chainMono (off : Nat → Nat) (n : Nat)
    (hmono : ∀ k, k + 1 < n → off k ≤ off (k + 1)) :
    ∀ j1 j2, j1 ≤ j2 → j2 < n → off j1 ≤ off j2 := by
  intro j1 j2 hle hlt
  induction j2 with
  | zero => cases Nat.le_zero.mp hle; rfl
  | succ j ih =>
    rcases Nat.lt_or_ge j1 (j + 1) with hc | hc
    · exact le_trans (ih (by omega) (by omega)) (hmono j (by omega))
    · have : j1 = j + 1 := by omega
      rw [this]

/-- The slot and buffer update at the end of `WAL.Write` (lines 515-523)
establishes the invariant for the extended content map, starting from a
state whose tail is ready to accept entry `i` (the state right after the
first-write or rollover bookkeeping; when the log was empty `lastPos` does
not hold yet, so the premises are spelled out instead of `WF`). -/
theorem writeInto_wf (v : WAL) (m : Nat → List Nat) (i : Nat) (d : List Nat)
    (hesz : 1 ≤ v.segmentEntries) (hssz : 1 ≤ v.segmentSize)
    (hcl : v.closed = false) (hfp : 1 ≤ v.firstIndex)
    (hne : v.segments ≠ []) (hptr : v.lastPtr = .valid)
    (hlst : v.lastIndex = i - 1) (hi : 1 ≤ i)
    (hfo : v.segOffD 0 = v.firstIndex - 1)
    (hmono : ∀ k, k + 1 < v.segments.length → v.segOffD k ≤ v.segOffD (k + 1))
    (hll : v.segOffD (v.segments.length - 1) ≤ v.lastIndex)
    (hmid : ∀ k, k + 1 < v.segments.length →
      SegWFmid v.segmentEntries (v.segments.getD k defaultSeg) (v.segPayloads m k))
    (hlwf : SegWFlast v.segmentEntries
      (v.segments.getD (v.segments.length - 1) defaultSeg)
      (v.segPayloads m (v.segments.length - 1)) v.writeBuffer)
    (hcap : i - v.segOffD (v.segments.length - 1) ≤ v.segmentEntries) :
    WF (WAL.writeInto v i d (WAL.lastSeg v).log.length)
      (fun j => if j = i then d else m j) := by
  have hn : 0 < v.segments.length := List.length_pos.mpr hne
  have hlastgd := lastSeg_eq_getD v hne
  obtain ⟨hbytes, hE, hok, hlen⟩ := hlwf
  have hsoff : (WAL.lastSeg v).offset = v.segOffD (v.segments.length - 1) := by
    rw [hlastgd]; rfl
  have hcnt : v.segCnt (v.segments.length - 1) =
      v.lastIndex - v.segOffD (v.segments.length - 1) := by
    unfold WAL.segCnt
    rw [if_pos (by omega)]
  have heslen : (v.segPayloads m (v.segments.length - 1)).length =
      v.segCnt (v.segments.length - 1) := segEs_length m _ _
  have hoffle : v.segOffD (v.segments.length - 1) ≤ i - 1 := by omega
  have hentries : i - (WAL.lastSeg v).offset =
      v.segCnt (v.segments.length - 1) + 1 := by
    rw [hsoff]
    omega
  -- the new payload list of the tail
  have hes' : segEs (fun j => if j = i then d else m j)
        (v.segOffD (v.segments.length - 1))
        (v.segCnt (v.segments.length - 1) + 1) =
      v.segPayloads m (v.segments.length - 1) ++ [d] := by
    rw [segEs_snoc]
    congr 1
    · refine segEs_congr _ m _ _ ?_
      intro j hj1 hj2
      rw [if_neg (by omega)]
    · rw [if_pos (by omega)]
  unfold WAL.writeInto
  dsimp only
  rw [← hlastgd] at hok hbytes hlen
  set E := v.segmentEntries with hEdef
  set s := WAL.lastSeg v with hsdef
  set entries := i - s.offset with hentdef
  set slots' := (s.slots.set 0 entries).set entries
    (s.log.length + v.writeBuffer.length + (entryEnc d).length) with hslots'
  set es' := v.segPayloads m (v.segments.length - 1) ++ [d] with hesdef'
  have hen : entries = v.segCnt (v.segments.length - 1) + 1 := hentries
  have heslen' : es'.length = entries := by
    rw [hesdef', List.length_append, heslen, hen]
    rfl
  have hslotlen : s.slots.length = E + 1 := hok.1
  have hentE : entries ≤ E := by
    rw [hentdef, hsoff]
    exact hcap
  have hencAll' : encAll es' = encAll (v.segPayloads m (v.segments.length - 1)) ++ entryEnc d := by
    rw [hesdef', encAll_append, encAll_cons, encAll_nil, List.append_nil]
  have hok' : slotsOk E slots' es' := by
    refine ⟨by rw [hslots']; simp [hslotlen], ?_, ?_⟩
    · rw [heslen', hslots']
      rw [getD_set_ne _ _ _ _ (by omega), getD_set_self _ _ _ (by omega)]
    · intro r h1 h2
      rw [heslen'] at h2
      rcases eq_or_ne r entries with hre | hrne
      · rw [hre, hslots', getD_set_self _ _ _ (by simp only [List.length_set, hslotlen]; omega)]
        have hc1 : cum es' entries = (encAll es').length := by
          rw [← heslen', cum_length]
        rw [hc1, hencAll']
        have hb := congrArg List.length hbytes
        simp only [List.length_append] at hb ⊢
        omega
      · rw [hslots', getD_set_ne _ _ _ _ (Ne.symm hrne), getD_set_ne _ _ _ _ (by omega)]
        have hrle : r ≤ (v.segPayloads m (v.segments.length - 1)).length := by
          omega
        rw [hok.2.2 r h1 (by omega), hesdef', cum_append_le _ _ _ hrle]
  -- offsets of the result
  have hoff' : ∀ j, ((WAL.setLast v.segments
      { s with slots := slots', len := entries }).getD j defaultSeg).offset =
      v.segOffD j := by
    intro j
    rcases eq_or_ne j (v.segments.length - 1) with rfl | hne2
    · rw [setLast_getD_last _ _ hne]
      rw [WAL.segOffD, ← hlastgd]
    · rw [setLast_getD_ne _ _ _ hne2]
      rfl
  constructor
  case esz => exact hesz
  case ssz => exact hssz
  case notClosed => exact hcl
  case firstPos => exact hfp
  case emptyState =>
    intro hc
    dsimp only at hc
    have hl2 := setLast_length v.segments
      ({ s with slots := slots', len := entries } : Segment)
    rw [hc] at hl2
    simp at hl2
    omega
  case ptrNotNone =>
    intro _
    rw [hptr]
    simp
  case bufPtr =>
    intro _
    exact hptr
  case firstOff =>
    intro _
    show ((WAL.setLast v.segments _).getD 0 defaultSeg).offset = v.firstIndex - 1
    rw [hoff' 0]
    exact hfo
  case lastLe =>
    intro _
    show ((WAL.setLast v.segments _).getD _ defaultSeg).offset ≤ i
    rw [setLast_length, hoff']
    omega
  case lastPos =>
    intro _
    exact hi
  case mono =>
    intro k hk
    show ((WAL.setLast v.segments _).getD k defaultSeg).offset ≤
      ((WAL.setLast v.segments _).getD (k + 1) defaultSeg).offset
    rw [hoff', hoff']
    rw [setLast_length] at hk
    exact hmono k hk
  case midWF =>
    intro k hk
    rw [setLast_length] at hk
    have hkne : k ≠ v.segments.length - 1 := by omega
    show SegWFmid E ((WAL.setLast v.segments _).getD k defaultSeg) _
    rw [setLast_getD_ne _ _ _ hkne]
    -- payloads of segment k are unchanged: its indices are at most i - 1
    have hcnt'' : WAL.segCnt { v with
        segments := WAL.setLast v.segments { s with slots := slots', len := entries },
        writeBuffer := v.writeBuffer ++ entryEnc d, lastIndex := i } k = v.segCnt k := by
      unfold WAL.segCnt
      rw [if_neg (by rw [setLast_length]; omega), if_neg (by omega)]
      show (WAL.setLast v.segments _ |>.getD (k+1) defaultSeg).offset -
          (WAL.setLast v.segments _ |>.getD k defaultSeg).offset = _
      rw [hoff', hoff']
    have hlim : v.segOffD k + v.segCnt k ≤ i - 1 := by
      have hmk := hmono k hk
      have hchain := chainMono v.segOffD v.segments.length hmono (k + 1)
        (v.segments.length - 1) (by omega) (by omega)
      unfold WAL.segCnt
      rw [if_neg (by omega)]
      omega
    have hpay : WAL.segPayloads { v with
        segments := WAL.setLast v.segments { s with slots := slots', len := entries },
        writeBuffer := v.writeBuffer ++ entryEnc d, lastIndex := i }
          (fun j => if j = i then d else m j) k = v.segPayloads m k := by
      unfold WAL.segPayloads
      rw [hcnt'']
      show segEs _ ((WAL.setLast v.segments _ |>.getD k defaultSeg).offset) _ = _
      rw [hoff']
      refine segEs_congr _ m _ _ ?_
      intro j hj1 hj2
      rw [if_neg (by omega)]
    rw [hpay]
    exact hmid k hk
  case lastWF =>
    intro k hk
    rw [setLast_length] at hk
    have hkeq : k = v.segments.length - 1 := by omega
    subst hkeq
    show SegWFlast E ((WAL.setLast v.segments _).getD _ defaultSeg) _ _
    rw [setLast_getD_last _ _ hne]
    have hcnt'' : WAL.segCnt { v with
        segments := WAL.setLast v.segments { s with slots := slots', len := entries },
        writeBuffer := v.writeBuffer ++ entryEnc d, lastIndex := i }
          (v.segments.length - 1) = entries := by
      unfold WAL.segCnt
      rw [if_pos (by rw [setLast_length]; omega)]
      show i - (WAL.setLast v.segments _ |>.getD _ defaultSeg).offset = _
      rw [hoff']
      rw [hentdef, hsoff]
    have hpay : WAL.segPayloads { v with
        segments := WAL.setLast v.segments { s with slots := slots', len := entries },
        writeBuffer := v.writeBuffer ++ entryEnc d, lastIndex := i }
          (fun j => if j = i then d else m j) (v.segments.length - 1) = es' := by
      unfold WAL.segPayloads
      rw [hcnt'']
      show segEs _ ((WAL.setLast v.segments _ |>.getD _ defaultSeg).offset) _ = _
      rw [hoff', hen]
      exact hes'
    rw [hpay]
    refine ⟨?_, by rw [heslen']; exact hentE, hok', by rw [heslen']⟩
    show s.log ++ (v.writeBuffer ++ entryEnc d) = encAll es'
    rw [← List.append_assoc, hbytes, hencAll']

/-- `WAL.flush` always succeeds under the invariant (an empty buffer is a
no-op; otherwise the pointer is valid and the buffered bytes move to the
tail data file), preserving the invariant and all observables. -/
theorem WF.flush_ok {w : WAL} {m : Nat → List Nat} (h : WF w m) :
    ∃ w3, WAL.flushOp w = (none, w3) ∧ WF w3 m ∧ w3.writeBuffer = [] ∧
      w3.segmentSize = w.segmentSize ∧ w3.segmentEntries = w.segmentEntries ∧
      w3.noSplitSegment = w.noSplitSegment ∧ w3.closed = w.closed ∧
      w3.firstIndex = w.firstIndex ∧ w3.lastIndex = w.lastIndex ∧
      w3.lastPtr = w.lastPtr ∧
      w3.segments.length = w.segments.length ∧
      (∀ j, w3.segOffD j = w.segOffD j) ∧
      (∀ k, k + 1 < w.segments.length →
        w3.segments.getD k defaultSeg = w.segments.getD k defaultSeg) := by
  by_cases hbuf : w.writeBuffer = []
  · refine ⟨w, ?_, h, hbuf, rfl, rfl, rfl, rfl, rfl, rfl, rfl, rfl,
      fun j => rfl, fun k _ => rfl⟩
    unfold WAL.flushOp
    rw [if_neg (by rw [h.notClosed]; simp), if_pos hbuf]
  · have hptr := h.bufPtr hbuf
    have hne : w.segments ≠ [] := by
      intro hc
      exact hbuf (h.emptyState hc).2.2.1
    have hn : 0 < w.segments.length := List.length_pos.mpr hne
    have hlastgd := lastSeg_eq_getD w hne
    have hoff3 : ∀ j, ((WAL.setLast w.segments { WAL.lastSeg w with log := (WAL.lastSeg w).log ++ w.writeBuffer }).getD j defaultSeg).offset = w.segOffD j := by
      intro j
      rcases eq_or_ne j (w.segments.length - 1) with rfl | hne2
      · rw [setLast_getD_last _ _ hne, hlastgd]
        rfl
      · rw [setLast_getD_ne _ _ _ hne2]
        rfl
    have hlenpres : (WAL.setLast w.segments { WAL.lastSeg w with log := (WAL.lastSeg w).log ++ w.writeBuffer }).length = w.segments.length := setLast_length _ _
    have hcnt3 : ∀ k, WAL.segCnt { w with segments := WAL.setLast w.segments { WAL.lastSeg w with log := (WAL.lastSeg w).log ++ w.writeBuffer }, writeBuffer := [] } k = w.segCnt k := by
      intro k
      unfold WAL.segCnt
      show (if k + 1 = (WAL.setLast w.segments _).length then w.lastIndex - ((WAL.setLast w.segments _).getD k defaultSeg).offset else ((WAL.setLast w.segments _).getD (k+1) defaultSeg).offset - ((WAL.setLast w.segments _).getD k defaultSeg).offset) = _
      rw [hlenpres, hoff3, hoff3]
    have hpay3 : ∀ k, WAL.segPayloads { w with segments := WAL.setLast w.segments { WAL.lastSeg w with log := (WAL.lastSeg w).log ++ w.writeBuffer }, writeBuffer := [] } m k = w.segPayloads m k := by
      intro k
      unfold WAL.segPayloads
      rw [hcnt3]
      show segEs m (((WAL.setLast w.segments _).getD k defaultSeg).offset) _ = _
      rw [hoff3]
    refine ⟨{ w with segments := WAL.setLast w.segments { WAL.lastSeg w with log := (WAL.lastSeg w).log ++ w.writeBuffer }, writeBuffer := [] }, ?_, ?_, rfl, rfl, rfl, rfl, rfl, rfl, rfl, rfl, by rw [setLast_length], hoff3, fun k hk => setLast_getD_ne _ _ _ (by omega)⟩
    · unfold WAL.flushOp
      rw [if_neg (by rw [h.notClosed]; simp), if_neg hbuf, hptr]
    refine
      { esz := h.esz
        ssz := h.ssz
        notClosed := h.notClosed
        firstPos := h.firstPos
        emptyState := ?_
        ptrNotNone := ?_
        bufPtr := ?_
        firstOff := ?_
        lastLe := ?_
        lastPos := ?_
        mono := ?_
        midWF := ?_
        lastWF := ?_ }
    · intro hc
      dsimp only at hc
      rw [hc] at hlenpres
      simp at hlenpres
      omega
    · intro _
      show w.lastPtr ≠ _
      rw [hptr]
      simp
    · intro hc
      exact absurd rfl hc
    · intro _
      show ((WAL.setLast w.segments _).getD 0 defaultSeg).offset = _
      rw [hoff3]
      exact h.firstOff hne
    · intro _
      show ((WAL.setLast w.segments _).getD ((WAL.setLast w.segments _).length - 1) defaultSeg).offset ≤ _
      rw [hlenpres, hoff3]
      exact h.lastLe hne
    · intro _
      exact h.lastPos hne
    · intro k hk
      rw [show ({ w with segments := WAL.setLast w.segments { WAL.lastSeg w with log := (WAL.lastSeg w).log ++ w.writeBuffer }, writeBuffer := [] } : WAL).segments.length = w.segments.length from hlenpres] at hk
      show ((WAL.setLast w.segments _).getD k defaultSeg).offset ≤ ((WAL.setLast w.segments _).getD (k+1) defaultSeg).offset
      rw [hoff3, hoff3]
      exact h.mono k hk
    · intro k hk
      rw [show ({ w with segments := WAL.setLast w.segments { WAL.lastSeg w with log := (WAL.lastSeg w).log ++ w.writeBuffer }, writeBuffer := [] } : WAL).segments.length = w.segments.length from hlenpres] at hk
      rw [hpay3]
      show SegWFmid _ ((WAL.setLast w.segments _).getD k defaultSeg) _
      rw [setLast_getD_ne _ _ _ (by omega)]
      exact h.midWF k hk
    · intro k hk
      rw [show ({ w with segments := WAL.setLast w.segments { WAL.lastSeg w with log := (WAL.lastSeg w).log ++ w.writeBuffer }, writeBuffer := [] } : WAL).segments.length = w.segments.length from hlenpres] at hk
      rw [hpay3]
      show SegWFlast _ ((WAL.setLast w.segments _).getD k defaultSeg) _ []
      have hkeq : k = w.segments.length - 1 := by omega
      subst hkeq
      rw [setLast_getD_last _ _ hne]
      obtain ⟨hb, hE, hok, hl⟩ := h.lastWF (w.segments.length - 1) (by omega)
      rw [← hlastgd] at hb hok hl
      refine ⟨?_, hE, ?_, ?_⟩
      · show ((WAL.lastSeg w).log ++ w.writeBuffer) ++ [] = _
        rw [List.append_nil]
        exact hb
      · exact hok
      · exact hl

theorem closeLast_fields (u : WAL) :
    (WAL.closeLastSegment u).segmentSize = u.segmentSize ∧
    (WAL.closeLastSegment u).segmentEntries = u.segmentEntries ∧
    (WAL.closeLastSegment u).noSplitSegment = u.noSplitSegment ∧
    (WAL.closeLastSegment u).closed = u.closed ∧
    (WAL.closeLastSegment u).firstIndex = u.firstIndex ∧
    (WAL.closeLastSegment u).lastIndex = u.lastIndex ∧
    (WAL.closeLastSegment u).writeBuffer = u.writeBuffer ∧
    (WAL.closeLastSegment u).lastPtr = u.lastPtr := by
  unfold WAL.closeLastSegment
  cases hp : u.lastPtr <;>
    exact ⟨rfl, rfl, rfl, rfl, rfl, rfl, rfl, by first | rfl | rw [hp]⟩

theorem closeLast_seg_length (u : WAL) :
    (WAL.closeLastSegment u).segments.length = u.segments.length := by
  unfold WAL.closeLastSegment
  cases u.lastPtr
  · rfl
  · exact setLast_length _ _
  · rfl

theorem closeLast_getD_ne (u : WAL) (j : Nat) (hj : j ≠ u.segments.length - 1) :
    (WAL.closeLastSegment u).segments.getD j defaultSeg =
      u.segments.getD j defaultSeg := by
  unfold WAL.closeLastSegment
  cases u.lastPtr
  · rfl
  · exact setLast_getD_ne _ _ _ hj
  · rfl

theorem closeLast_getD_offset (u : WAL) (j : Nat) :
    ((WAL.closeLastSegment u).segments.getD j defaultSeg).offset = u.segOffD j := by
  rcases eq_or_ne j (u.segments.length - 1) with rfl | hj
  swap
  · rw [closeLast_getD_ne u j hj]
    rfl
  · unfold WAL.closeLastSegment
    cases hp : u.lastPtr
    · rfl
    · rcases eq_or_ne u.segments [] with hnil | hne
      · rw [WAL.segOffD, hnil]
        rfl
      · rw [setLast_getD_last _ _ hne, lastSeg_eq_getD u hne]
        rfl
    · rfl

theorem closeLast_getD_slots (u : WAL) (j : Nat) :
    ((WAL.closeLastSegment u).segments.getD j defaultSeg).slots =
      (u.segments.getD j defaultSeg).slots := by
  rcases eq_or_ne j (u.segments.length - 1) with rfl | hj
  swap
  · rw [closeLast_getD_ne u j hj]
  · unfold WAL.closeLastSegment
    cases hp : u.lastPtr
    · rfl
    · rcases eq_or_ne u.segments [] with hnil | hne
      · rw [hnil]
        rfl
      · rw [setLast_getD_last _ _ hne, lastSeg_eq_getD u hne]
        rfl
    · rfl

theorem closeLast_getD_log (u : WAL) (j : Nat) :
    ((WAL.closeLastSegment u).segments.getD j defaultSeg).log =
      (u.segments.getD j defaultSeg).log := by
  rcases eq_or_ne j (u.segments.length - 1) with rfl | hj
  swap
  · rw [closeLast_getD_ne u j hj]
  · unfold WAL.closeLastSegment
    cases hp : u.lastPtr
    · rfl
    · rcases eq_or_ne u.segments [] with hnil | hne
      · rw [hnil]
        rfl
      · rw [setLast_getD_last _ _ hne, lastSeg_eq_getD u hne]
        rfl
    · rfl

theorem closeLast_getD_len (u : WAL) (j : Nat) :
    ((WAL.closeLastSegment u).segments.getD j defaultSeg).len =
      (u.segments.getD j defaultSeg).len ∨
    ((WAL.closeLastSegment u).segments.getD j defaultSeg).len = 0 := by
  rcases eq_or_ne j (u.segments.length - 1) with rfl | hj
  swap
  · rw [closeLast_getD_ne u j hj]
    exact Or.inl rfl
  · unfold WAL.closeLastSegment
    cases hp : u.lastPtr
    · exact Or.inl rfl
    · rcases eq_or_ne u.segments [] with hnil | hne
      · rw [hnil]
        exact Or.inl rfl
      · rw [setLast_getD_last _ _ hne]
        exact Or.inr rfl
    · exact Or.inl rfl

theorem append_fields (u : WAL) :
    (WAL.appendSegment u).segmentSize = u.segmentSize ∧
    (WAL.appendSegment u).segmentEntries = u.segmentEntries ∧
    (WAL.appendSegment u).noSplitSegment = u.noSplitSegment ∧
    (WAL.appendSegment u).closed = u.closed ∧
    (WAL.appendSegment u).firstIndex = u.firstIndex ∧
    (WAL.appendSegment u).lastIndex = u.lastIndex ∧
    (WAL.appendSegment u).writeBuffer = u.writeBuffer ∧
    (WAL.appendSegment u).lastPtr = .valid := by
  obtain ⟨h1, h2, h3, h4, h5, h6, h7, h8⟩ := closeLast_fields u
  exact ⟨h1, h2, h3, h4, h5, h6, h7, rfl⟩

theorem append_seg_length (u : WAL) :
    (WAL.appendSegment u).segments.length = u.segments.length + 1 := by
  show ((WAL.closeLastSegment u).segments ++ _).length = _
  rw [List.length_append, closeLast_seg_length]
  rfl

theorem append_getD_lt (u : WAL) (j : Nat) (hj : j < u.segments.length) :
    (WAL.appendSegment u).segments.getD j defaultSeg =
      (WAL.closeLastSegment u).segments.getD j defaultSeg := by
  show ((WAL.closeLastSegment u).segments ++ _).getD j defaultSeg = _
  exact getD_append_lt _ _ _ _ (by rw [closeLast_seg_length]; exact hj)

theorem append_getD_n (u : WAL) :
    (WAL.appendSegment u).segments.getD u.segments.length defaultSeg =
      WAL.freshSegment u.segmentEntries u.lastIndex := by
  show ((WAL.closeLastSegment u).segments ++
    [WAL.freshSegment (WAL.closeLastSegment u).segmentEntries
      (WAL.closeLastSegment u).lastIndex]).getD u.segments.length defaultSeg = _
  rw [show u.segments.length = (WAL.closeLastSegment u).segments.length from
    (closeLast_seg_length u).symm]
  rw [getD_append_last]
  rw [(closeLast_fields u).2.1, (closeLast_fields u).2.2.2.2.2.1]

theorem append_offD_lt (u : WAL) (j : Nat) (hj : j < u.segments.length) :
    (WAL.appendSegment u).segOffD j = u.segOffD j := by
  show ((WAL.appendSegment u).segments.getD j defaultSeg).offset = _
  rw [append_getD_lt u j hj]
  exact closeLast_getD_offset u j

theorem append_offD_n (u : WAL) :
    (WAL.appendSegment u).segOffD u.segments.length = u.lastIndex := by
  show ((WAL.appendSegment u).segments.getD u.segments.length defaultSeg).offset = _
  rw [append_getD_n]
  rfl

theorem append_offD_gt (u : WAL) (j : Nat) (hj : u.segments.length < j) :
    (WAL.appendSegment u).segOffD j = u.segOffD j := by
  show ((WAL.appendSegment u).segments.getD j defaultSeg).offset =
    (u.segments.getD j defaultSeg).offset
  rw [List.getD_eq_default _ _ (by rw [append_seg_length]; omega),
    List.getD_eq_default _ _ (by omega)]

theorem lastSeg_append (u : WAL) :
    WAL.lastSeg (WAL.appendSegment u) =
      WAL.freshSegment u.segmentEntries u.lastIndex := by
  have hne : (WAL.appendSegment u).segments ≠ [] := by
    intro hc
    have := append_seg_length u
    rw [hc] at this
    simp at this
  rw [lastSeg_eq_getD _ hne, append_seg_length]
  show (WAL.appendSegment u).segments.getD u.segments.length defaultSeg = _
  exact append_getD_n u

/-- Appending a fresh tail segment and then performing the slot/buffer
update of `WAL.Write` yields an invariant-satisfying state.  `u` is the
state right before `appendSegment` (its buffer already flushed); when `u`
has no segments `firstIndex` has already been set to `i`. -/
theorem append_write_wf (u : WAL) (m : Nat → List Nat) (i : Nat) (d : List Nat)
    (hesz : 1 ≤ u.segmentEntries) (hssz : 1 ≤ u.segmentSize)
    (hcl : u.closed = false) (hfp : 1 ≤ u.firstIndex)
    (hbuf : u.writeBuffer = [])
    (hlst : u.lastIndex = i - 1) (hi : 1 ≤ i)
    (hfoE : u.segments = [] → u.firstIndex = i)
    (hfo : u.segments ≠ [] → u.segOffD 0 = u.firstIndex - 1)
    (hmono : ∀ k, k + 1 < u.segments.length → u.segOffD k ≤ u.segOffD (k + 1))
    (hll : u.segments ≠ [] → u.segOffD (u.segments.length - 1) ≤ u.lastIndex)
    (hmid : ∀ k, k + 1 < u.segments.length →
      SegWFmid u.segmentEntries (u.segments.getD k defaultSeg) (u.segPayloads m k))
    (hlwf : u.segments ≠ [] → SegWFlast u.segmentEntries
      (u.segments.getD (u.segments.length - 1) defaultSeg)
      (u.segPayloads m (u.segments.length - 1)) u.writeBuffer) :
    WF (WAL.writeInto (WAL.appendSegment u) i d
        (WAL.lastSeg (WAL.appendSegment u)).log.length)
      (fun j => if j = i then d else m j) := by
  obtain ⟨hf1, hf2, hf3, hf4, hf5, hf6, hf7, hf8⟩ := append_fields u
  have hlen1 := append_seg_length u
  have hvne : (WAL.appendSegment u).segments ≠ [] := by
    intro hc
    rw [hc] at hlen1
    simp at hlen1
  -- counts of the appended state agree with `u` below the new tail
  have hcnt : ∀ k, k < u.segments.length →
      (WAL.appendSegment u).segCnt k = u.segCnt k := by
    intro k hk
    unfold WAL.segCnt
    rw [hlen1, if_neg (by omega)]
    rcases eq_or_ne (k + 1) u.segments.length with he | hne2
    · rw [he, append_offD_n, append_offD_lt u k hk, if_pos rfl]
    · rw [append_offD_lt u (k + 1) (by omega), append_offD_lt u k hk,
        if_neg hne2]
  have hpay : ∀ k, k < u.segments.length →
      (WAL.appendSegment u).segPayloads m k = u.segPayloads m k := by
    intro k hk
    unfold WAL.segPayloads
    rw [hcnt k hk, append_offD_lt u k hk]
  have hcntn : (WAL.appendSegment u).segCnt u.segments.length = 0 := by
    unfold WAL.segCnt
    rw [hlen1, if_pos rfl, hf6, append_offD_n]
    omega
  have hpayn : (WAL.appendSegment u).segPayloads m u.segments.length = [] := by
    unfold WAL.segPayloads
    rw [hcntn]
    rfl
  refine writeInto_wf (WAL.appendSegment u) m i d (by rw [hf2]; exact hesz)
    (by rw [hf1]; exact hssz) (by rw [hf4]; exact hcl) (by rw [hf5]; exact hfp)
    hvne hf8 (by rw [hf6]; exact hlst) hi ?_ ?_ ?_ ?_ ?_ ?_
  · -- first segment's offset
    rw [hf5]
    rcases eq_or_ne u.segments [] with hnil | hne
    · have h0 : u.segments.length = 0 := by rw [hnil]; rfl
      rw [show (0 : Nat) = u.segments.length from h0.symm, append_offD_n,
        hfoE hnil]
      omega
    · rw [append_offD_lt u 0 (List.length_pos.mpr hne)]
      exact hfo hne
  · -- monotone offsets
    intro k hk
    rw [hlen1] at hk
    rcases eq_or_ne (k + 1) u.segments.length with he | hne2
    · rw [he, append_offD_n, append_offD_lt u k (by omega)]
      have hune : u.segments ≠ [] := by
        intro hc
        rw [hc] at he
        simp at he
      have := hll hune
      have hmle := chainMono u.segOffD u.segments.length hmono k
        (u.segments.length - 1) (by omega) (by omega)
      omega
    · rw [append_offD_lt u (k + 1) (by omega), append_offD_lt u k (by omega)]
      exact hmono k (by omega)
  · -- tail offset at most lastIndex
    rw [hlen1, hf6]
    rw [show u.segments.length + 1 - 1 = u.segments.length from by omega,
      append_offD_n]
  · -- non-tail segments
    intro k hk
    rw [hlen1] at hk
    have hklt : k < u.segments.length := by omega
    rw [hf2, hpay k hklt]
    rcases eq_or_ne k (u.segments.length - 1) with he | hne2
    · -- the old tail, now closed
      have hune : u.segments ≠ [] := by
        intro hc
        rw [hc] at hklt
        simp at hklt
      obtain ⟨hbytes, hE, hok, hlenl⟩ := hlwf hune
      rw [hbuf, List.append_nil] at hbytes
      rw [append_getD_lt u k hklt]
      subst he
      refine ⟨?_, hE, Or.inl ⟨?_, ?_⟩⟩
      · rw [closeLast_getD_log]
        exact hbytes
      · rw [closeLast_getD_slots]
        exact hok
      · rcases closeLast_getD_len u (u.segments.length - 1) with hl | hl
        · rw [hl, hlenl]
          exact Or.inl rfl
        · rw [hl]
          exact Or.inr rfl
    · rw [append_getD_lt u k hklt, closeLast_getD_ne u k hne2]
      exact hmid k (by omega)
  · -- the fresh tail
    rw [hlen1, show u.segments.length + 1 - 1 = u.segments.length from by omega,
      append_getD_n, hpayn, hf2, hf7, hbuf]
    refine ⟨rfl, by simp, ?_, rfl⟩
    refine ⟨by simp [WAL.freshSegment], ?_, ?_⟩
    · show (List.replicate (u.segmentEntries + 1) 0).getD 0 0 = 0
      exact getD_replicate_zero _ _
    · intro r h1 h2
      simp at h2
      omega
  · -- room for the next entry in the fresh tail
    rw [hlen1, hf2, show u.segments.length + 1 - 1 = u.segments.length from by omega,
      append_offD_n]
    omega

theorem lastSeg_append_log (u : WAL) :
    (WAL.lastSeg (WAL.appendSegment u)).log.length = 0 := by
  rw [lastSeg_append]
  rfl

/-- A successful `Write` preserves the invariant, recording the new entry
in the abstract map. -/
theorem WF.write_ok {w : WAL} {m : Nat → List Nat} {i : Nat} {d : List Nat}
    {w' : WAL} (h : WF w m) (hop : WAL.writeOp w i d = (none, w')) :
    WF w' (fun j => if j = i then d else m j) := by
  unfold WAL.writeOp at hop
  rw [if_neg (by rw [h.notClosed]; simp)] at hop
  by_cases hi0 : i = 0
  · rw [if_pos hi0] at hop
    simp at hop
  rw [if_neg hi0] at hop
  by_cases hord : 0 < w.lastIndex ∧ i ≠ w.lastIndex + 1
  · rw [if_pos hord] at hop
    simp at hop
  rw [if_neg hord] at hop
  push_neg at hord
  have hi : 1 ≤ i := by omega
  by_cases hl0 : w.lastIndex = 0
  · -- first write into an empty log
    have hseg : w.segments = [] := by
      by_contra hc
      have := h.lastPos hc
      omega
    obtain ⟨hfi1, hli0, hbuf0, hptr0⟩ := h.emptyState hseg
    rw [if_pos hl0] at hop
    dsimp only at hop
    rw [if_pos hseg] at hop
    set w1 : WAL := { w with firstIndex := i, lastIndex := i - 1 } with hw1def
    have hl0' : w1.segments.length = 0 := by
      show w.segments.length = 0
      rw [hseg]
      rfl
    obtain ⟨hf1, hf2, hf3, hf4, hf5, hf6, hf7, hf8⟩ := append_fields w1
    have hlen1 := append_seg_length w1
    have hoffn := append_offD_n w1
    rw [hf8] at hop
    dsimp only at hop
    split at hop
    · -- the encoded entry does not fit: a second rollover
      have hbuf2 : (WAL.appendSegment w1).writeBuffer = [] := by rw [hf7]; exact hbuf0
      have hcl2 : (WAL.appendSegment w1).closed = false := by rw [hf4]; exact h.notClosed
      have hfl : WAL.flushOp (WAL.appendSegment w1) = (none, WAL.appendSegment w1) := by
        unfold WAL.flushOp
        rw [if_neg (by rw [hcl2]; simp), if_pos hbuf2]
      have hsy : WAL.syncOp (WAL.appendSegment w1) = (none, WAL.appendSegment w1) := by
        unfold WAL.syncOp
        rw [if_neg (by rw [hcl2]; simp), hf8]
      rw [hfl] at hop
      dsimp only at hop
      rw [hsy] at hop
      dsimp only at hop
      have h2 := congrArg Prod.snd hop
      dsimp only at h2
      rw [← h2]
      rw [show (0 : Nat) = (WAL.lastSeg (WAL.appendSegment (WAL.appendSegment w1))).log.length
        from (lastSeg_append_log (WAL.appendSegment w1)).symm]
      refine append_write_wf (WAL.appendSegment w1) m i d
        (by rw [hf2]; exact h.esz) (by rw [hf1]; exact h.ssz) hcl2
        (by rw [hf5]; exact hi) hbuf2 (by rw [hf6]) hi ?_ ?_ ?_ ?_ ?_ ?_
      · intro hc
        rw [hc] at hlen1
        simp at hlen1
      · intro _
        rw [hf5]
        rw [show (0 : Nat) = w1.segments.length from hl0'.symm]
        rw [hoffn]
      · intro k hk
        rw [hlen1, hl0'] at hk
        exact absurd hk (by omega)
      · rw [hlen1, hl0', hf6]
        rw [show 0 + 1 - 1 = w1.segments.length from by rw [hl0']]
        rw [hoffn]
        exact fun _ => le_rfl
      · intro k hk
        rw [hlen1, hl0'] at hk
        exact absurd hk (by omega)
      · intro _
        have hpayn : (WAL.appendSegment w1).segPayloads m w1.segments.length = [] := by
          unfold WAL.segPayloads WAL.segCnt
          rw [hlen1, if_pos rfl, hf6, hoffn, Nat.sub_self]
          rfl
        rw [hlen1, hl0']
        rw [show 0 + 1 - 1 = w1.segments.length from by rw [hl0']]
        rw [hf2, hbuf2, append_getD_n w1, hpayn]
        refine ⟨rfl, by simp, ?_, rfl⟩
        refine ⟨by simp [WAL.freshSegment], ?_, ?_⟩
        · show (List.replicate (w1.segmentEntries + 1) 0).getD 0 0 = 0
          exact getD_replicate_zero _ _
        · intro r h1 h2
          simp at h2
          omega
    · -- the fresh segment accepts the entry
      have h2 := congrArg Prod.snd hop
      dsimp only at h2
      rw [← h2]
      refine append_write_wf w1 m i d h.esz h.ssz h.notClosed hi hbuf0 rfl hi
        (fun _ => rfl) (fun hc => absurd hseg hc) ?_ (fun hc => absurd hseg hc) ?_
        (fun hc => absurd hseg hc)
      · intro k hk
        rw [hl0'] at hk
        exact absurd hk (by omega)
      · intro k hk
        rw [hl0'] at hk
        exact absurd hk (by omega)
  · -- a subsequent write
    have hne : w.segments ≠ [] := by
      intro hc
      exact hl0 (h.emptyState hc).2.1
    have hn : 0 < w.segments.length := List.length_pos.mpr hne
    have hlst : w.lastIndex = i - 1 := by
      have := hord (by omega)
      omega
    rw [if_neg hl0] at hop
    dsimp only at hop
    rw [if_neg hne] at hop
    cases hptr : w.lastPtr with
    | none => exact absurd hptr (h.ptrNotNone hne)
    | stale =>
      rw [hptr] at hop
      dsimp only at hop
      simp at hop
    | valid =>
      rw [hptr] at hop
      dsimp only at hop
      split at hop
      · -- rollover: flush, sync, append, write at position 0
        obtain ⟨w3, hfl, hwf3, hbuf3, hsz3, hE3, hns3, hcl3, hfi3, hli3, hlp3,
          hlen3, hoff3, hseg3⟩ := h.flush_ok
        have hn3 : 0 < w3.segments.length := by rw [hlen3]; exact hn
        have hne3 : w3.segments ≠ [] := by
          intro hc
          rw [hc] at hn3
          simp at hn3
        rw [hfl] at hop
        dsimp only at hop
        have hsy : WAL.syncOp w3 = (none, w3) := by
          unfold WAL.syncOp
          rw [if_neg (by rw [hcl3, h.notClosed]; simp), hlp3, hptr]
        rw [hsy] at hop
        dsimp only at hop
        have h2 := congrArg Prod.snd hop
        dsimp only at h2
        rw [← h2]
        rw [show (0 : Nat) = (WAL.lastSeg (WAL.appendSegment w3)).log.length
          from (lastSeg_append_log w3).symm]
        exact append_write_wf w3 m i d (by rw [hE3]; exact h.esz)
          (by rw [hsz3]; exact h.ssz) (by rw [hcl3]; exact h.notClosed)
          (by rw [hfi3]; exact h.firstPos) hbuf3 (by rw [hli3]; exact hlst) hi
          (fun hc => absurd hc hne3) (fun _ => hwf3.firstOff hne3)
          hwf3.mono (fun _ => hwf3.lastLe hne3) hwf3.midWF
          (fun _ => hwf3.lastWF (w3.segments.length - 1) (by omega))
      · -- the entry fits in the current tail
        rename_i hroll
        push_neg at hroll
        obtain ⟨hroll1, hroll2⟩ := hroll
        have h2 := congrArg Prod.snd hop
        dsimp only at h2
        rw [← h2]
        refine writeInto_wf w m i d h.esz h.ssz h.notClosed h.firstPos hne hptr hlst hi
          (h.firstOff hne) h.mono (h.lastLe hne) h.midWF
          (h.lastWF (w.segments.length - 1) (by omega)) ?_
        have hsoff : (WAL.lastSeg w).offset = w.segOffD (w.segments.length - 1) := by
          rw [lastSeg_eq_getD w hne]
          rfl
        rw [← hsoff]
        exact hroll2

theorem set_getD_self_eq {α : Type} (l : List α) (n : Nat) (d : α)
    (h : n < l.length) : l.set n (l.getD n d) = l := by
  refine List.ext_getElem (by simp) ?_
  intro i h1 h2
  rw [← List.getD_eq_getElem _ d h1, ← List.getD_eq_getElem _ d h2]
  rcases eq_or_ne n i with rfl | hne
  · exact getD_set_self' _ _ _ _ h
  · exact getD_set_ne' _ _ _ _ _ hne

theorem setLast_self (ss : List Segment) (hne : ss ≠ []) :
    WAL.setLast ss (ss.getLastD defaultSeg) = ss := by
  have hlen : 0 < ss.length := List.length_pos.mpr hne
  unfold WAL.setLast
  have hgd : ss.getLastD defaultSeg = ss.getD (ss.length - 1) defaultSeg := by
    rw [List.getLastD_eq_getLast?, List.getLast?_eq_getElem?]
    rw [List.getD_eq_getD_get?, List.get?_eq_getElem?]
  rw [hgd]
  exact set_getD_self_eq ss (ss.length - 1) defaultSeg (by omega)

/-- Closing the tail pointer is a no-op on the state when the tail's
in-memory `len` is already zero. -/
theorem closeLast_id (v : WAL) (hne : v.segments ≠ [])
    (htlen : (WAL.lastSeg v).len = 0) :
    WAL.closeLastSegment v = v := by
  unfold WAL.closeLastSegment
  cases hp : v.lastPtr
  · rfl
  · have htcl : (WAL.lastSeg v).closeSeg = WAL.lastSeg v := by
      unfold Segment.closeSeg
      cases hs : WAL.lastSeg v with
      | mk o l sl lg =>
        rw [hs] at htlen
        dsimp only at htlen ⊢
        rw [htlen]
    rw [htcl]
    rw [show WAL.lastSeg v = v.segments.getLastD defaultSeg from rfl,
      setLast_self v.segments hne]
    dsimp only
    rw [← hp]
  · rfl

theorem getD_drop {α : Type} (l : List α) (k j : Nat) (d : α) :
    (l.drop k).getD j d = l.getD (k + j) d := by
  rcases lt_or_ge (k + j) l.length with hlt | hge
  · rw [List.getD_eq_getElem _ _ (by simp only [List.length_drop]; omega),
      List.getD_eq_getElem _ _ hlt]
    simp [List.getElem_drop]
  · rw [List.getD_eq_default _ _ (by simp only [List.length_drop]; omega),
      List.getD_eq_default _ _ hge]

theorem segEs_drop (m : Nat → List Nat) (off cnt j : Nat) :
    (segEs m off cnt).drop j = segEs m (off + j) (cnt - j) := by
  unfold segEs
  refine List.ext_getElem (by simp) ?_
  intro i h1 h2
  simp only [List.getElem_drop, List.getElem_map, List.getElem_range]
  congr 1
  omega

theorem encAll_take (es : List (List Nat)) (r : Nat) :
    (encAll es).take (cum es r) = encAll (es.take r) := by
  conv_lhs => rw [show encAll es = encAll (es.take r) ++ encAll (es.drop r) from by
    rw [← encAll_append, List.take_append_drop]]
  rw [show cum es r = (encAll (es.take r)).length from rfl, List.take_left]

theorem encAll_drop_take (es : List (List Nat)) (r : Nat) :
    ((encAll es).drop (cum es r)).take (cum es es.length - cum es r) =
      encAll (es.drop r) := by
  rw [cum_length es]
  rw [show cum es r = (encAll (es.take r)).length from rfl]
  conv_lhs => rw [show encAll es = encAll (es.take r) ++ encAll (es.drop r) from by
    rw [← encAll_append, List.take_append_drop]]
  rw [List.drop_left, List.length_append]
  rw [show (encAll (es.take r)).length + (encAll (es.drop r)).length -
    (encAll (es.take r)).length = (encAll (es.drop r)).length from by omega]
  rw [List.take_length]

/-- `WAL.resetLastSegment` on a state whose tail segment carries a fully
flushed, loadable data file: it succeeds, repoints the tail pointer at the
list tail, reloads that segment's index and recomputes `lastIndex` from
it.  Covers both a consistent index mmap and the zeroed one left by a
deleted index file. -/
theorem resetLast_spec (v : WAL) (es' : List (List Nat))
    (hne : v.segments ≠ [])
    (htlen : (WAL.lastSeg v).len = 0)
    (htlog : (WAL.lastSeg v).log = encAll es')
    (hE : es'.length ≤ v.segmentEntries)
    (hslots : slotsOk v.segmentEntries (WAL.lastSeg v).slots es' ∨
      ((WAL.lastSeg v).slots = List.replicate (v.segmentEntries + 1) 0 ∧
        1 ≤ es'.length)) :
    ∃ v', WAL.resetLastSegment v = (none, v') ∧
      v'.segmentSize = v.segmentSize ∧ v'.segmentEntries = v.segmentEntries ∧
      v'.noSplitSegment = v.noSplitSegment ∧ v'.closed = v.closed ∧
      v'.firstIndex = v.firstIndex ∧ v'.writeBuffer = v.writeBuffer ∧
      v'.lastPtr = .valid ∧
      v'.lastIndex = (WAL.lastSeg v).offset + es'.length ∧
      v'.segments.length = v.segments.length ∧
      (∀ j, j + 1 < v.segments.length →
        v'.segments.getD j defaultSeg = v.segments.getD j defaultSeg) ∧
      (v'.segments.getD (v.segments.length - 1) defaultSeg).offset =
        (WAL.lastSeg v).offset ∧
      (v'.segments.getD (v.segments.length - 1) defaultSeg).log =
        (WAL.lastSeg v).log ∧
      (v'.segments.getD (v.segments.length - 1) defaultSeg).len = es'.length ∧
      slotsOk v.segmentEntries
        (v'.segments.getD (v.segments.length - 1) defaultSeg).slots es' := by
  have hlen0 : 0 < v.segments.length := List.length_pos.mpr hne
  have hlsg := lastSeg_eq_getD v hne
  unfold WAL.resetLastSegment
  rw [closeLast_id v hne htlen]
  dsimp only
  have hgl : v.segments.getLast? = some (WAL.lastSeg v) := by
    rw [show WAL.lastSeg v = v.segments.getLastD defaultSeg from rfl,
      List.getLastD_eq_getLast?]
    cases hq : v.segments.getLast? with
    | none => exact absurd (List.getLast?_eq_none.mp hq) hne
    | some s => rfl
  rw [hgl]
  dsimp only
  rcases Nat.eq_zero_or_pos es'.length with hz | hpos
  · have hes : es' = [] := List.length_eq_zero.mp hz
    rw [if_pos (by rw [htlog, hes, encAll_nil]; rfl)]
    refine ⟨_, rfl, rfl, rfl, rfl, rfl, rfl, rfl, rfl, ?_, rfl,
      fun j hj => rfl, ?_, ?_, ?_, ?_⟩
    · dsimp only
      omega
    · rw [hlsg]
    · rw [hlsg]
    · rw [← hlsg, htlen, hz]
    · rw [← hlsg]
      rcases hslots with hok | ⟨hzs, h1⟩
      · exact hok
      · exact absurd h1 (by omega)
  · rw [if_neg (by rw [htlog]; have := encAll_length_pos es' hpos; omega)]
    obtain ⟨slots', hload, hok'⟩ :=
      Segment.load_spec v.segmentEntries (WAL.lastSeg v) es' htlog hE hslots
    rw [hload]
    dsimp only
    refine ⟨_, rfl, rfl, rfl, rfl, rfl, rfl, rfl, rfl, rfl,
      setLast_length _ _, ?_, ?_, ?_, ?_, ?_⟩
    · intro j hj
      exact setLast_getD_ne _ _ j (by omega)
    · rw [setLast_getD_last _ _ hne]
    · rw [setLast_getD_last _ _ hne]
    · rw [setLast_getD_last _ _ hne]
    · rw [setLast_getD_last _ _ hne]
      exact hok'

theorem getD_take {α : Type} (l : List α) (k j : Nat) (d : α) (hj : j < k) :
    (l.take k).getD j d = l.getD j d := by
  rcases lt_or_ge j l.length with hlt | hge
  · rw [List.getD_eq_getElem _ _ (by simp only [List.length_take]; omega),
      List.getD_eq_getElem _ _ hlt]
    simp [List.getElem_take]
  · rw [List.getD_eq_default _ _ (by simp only [List.length_take]; omega),
      List.getD_eq_default _ _ hge]

theorem segEs_take (m : Nat → List Nat) (off cnt j : Nat) (hj : j ≤ cnt) :
    (segEs m off cnt).take j = segEs m off j := by
  unfold segEs
  rw [← List.map_take, List.take_range, Nat.min_eq_left hj]

/-- `Read` rejects an index outside the current range with `OutOfRange`,
leaving the state untouched. -/
theorem read_oor (v : WAL) (j : Nat) (hcl : v.closed = false)
    (hj : j = 0 ∨ v.lastIndex = 0 ∨ j < v.firstIndex ∨ v.lastIndex < j) :
    WAL.readOp v j = (.error .outOfRange, v) := by
  unfold WAL.readOp WAL.checkIndex
  rw [hcl]
  rw [if_neg (by simp), if_pos hj]

/-- Dropping the first `k` segments and raising `firstIndex` to just past
segment `k`'s offset preserves the invariant: the state shape produced by
the fast and no-split paths of `Clean`. -/
theorem drop_wf (v : WAL) (m : Nat → List Nat) (k : Nat) (h : WF v m)
    (hk : k < v.segments.length) :
    WF { v with segments := v.segments.drop k,
                firstIndex := v.segOffD k + 1 } m := by
  have hne : v.segments ≠ [] := by intro hc; rw [hc] at hk; simp at hk
  set u : WAL := { v with segments := v.segments.drop k,
                          firstIndex := v.segOffD k + 1 } with hu
  have hulen : u.segments.length = v.segments.length - k := by
    show (v.segments.drop k).length = _
    simp
  have hugd : ∀ j, u.segments.getD j defaultSeg =
      v.segments.getD (k + j) defaultSeg := by
    intro j
    show (v.segments.drop k).getD j defaultSeg = _
    exact getD_drop _ _ _ _
  have huoff : ∀ j, u.segOffD j = v.segOffD (k + j) := by
    intro j
    unfold WAL.segOffD
    rw [hugd j]
  have hucnt : ∀ j, u.segCnt j = v.segCnt (k + j) := by
    intro j
    unfold WAL.segCnt
    by_cases hc : j + 1 = u.segments.length
    · rw [if_pos hc, if_pos (by rw [hulen] at hc; omega), huoff]
    · rw [if_neg hc, if_neg (by rw [hulen] at hc; omega), huoff, huoff]
      rfl
  have hupay : ∀ j, u.segPayloads m j = v.segPayloads m (k + j) := by
    intro j
    unfold WAL.segPayloads
    rw [hucnt, huoff]
  refine { esz := h.esz, ssz := h.ssz, notClosed := h.notClosed,
           firstPos := by show 1 ≤ v.segOffD k + 1; omega,
           emptyState := ?_, ptrNotNone := ?_, bufPtr := h.bufPtr,
           firstOff := ?_, lastLe := ?_, lastPos := ?_, mono := ?_,
           midWF := ?_, lastWF := ?_ }
  · intro hc
    have h0 : u.segments.length = 0 := by rw [hc]; rfl
    rw [hulen] at h0
    exact absurd h0 (by omega)
  · intro _
    exact h.ptrNotNone hne
  · intro _
    rw [huoff 0]
    show v.segOffD (k + 0) = v.segOffD k + 1 - 1
    simp
  · intro _
    rw [hulen, huoff]
    rw [show k + (v.segments.length - k - 1) = v.segments.length - 1 from by omega]
    exact h.lastLe hne
  · intro _
    show 1 ≤ v.lastIndex
    exact h.lastPos hne
  · intro j hj
    rw [hulen] at hj
    rw [huoff, huoff]
    exact h.mono (k + j) (by omega)
  · intro j hj
    rw [hulen] at hj
    rw [hugd j, hupay j]
    exact h.midWF (k + j) (by omega)
  · intro j hj
    rw [hulen] at hj
    rw [hugd j, hupay j]
    exact h.lastWF (k + j) (by omega)

/-- The state after `Clean`'s split path when at least one segment follows
the split one: segment `k` is replaced by a fresh segment named `index - 1`
holding the kept bytes (its index file recreated zeroed, to be rebuilt on
the next load), earlier segments are dropped and `firstIndex` becomes
`index`. -/
theorem splitSeg_wf (v : WAL) (m : Nat → List Nat) (k index : Nat) (h : WF v m)
    (hk : k + 1 < v.segments.length)
    (hlo : v.segOffD k < index) (hhi : index ≤ v.segOffD (k + 1)) :
    WF { v with
        segments :=
          ({ offset := index - 1, len := 0,
             slots := List.replicate (v.segmentEntries + 1) 0,
             log := encAll (segEs m (index - 1)
               (v.segOffD (k + 1) - (index - 1))) } : Segment) ::
            v.segments.drop (k + 1),
        firstIndex := index } m := by
  have hne : v.segments ≠ [] := by
    intro hc
    rw [hc] at hk
    simp at hk
  have hcntk : v.segCnt k = v.segOffD (k + 1) - v.segOffD k := by
    unfold WAL.segCnt
    rw [if_neg (by omega)]
  have hoc := h.offCnt k (by omega)
  rw [if_neg (by omega)] at hoc
  have hEb : v.segCnt k ≤ v.segmentEntries := by
    have := (h.midWF k hk).2.1
    rwa [show v.segPayloads m k = segEs m (v.segOffD k) (v.segCnt k) from rfl,
      segEs_length] at this
  set u : WAL := { v with
      segments :=
        ({ offset := index - 1, len := 0,
           slots := List.replicate (v.segmentEntries + 1) 0,
           log := encAll (segEs m (index - 1)
             (v.segOffD (k + 1) - (index - 1))) } : Segment) ::
          v.segments.drop (k + 1),
      firstIndex := index } with hu
  have hulen : u.segments.length = v.segments.length - k := by
    show (_ :: v.segments.drop (k + 1)).length = _
    simp only [List.length_cons, List.length_drop]
    omega
  have hugds : ∀ j, u.segments.getD (j + 1) defaultSeg =
      v.segments.getD (k + 1 + j) defaultSeg := by
    intro j
    show (_ :: v.segments.drop (k + 1)).getD (j + 1) defaultSeg = _
    rw [List.getD_cons_succ]
    exact getD_drop _ _ _ _
  have huoff0 : u.segOffD 0 = index - 1 := by
    unfold WAL.segOffD
    show ((_ :: v.segments.drop (k + 1)).getD 0 defaultSeg).offset = _
    rw [List.getD_cons_zero]
  have huoffs : ∀ j, u.segOffD (j + 1) = v.segOffD (k + 1 + j) := by
    intro j
    unfold WAL.segOffD
    rw [hugds j]
  have hucnts : ∀ j, u.segCnt (j + 1) = v.segCnt (k + 1 + j) := by
    intro j
    unfold WAL.segCnt
    by_cases hc : j + 1 + 1 = u.segments.length
    · rw [if_pos hc, if_pos (by rw [hulen] at hc; omega), huoffs]
    · rw [if_neg hc, if_neg (by rw [hulen] at hc; omega), huoffs, huoffs]
      rfl
  have hupays : ∀ j, u.segPayloads m (j + 1) = v.segPayloads m (k + 1 + j) := by
    intro j
    unfold WAL.segPayloads
    rw [hucnts, huoffs]
  have hucnt0 : u.segCnt 0 = v.segOffD (k + 1) - (index - 1) := by
    unfold WAL.segCnt
    rw [if_neg (by rw [hulen]; omega), huoff0]
    rw [show (0 : Nat) + 1 = 0 + 1 from rfl, huoffs 0]
  have hupay0 : u.segPayloads m 0 =
      segEs m (index - 1) (v.segOffD (k + 1) - (index - 1)) := by
    unfold WAL.segPayloads
    rw [hucnt0, huoff0]
  refine { esz := h.esz, ssz := h.ssz, notClosed := h.notClosed,
           firstPos := by show 1 ≤ index; omega,
           emptyState := ?_, ptrNotNone := ?_, bufPtr := h.bufPtr,
           firstOff := ?_, lastLe := ?_, lastPos := ?_, mono := ?_,
           midWF := ?_, lastWF := ?_ }
  · intro hc
    have h0 : u.segments.length = 0 := by rw [hc]; rfl
    rw [hulen] at h0
    exact absurd h0 (by omega)
  · intro _
    exact h.ptrNotNone hne
  · intro _
    rw [huoff0]
  · intro _
    rw [hulen]
    rw [show v.segments.length - k - 1 = (v.segments.length - k - 2) + 1 from by
      omega]
    rw [huoffs]
    rw [show k + 1 + (v.segments.length - k - 2) = v.segments.length - 1 from by
      omega]
    exact h.lastLe hne
  · intro _
    show 1 ≤ v.lastIndex
    exact h.lastPos hne
  · intro j hj
    rw [hulen] at hj
    cases j with
    | zero =>
      rw [huoff0, show (0 : Nat) + 1 = 0 + 1 from rfl, huoffs 0]
      rw [show k + 1 + 0 = k + 1 from rfl]
      omega
    | succ j =>
      rw [huoffs j, show j + 1 + 1 = (j + 1) + 1 from rfl, huoffs (j + 1)]
      exact h.mono (k + 1 + j) (by omega)
  · intro j hj
    rw [hulen] at hj
    cases j with
    | zero =>
      rw [hupay0]
      refine ⟨rfl, ?_, Or.inr ⟨rfl, rfl, ?_⟩⟩
      · rw [segEs_length]
        show v.segOffD (k + 1) - (index - 1) ≤ v.segmentEntries
        omega
      · rw [segEs_length]
        omega
    | succ j =>
      rw [hugds j, hupays j]
      exact h.midWF (k + 1 + j) (by omega)
  · intro j hj
    rw [hulen] at hj
    cases j with
    | zero => exact absurd hj (by omega)
    | succ j =>
      rw [hugds j, hupays j]
      exact h.lastWF (k + 1 + j) (by omega)

/-- Invariant builder for a state whose content is a single tail
segment. -/
theorem single_wf (u : WAL) (m : Nat → List Nat) (es : List (List Nat))
    (hesz : 1 ≤ u.segmentEntries) (hssz : 1 ≤ u.segmentSize)
    (hcl : u.closed = false)
    (hlen : u.segments.length = 1)
    (hptr : u.lastPtr = .valid)
    (hfp : 1 ≤ u.firstIndex)
    (hoff : u.segOffD 0 = u.firstIndex - 1)
    (hli : u.lastIndex = u.segOffD 0 + es.length)
    (hpos : 1 ≤ u.lastIndex)
    (hlog : (u.segments.getD 0 defaultSeg).log ++ u.writeBuffer = encAll es)
    (hE : es.length ≤ u.segmentEntries)
    (hok : slotsOk u.segmentEntries (u.segments.getD 0 defaultSeg).slots es)
    (hslen : (u.segments.getD 0 defaultSeg).len = es.length)
    (hpay : segEs m (u.segOffD 0) es.length = es) :
    WF u m := by
  have hcnt0 : u.segCnt 0 = es.length := by
    unfold WAL.segCnt
    rw [if_pos (by omega), hli]
    omega
  have hpay0 : u.segPayloads m 0 = es := by
    unfold WAL.segPayloads
    rw [hcnt0, hpay]
  refine { esz := hesz, ssz := hssz, notClosed := hcl, firstPos := hfp,
           emptyState := ?_, ptrNotNone := fun _ => by rw [hptr]; simp,
           bufPtr := fun _ => hptr, firstOff := fun _ => hoff,
           lastLe := ?_, lastPos := fun _ => hpos, mono := ?_,
           midWF := ?_, lastWF := ?_ }
  · intro hc
    have h0 : u.segments.length = 0 := by rw [hc]; rfl
    rw [hlen] at h0
    exact absurd h0 (by omega)
  · intro _
    rw [hlen, Nat.sub_self, hli]
    omega
  · intro j hj
    rw [hlen] at hj
    exact absurd hj (by omega)
  · intro j hj
    rw [hlen] at hj
    exact absurd hj (by omega)
  · intro j hj
    rw [hlen] at hj
    have hj0 : j = 0 := by omega
    subst hj0
    rw [hpay0]
    exact ⟨hlog, hE, hok, hslen⟩

/-- The tail end of `Clean`'s split path when the split segment is the
last one: the log collapses to one rebuilt segment holding the kept
entries, and `resetLastSegment` reloads it. -/
theorem splitLast_reset_wf (v : WAL) (m : Nat → List Nat) (index : Nat)
    (hesz : 1 ≤ v.segmentEntries) (hssz : 1 ≤ v.segmentSize)
    (hcl : v.closed = false) (hbuf : v.writeBuffer = [])
    (hidx1 : 1 ≤ index) (hle : index ≤ v.lastIndex)
    (hEc : v.lastIndex - (index - 1) ≤ v.segmentEntries) :
    ∃ w', WAL.resetLastSegment { v with
        segments := [{ offset := index - 1, len := 0,
                       slots := List.replicate (v.segmentEntries + 1) 0,
                       log := encAll (segEs m (index - 1)
                         (v.lastIndex - (index - 1))) }],
        firstIndex := index } = (none, w') ∧ WF w' m ∧
      w'.lastIndex = v.lastIndex ∧ w'.firstIndex = index ∧
      w'.writeBuffer = [] ∧ w'.closed = false ∧
      w'.segmentSize = v.segmentSize ∧ w'.segmentEntries = v.segmentEntries ∧
      w'.noSplitSegment = v.noSplitSegment := by
  set es2 : List (List Nat) := segEs m (index - 1) (v.lastIndex - (index - 1))
    with hes2
  set v2 : WAL := { v with
      segments := [{ offset := index - 1, len := 0,
                     slots := List.replicate (v.segmentEntries + 1) 0,
                     log := encAll es2 }],
      firstIndex := index } with hv2
  have hes2len : es2.length = v.lastIndex - (index - 1) := segEs_length m _ _
  obtain ⟨w', hreset, hvsz, hvE, hvns, hvcl, hvfi, hvwb, hvptr, hvli, hvlen,
    hvgd, hvoffl, hvlogl, hvlenl, hvokl⟩ :=
    resetLast_spec v2 es2 (by simp [hv2]) rfl rfl
      (by rw [hes2len]; exact hEc) (Or.inr ⟨rfl, by rw [hes2len]; omega⟩)
  have hoff0 : w'.segOffD 0 = index - 1 := hvoffl
  have hvokl' : slotsOk w'.segmentEntries
      (w'.segments.getD 0 defaultSeg).slots es2 := by
    rw [hvE]
    exact hvokl
  have hvlogl' : (w'.segments.getD 0 defaultSeg).log = encAll es2 := hvlogl
  have hbuf' : w'.writeBuffer = [] := by
    rw [hvwb]
    exact hbuf
  have hcl' : w'.closed = false := hvcl.trans hcl
  have hli' : w'.lastIndex = v.lastIndex := by
    rw [hvli, hes2len]
    show index - 1 + (v.lastIndex - (index - 1)) = v.lastIndex
    omega
  refine ⟨w', hreset, ?_, hli', hvfi, hbuf', hcl', hvsz, hvE, hvns⟩
  refine single_wf w' m es2 (by rw [hvE]; exact hesz) (by rw [hvsz]; exact hssz)
    hcl' (by rw [hvlen]; rfl) hvptr (by rw [hvfi]; show 1 ≤ index; omega)
    ?_ ?_ ?_ ?_ (by rw [hvE, hes2len]; exact hEc) hvokl' hvlenl ?_
  · rw [hoff0, hvfi]
  · rw [hvli, hoff0]
    rfl
  · rw [hli']
    omega
  · rw [hbuf', List.append_nil]
    exact hvlogl'
  · rw [hoff0, hes2len]

/-- `Clean` at an in-range index other than `first_index` always succeeds
under the invariant with a flushed buffer, preserving the invariant,
`lastIndex`, the buffer and the option fields; with the default split
behaviour (`NoSplitSegment` unset) the new `firstIndex` is exactly the
argument. -/
theorem WF.clean_ok {w : WAL} {m : Nat → List Nat} {index : Nat} (h : WF w m)
    (hbuf : w.writeBuffer = [])
    (hidx : index ≠ w.firstIndex)
    (hlo0 : w.firstIndex ≤ index) (hhi0 : index ≤ w.lastIndex) :
    ∃ w', WAL.cleanOp w index = (none, w') ∧ WF w' m ∧
      w'.lastIndex = w.lastIndex ∧ w'.writeBuffer = [] ∧
      w'.closed = false ∧ w'.segmentSize = w.segmentSize ∧
      w'.segmentEntries = w.segmentEntries ∧
      w'.noSplitSegment = w.noSplitSegment ∧
      (w.noSplitSegment = false → w'.firstIndex = index) := by
  have hfp := h.firstPos
  have hchk : w.checkIndex index = none := by
    unfold WAL.checkIndex
    rw [h.notClosed]
    rw [if_neg (by simp), if_neg (by push_neg; omega)]
  obtain ⟨k, hsk, hklen, hlo, hhi⟩ := h.search_found index (by omega) hhi0
  obtain ⟨w1, hload, hwf1, hsz1, hE1, hns1, hcl1, hfi1, hli1, hwb1, hlp1, hlen1,
    hoff1, hlog1, hgd1, hfacts⟩ := h.loadAt k
  obtain ⟨hok1, hslen1⟩ := hfacts hklen
  set es := w.segPayloads m k with hes
  have hcnt : es.length = w.segCnt k := segEs_length m _ _
  have hne : w.segments ≠ [] := by
    intro hc
    rw [hc] at hklen
    simp at hklen
  have hklen1 : k < w1.segments.length := by rw [hlen1]; exact hklen
  have hoffk : (w1.segments.getD k defaultSeg).offset = w.segOffD k := hoff1 k
  have hwb1' : w1.writeBuffer = [] := by rw [hwb1]; exact hbuf
  have hcl1' : w1.closed = false := hcl1.trans h.notClosed
  have hlogk : (w1.segments.getD k defaultSeg).log = encAll es := by
    rw [hlog1 k]
    by_cases hlast : k + 1 = w.segments.length
    · have hb := (h.lastWF k hlast).1
      rw [hbuf, List.append_nil] at hb
      exact hb
    · exact (h.midWF k (by omega)).1
  have hEk : es.length ≤ w.segmentEntries := by
    by_cases hlast : k + 1 = w.segments.length
    · exact (h.lastWF k hlast).2.1
    · exact (h.midWF k (by omega)).2.1
  set r := index - w.segOffD k with hr
  have hr1 : 1 ≤ r := by omega
  have hr2 : r ≤ es.length := by omega
  unfold WAL.cleanOp
  rw [if_neg hidx, hchk]
  dsimp only
  rw [hsk]
  rw [if_neg (by push_neg; exact ⟨by omega, by omega⟩)]
  rw [show ((k : Int)).toNat = k from by omega]
  rw [hload]
  dsimp only
  by_cases hfast : w.segOffD k = index - 1
  · -- fast path: `index` starts exactly at segment `k`
    rw [if_pos (show (w1.segments.getD k defaultSeg).offset = index - 1 from by
      rw [hoffk]; exact hfast)]
    refine ⟨_, rfl, ?_, hli1, hwb1', hcl1', hsz1, hE1, hns1, fun _ => rfl⟩
    have hwfd := drop_wf w1 m k hwf1 hklen1
    have hidx' : w1.segOffD k + 1 = index := by
      rw [hoff1 k]
      omega
    rw [hidx'] at hwfd
    exact hwfd
  · rw [if_neg (by rw [hoffk]; exact hfast)]
    by_cases hnsw : w.noSplitSegment = true
    · -- no-split configuration: drop whole segments only
      rw [if_pos (by rw [hns1]; exact hnsw)]
      by_cases hkpos : 0 < k
      · rw [if_pos hkpos]
        refine ⟨_, rfl, ?_, hli1, hwb1', hcl1', hsz1, hE1, hns1,
          fun hc => absurd hnsw (by rw [hc]; simp)⟩
        have hhead : ((w1.segments.drop k).headD defaultSeg).offset =
            w1.segOffD k := by
          have h1 : (w1.segments.drop k).headD defaultSeg =
              (w1.segments.drop k).getD 0 defaultSeg := by
            cases w1.segments.drop k <;> rfl
          rw [h1, getD_drop]
          simp only [Nat.add_zero]
          rfl
        rw [hhead]
        exact drop_wf w1 m k hwf1 hklen1
      · rw [if_neg hkpos]
        exact ⟨_, rfl, hwf1, hli1, hwb1', hcl1', hsz1, hE1, hns1,
          fun hc => absurd hnsw (by rw [hc]; simp)⟩
    · -- split path
      rw [if_neg (by rw [hns1]; exact hnsw)]
      have hri : (w1.segments.getD k defaultSeg).readIndex index =
          (cum es (r - 1), cum es r) := by
        refine readIndex_spec w.segmentEntries _ es hok1 index r ?_ hr1 hr2
        rw [hoffk]
      have hslen1' : (w1.segments.getD k defaultSeg).len = es.length := hslen1
      have hri2 : (w1.segments.getD k defaultSeg).readIndex
          ((w1.segments.getD k defaultSeg).offset +
            (w1.segments.getD k defaultSeg).len) =
          (cum es (es.length - 1), cum es es.length) := by
        refine readIndex_spec w.segmentEntries _ es hok1 _ es.length ?_
          (by omega) le_rfl
        rw [hslen1']
        omega
      rw [hri, hri2]
      dsimp only
      have hmle : cum es (r - 1) ≤ cum es es.length := cum_mono _ _ _ (by omega)
      have hcopy : WAL.copyRange (w1.segments.getD k defaultSeg).log
          (cum es (r - 1)) (cum es es.length - cum es (r - 1)) =
          some (encAll (es.drop (r - 1))) := by
        unfold WAL.copyRange
        rw [hlogk]
        rw [if_pos (by rw [← cum_length]; omega)]
        exact congrArg some (encAll_drop_take es (r - 1))
      rw [hcopy]
      dsimp only
      have hdropes : es.drop (r - 1) =
          segEs m (index - 1) (w.segOffD k + w.segCnt k - (index - 1)) := by
        rw [hes]
        rw [show w.segPayloads m k = segEs m (w.segOffD k) (w.segCnt k) from rfl]
        rw [segEs_drop]
        have h1 : w.segOffD k + (r - 1) = index - 1 := by omega
        have h2 : w.segCnt k - (r - 1) =
            w.segOffD k + w.segCnt k - (index - 1) := by omega
        rw [h1, h2]
      by_cases hklast : k + 1 = w.segments.length
      · -- the split segment is the tail: collapse to one segment and reset
        rw [if_pos (by
          simp only [List.length_cons, List.length_drop, hlen1]
          omega)]
        have hdropnil : w1.segments.drop (k + 1) = [] := by
          apply List.drop_eq_nil_of_le
          rw [hlen1]
          omega
        rw [hdropnil]
        have hoc := h.offCnt k hklen
        rw [if_pos hklast] at hoc
        have hdropes2 : es.drop (r - 1) =
            segEs m (index - 1) (w1.lastIndex - (index - 1)) := by
          rw [hdropes, hli1, hoc]
        rw [hdropes2]
        obtain ⟨w', hreset, hwf', hli', hfi', hwb', hcl', hsz', hE', hns'⟩ :=
          splitLast_reset_wf w1 m index (by rw [hE1]; exact h.esz)
            (by rw [hsz1]; exact h.ssz) hcl1' hwb1' (by omega)
            (by rw [hli1]; omega) (by rw [hli1, hE1]; omega)
        rw [hreset]
        refine ⟨w', rfl, hwf', hli'.trans hli1, hwb', hcl',
          hsz'.trans hsz1, hE'.trans hE1, hns'.trans hns1, fun _ => hfi'⟩
      · -- segments remain after the split one
        rw [if_neg (by
          simp only [List.length_cons, List.length_drop, hlen1]
          omega)]
        refine ⟨_, rfl, ?_, hli1, hwb1', hcl1', hsz1, hE1, hns1, fun _ => rfl⟩
        have hoc := h.offCnt k hklen
        rw [if_neg hklast] at hoc
        have hlogeq : es.drop (r - 1) =
            segEs m (index - 1) (w1.segOffD (k + 1) - (index - 1)) := by
          rw [hdropes, hoff1 (k + 1), hoc]
        rw [hlogeq]
        exact splitSeg_wf w1 m k index hwf1 (by rw [hlen1]; omega)
          (by rw [hoff1]; exact hlo) (by rw [hoff1, ← hoc]; omega)

/-- The boundary fast path of `Truncate`: when the segment after `k`
starts exactly at `index`, the tail segments are dropped, segment `k`
(already loaded) becomes the tail and the `lastSegment` pointer is left
dangling. -/
theorem truncFast_wf (v : WAL) (m : Nat → List Nat) (k index : Nat) (h : WF v m)
    (hbuf : v.writeBuffer = [])
    (hk : k + 1 < v.segments.length)
    (hlo : v.segOffD k < index)
    (hnext : v.segOffD (k + 1) = index)
    (hok : slotsOk v.segmentEntries (v.segments.getD k defaultSeg).slots
      (v.segPayloads m k))
    (hslen : (v.segments.getD k defaultSeg).len = (v.segPayloads m k).length) :
    WF { v with segments := v.segments.take (k + 1), lastIndex := index,
                lastPtr := .stale } m := by
  have hne : v.segments ≠ [] := by
    intro hc
    rw [hc] at hk
    simp at hk
  have hcntk : v.segCnt k = v.segOffD (k + 1) - v.segOffD k := by
    unfold WAL.segCnt
    rw [if_neg (by omega)]
  set u : WAL := { v with segments := v.segments.take (k + 1),
                          lastIndex := index, lastPtr := .stale } with hu
  have hulen : u.segments.length = k + 1 := by
    show (v.segments.take (k + 1)).length = _
    simp only [List.length_take]
    omega
  have hugd : ∀ j, j < k + 1 → u.segments.getD j defaultSeg =
      v.segments.getD j defaultSeg := by
    intro j hj
    show (v.segments.take (k + 1)).getD j defaultSeg = _
    exact getD_take _ _ _ _ hj
  have huoff : ∀ j, j < k + 1 → u.segOffD j = v.segOffD j := by
    intro j hj
    unfold WAL.segOffD
    rw [hugd j hj]
  have hucnt : ∀ j, j < k → u.segCnt j = v.segCnt j := by
    intro j hj
    unfold WAL.segCnt
    rw [if_neg (by rw [hulen]; omega), if_neg (by omega),
      huoff j (by omega), huoff (j + 1) (by omega)]
  have hupay : ∀ j, j < k → u.segPayloads m j = v.segPayloads m j := by
    intro j hj
    unfold WAL.segPayloads
    rw [hucnt j hj, huoff j (by omega)]
  have hucntk : u.segCnt k = v.segCnt k := by
    unfold WAL.segCnt
    rw [if_pos (by rw [hulen]), huoff k (by omega), if_neg (by omega)]
    show index - v.segOffD k = _
    omega
  have hupayk : u.segPayloads m k = v.segPayloads m k := by
    unfold WAL.segPayloads
    rw [hucntk, huoff k (by omega)]
  refine { esz := h.esz, ssz := h.ssz, notClosed := h.notClosed,
           firstPos := h.firstPos,
           emptyState := ?_, ptrNotNone := ?_, bufPtr := ?_,
           firstOff := ?_, lastLe := ?_, lastPos := ?_, mono := ?_,
           midWF := ?_, lastWF := ?_ }
  · intro hc
    have h0 : u.segments.length = 0 := by rw [hc]; rfl
    rw [hulen] at h0
    exact absurd h0 (by omega)
  · intro _
    show LastPtr.stale ≠ LastPtr.none
    simp
  · intro hc
    exact absurd (show u.writeBuffer = [] from hbuf) hc
  · intro _
    rw [huoff 0 (by omega)]
    exact h.firstOff hne
  · intro _
    rw [hulen, Nat.add_sub_cancel, huoff k (by omega)]
    show v.segOffD k ≤ index
    omega
  · intro _
    show 1 ≤ index
    omega
  · intro j hj
    rw [hulen] at hj
    rw [huoff j (by omega), huoff (j + 1) (by omega)]
    exact h.mono j (by omega)
  · intro j hj
    rw [hulen] at hj
    rw [hugd j (by omega), hupay j (by omega)]
    exact h.midWF j (by omega)
  · intro j hj
    rw [hulen] at hj
    have hjk : j = k := by omega
    subst hjk
    rw [hugd j (by omega), hupayk]
    have hmid := h.midWF j (by omega)
    refine ⟨?_, hmid.2.1, hok, hslen⟩
    rw [show u.writeBuffer = v.writeBuffer from rfl, hbuf, List.append_nil]
    exact hmid.1

/-- The slow path of `Truncate` after the byte copy: segment `k` is
replaced by a file holding only the entries up to `index` (index file
recreated zeroed), the later segments are dropped and the tail is
reset. -/
theorem truncSlow_reset_wf (v : WAL) (m : Nat → List Nat) (k index : Nat)
    (h : WF v m)
    (hbuf : v.writeBuffer = [])
    (hk : k < v.segments.length)
    (hlo : v.segOffD k < index)
    (hEc : index - v.segOffD k ≤ v.segmentEntries) :
    ∃ w', WAL.resetLastSegment { v with
        segments := v.segments.take k ++
          [{ offset := v.segOffD k, len := 0,
             slots := List.replicate (v.segmentEntries + 1) 0,
             log := encAll (segEs m (v.segOffD k) (index - v.segOffD k)) }],
        lastIndex := index } = (none, w') ∧ WF w' m ∧
      w'.firstIndex = v.firstIndex ∧ w'.lastIndex = index ∧
      w'.writeBuffer = [] ∧ w'.closed = false ∧
      w'.segmentSize = v.segmentSize ∧ w'.segmentEntries = v.segmentEntries ∧
      w'.noSplitSegment = v.noSplitSegment := by
  have hne : v.segments ≠ [] := by
    intro hc
    rw [hc] at hk
    simp at hk
  set es2 : List (List Nat) := segEs m (v.segOffD k) (index - v.segOffD k)
    with hes2
  set s2 : Segment := { offset := v.segOffD k, len := 0,
                        slots := List.replicate (v.segmentEntries + 1) 0,
                        log := encAll es2 } with hs2
  set v2 : WAL := { v with segments := v.segments.take k ++ [s2],
                           lastIndex := index } with hv2
  have hes2len : es2.length = index - v.segOffD k := segEs_length m _ _
  have htake : (v.segments.take k).length = k := by
    simp only [List.length_take]
    omega
  have hv2len : v2.segments.length = k + 1 := by
    show (v.segments.take k ++ [s2]).length = k + 1
    simp only [List.length_append, htake, List.length_cons, List.length_nil]
  have hv2ne : v2.segments ≠ [] := by
    intro hc
    rw [hc] at hv2len
    simp at hv2len
  have hgdlast : v2.segments.getD k defaultSeg = s2 := by
    show (v.segments.take k ++ [s2]).getD k defaultSeg = s2
    have hgd := getD_append_last (v.segments.take k) s2 defaultSeg
    rw [htake] at hgd
    exact hgd
  have hgdj : ∀ j, j < k → v2.segments.getD j defaultSeg =
      v.segments.getD j defaultSeg := by
    intro j hj
    show (v.segments.take k ++ [s2]).getD j defaultSeg = _
    rw [getD_append_lt _ _ _ _ (by rw [htake]; omega)]
    exact getD_take _ _ _ _ hj
  have hlastseg : WAL.lastSeg v2 = s2 := by
    rw [lastSeg_eq_getD v2 hv2ne, hv2len, Nat.add_sub_cancel, hgdlast]
  obtain ⟨w', hreset, hvsz, hvE, hvns, hvcl, hvfi, hvwb, hvptr, hvli, hvlen,
    hvgd, hvoffl, hvlogl, hvlenl, hvokl⟩ :=
    resetLast_spec v2 es2 hv2ne (by rw [hlastseg]) (by rw [hlastseg])
      (by rw [hes2len]; exact hEc)
      (Or.inr ⟨by rw [hlastseg], by rw [hes2len]; omega⟩)
  have hposlast : v2.segments.length - 1 = k := by rw [hv2len]; omega
  rw [hposlast, hlastseg] at hvoffl hvlogl
  rw [hposlast] at hvlenl hvokl
  rw [hv2len] at hvgd hvlen
  -- hvgd now: ∀ j, j + 1 < k + 1 → ...
  have hwgd : ∀ j, j < k → w'.segments.getD j defaultSeg =
      v.segments.getD j defaultSeg := by
    intro j hj
    rw [hvgd j (by omega)]
    exact hgdj j hj
  have hwoff : ∀ j, j < k → w'.segOffD j = v.segOffD j := by
    intro j hj
    unfold WAL.segOffD
    rw [hwgd j hj]
  have hwoffk : w'.segOffD k = v.segOffD k := by
    unfold WAL.segOffD
    rw [hvoffl]
    rfl
  have hwli : w'.lastIndex = index := by
    rw [hvli, hlastseg, hes2len]
    show v.segOffD k + (index - v.segOffD k) = index
    omega
  have hwbuf : w'.writeBuffer = [] := by
    rw [hvwb]
    exact hbuf
  have hwcl : w'.closed = false := hvcl.trans h.notClosed
  have hwcnt : ∀ j, j < k → w'.segCnt j = v.segCnt j := by
    intro j hj
    unfold WAL.segCnt
    rw [if_neg (by rw [hvlen]; omega), if_neg (by omega)]
    rcases eq_or_ne (j + 1) k with he | hne2
    · rw [he, hwoffk, hwoff j (by omega), ← he]
    · rw [hwoff (j + 1) (by omega), hwoff j (by omega)]
  have hwpay : ∀ j, j < k → w'.segPayloads m j = v.segPayloads m j := by
    intro j hj
    unfold WAL.segPayloads
    rw [hwcnt j hj, hwoff j hj]
  have hwpayk : w'.segPayloads m k = es2 := by
    unfold WAL.segPayloads WAL.segCnt
    rw [hvlen, if_pos rfl, hwli, hwoffk]
  refine ⟨w', hreset, ?_, hvfi, hwli, hwbuf, hwcl, hvsz, hvE, hvns⟩
  refine { esz := by rw [hvE]; exact h.esz, ssz := by rw [hvsz]; exact h.ssz,
           notClosed := hwcl, firstPos := by rw [hvfi]; exact h.firstPos,
           emptyState := ?_, ptrNotNone := fun _ => by rw [hvptr]; simp,
           bufPtr := fun _ => hvptr,
           firstOff := ?_, lastLe := ?_, lastPos := ?_, mono := ?_,
           midWF := ?_, lastWF := ?_ }
  · intro hc
    have h0 : w'.segments.length = 0 := by rw [hc]; rfl
    rw [hvlen] at h0
    exact absurd h0 (by omega)
  · intro _
    rw [hvfi]
    show w'.segOffD 0 = v.firstIndex - 1
    rcases Nat.eq_zero_or_pos k with hk0 | hkpos
    · subst hk0
      rw [hwoffk]
      exact h.firstOff hne
    · rw [hwoff 0 hkpos]
      exact h.firstOff hne
  · intro _
    rw [hvlen, Nat.add_sub_cancel, hwoffk, hwli]
    omega
  · intro _
    rw [hwli]
    omega
  · intro j hj
    rw [hvlen] at hj
    rcases eq_or_ne (j + 1) k with he | hne2
    · rw [he, hwoffk, hwoff j (by omega)]
      exact le_trans (h.mono j (by omega)) (by rw [he])
    · rw [hwoff (j + 1) (by omega), hwoff j (by omega)]
      exact h.mono j (by omega)
  · intro j hj
    rw [hvlen] at hj
    have hvE' : w'.segmentEntries = v.segmentEntries := hvE
    rw [hwgd j (by omega), hwpay j (by omega), hvE']
    exact h.midWF j (by omega)
  · intro j hj
    rw [hvlen] at hj
    have hjk : j = k := by omega
    subst hjk
    have hvE' : w'.segmentEntries = v.segmentEntries := hvE
    rw [hwpayk, hvE']
    refine ⟨?_, by rw [hes2len]; exact hEc, hvokl, hvlenl⟩
    rw [hwbuf, List.append_nil, hvlogl]

/-- The slow path of `Truncate` run end-to-end on a loaded segment `k`. -/
theorem truncSlow_ok (v : WAL) (m : Nat → List Nat) (k index : Nat) (h : WF v m)
    (hbuf : v.writeBuffer = [])
    (hk : k < v.segments.length)
    (hlo : v.segOffD k < index)
    (hok : slotsOk v.segmentEntries (v.segments.getD k defaultSeg).slots
      (v.segPayloads m k))
    (hslen : (v.segments.getD k defaultSeg).len = (v.segPayloads m k).length)
    (hlogk : (v.segments.getD k defaultSeg).log = encAll (v.segPayloads m k))
    (hEk : (v.segPayloads m k).length ≤ v.segmentEntries)
    (hhi : index ≤ v.segOffD k + v.segCnt k) :
    ∃ w', WAL.truncSlow v k index = (none, w') ∧ WF w' m ∧
      w'.firstIndex = v.firstIndex ∧ w'.lastIndex = index ∧
      w'.writeBuffer = [] ∧ w'.closed = false ∧
      w'.segmentSize = v.segmentSize ∧ w'.segmentEntries = v.segmentEntries ∧
      w'.noSplitSegment = v.noSplitSegment := by
  have hcnt : (v.segPayloads m k).length = v.segCnt k := segEs_length m _ _
  have hri1 : (v.segments.getD k defaultSeg).readIndex
      ((v.segments.getD k defaultSeg).offset + 1) =
      (cum (v.segPayloads m k) 0, cum (v.segPayloads m k) 1) :=
    readIndex_spec v.segmentEntries _ _ hok _ 1 (by omega) le_rfl (by omega)
  have hri2 : (v.segments.getD k defaultSeg).readIndex index =
      (cum (v.segPayloads m k) ((index - v.segOffD k) - 1),
       cum (v.segPayloads m k) (index - v.segOffD k)) :=
    readIndex_spec v.segmentEntries _ _ hok index (index - v.segOffD k) rfl
      (by omega) (by omega)
  unfold WAL.truncSlow
  dsimp only
  rw [hri1, hri2]
  dsimp only
  have hcmono : cum (v.segPayloads m k) (index - v.segOffD k) ≤
      cum (v.segPayloads m k) (v.segPayloads m k).length :=
    cum_mono _ _ _ (by omega)
  have hcopy : WAL.copyRange (v.segments.getD k defaultSeg).log
      (cum (v.segPayloads m k) 0)
      (cum (v.segPayloads m k) (index - v.segOffD k) -
        cum (v.segPayloads m k) 0) =
      some (encAll (segEs m (v.segOffD k) (index - v.segOffD k))) := by
    unfold WAL.copyRange
    rw [hlogk]
    rw [if_pos (by rw [cum_zero, ← cum_length]; omega)]
    rw [cum_zero, List.drop_zero, Nat.sub_zero, encAll_take]
    have htk : (v.segPayloads m k).take (index - v.segOffD k) =
        segEs m (v.segOffD k) (index - v.segOffD k) := by
      show (segEs m (v.segOffD k) (v.segCnt k)).take (index - v.segOffD k) = _
      exact segEs_take m _ _ _ (by omega)
    rw [htk]
  rw [hcopy]
  dsimp only
  rw [show (v.segments.getD k defaultSeg).offset = v.segOffD k from rfl]
  exact truncSlow_reset_wf v m k index h hbuf hk hlo (by omega)

/-- `Truncate` at an in-range index other than `last_index` always
succeeds under the invariant with a flushed buffer: the invariant,
`firstIndex`, the buffer and the option fields are preserved and
`lastIndex` becomes the argument. -/
theorem WF.trunc_ok {w : WAL} {m : Nat → List Nat} {index : Nat} (h : WF w m)
    (hbuf : w.writeBuffer = [])
    (hidx : index ≠ w.lastIndex)
    (hlo0 : w.firstIndex ≤ index) (hhi0 : index ≤ w.lastIndex) :
    ∃ w', WAL.truncateOp w index = (none, w') ∧ WF w' m ∧
      w'.firstIndex = w.firstIndex ∧ w'.lastIndex = index ∧
      w'.writeBuffer = [] ∧ w'.closed = false ∧
      w'.segmentSize = w.segmentSize ∧ w'.segmentEntries = w.segmentEntries ∧
      w'.noSplitSegment = w.noSplitSegment := by
  have hfp := h.firstPos
  have hchk : w.checkIndex index = none := by
    unfold WAL.checkIndex
    rw [h.notClosed]
    rw [if_neg (by simp), if_neg (by push_neg; omega)]
  obtain ⟨k, hsk, hklen, hlo, hhi⟩ := h.search_found index hlo0 hhi0
  obtain ⟨w1, hload, hwf1, hsz1, hE1, hns1, hcl1, hfi1, hli1, hwb1, hlp1, hlen1,
    hoff1, hlog1, hgd1, hfacts⟩ := h.loadAt k
  obtain ⟨hok1, hslen1⟩ := hfacts hklen
  have hne : w.segments ≠ [] := by
    intro hc
    rw [hc] at hklen
    simp at hklen
  have hwb1' : w1.writeBuffer = [] := by rw [hwb1]; exact hbuf
  have hcl1' : w1.closed = false := hcl1.trans h.notClosed
  have hlogk : (w1.segments.getD k defaultSeg).log =
      encAll (w.segPayloads m k) := by
    rw [hlog1 k]
    by_cases hlast : k + 1 = w.segments.length
    · have hb := (h.lastWF k hlast).1
      rw [hbuf, List.append_nil] at hb
      exact hb
    · exact (h.midWF k (by omega)).1
  have hEk : (w.segPayloads m k).length ≤ w.segmentEntries := by
    by_cases hlast : k + 1 = w.segments.length
    · exact (h.lastWF k hlast).2.1
    · exact (h.midWF k (by omega)).2.1
  have hpay1 : ∀ j, w1.segPayloads m j = w.segPayloads m j := by
    intro j
    exact (segPayloads_congr m hlen1 hoff1 hli1 j).2
  have hcnt1 : ∀ j, w1.segCnt j = w.segCnt j := by
    intro j
    exact (segPayloads_congr m hlen1 hoff1 hli1 j).1
  unfold WAL.truncateOp
  rw [if_neg hidx, hchk]
  dsimp only
  rw [hsk]
  rw [if_neg (by push_neg; exact ⟨by omega, by omega⟩)]
  rw [show ((k : Int)).toNat = k from by omega]
  rw [hload]
  dsimp only
  by_cases hklast : k + 1 < w.segments.length
  · rw [if_pos (by rw [hlen1]; exact hklast)]
    obtain ⟨w2, hload2, hwf2, hsz2, hE2, hns2, hcl2, hfi2, hli2, hwb2, hlp2,
      hlen2, hoff2, hlog2, hgd2, hfacts2⟩ := hwf1.loadAt (k + 1)
    rw [hload2]
    dsimp only
    have hwb2' : w2.writeBuffer = [] := by rw [hwb2]; exact hwb1'
    have hcl2' : w2.closed = false := hcl2.trans hcl1'
    have hoffk1 : (w2.segments.getD (k + 1) defaultSeg).offset =
        w.segOffD (k + 1) := by
      have h2 := hoff2 (k + 1)
      rw [hoff1 (k + 1)] at h2
      exact h2
    have hpay2 : ∀ j, w2.segPayloads m j = w.segPayloads m j := by
      intro j
      rw [(segPayloads_congr m hlen2 hoff2 hli2 j).2, hpay1 j]
    by_cases hbnd : w.segOffD (k + 1) = index
    · -- boundary fast path
      rw [if_pos (by rw [hoffk1]; exact hbnd)]
      refine ⟨_, rfl, ?_, ?_, rfl, hwb2', hcl2',
        hsz2.trans hsz1, hE2.trans hE1, hns2.trans hns1⟩
      · refine truncFast_wf w2 m k index hwf2 hwb2'
          (by rw [hlen2, hlen1]; exact hklast) ?_ ?_ ?_ ?_
        · rw [hoff2 k, hoff1 k]
          exact hlo
        · rw [hoff2 (k + 1), hoff1 (k + 1)]
          exact hbnd
        · rw [hE2, hE1, hgd2 k (by omega), hpay2 k]
          exact hok1
        · rw [hgd2 k (by omega), hpay2 k]
          exact hslen1
      · show w2.firstIndex = w.firstIndex
        rw [hfi2, hfi1]
    · -- next segment does not start at `index`: slow path
      rw [if_neg (by rw [hoffk1]; exact hbnd)]
      obtain ⟨w', hrun, hwf', hfi', hli', hwb', hcl', hsz', hE', hns'⟩ :=
        truncSlow_ok w2 m k index hwf2 hwb2'
          (by rw [hlen2, hlen1]; omega)
          (by rw [hoff2 k, hoff1 k]; exact hlo)
          (by rw [hE2, hE1, hgd2 k (by omega), hpay2 k]; exact hok1)
          (by rw [hgd2 k (by omega), hpay2 k]; exact hslen1)
          (by rw [hgd2 k (by omega), hpay2 k]; exact hlogk)
          (by rw [hpay2 k, hE2, hE1]; exact hEk)
          (by rw [hoff2 k, hoff1 k,
              (segPayloads_congr m hlen2 hoff2 hli2 k).1, hcnt1 k]; exact hhi)
      refine ⟨w', hrun, hwf', ?_, hli', hwb', hcl',
        hsz'.trans (hsz2.trans hsz1), hE'.trans (hE2.trans hE1),
        hns'.trans (hns2.trans hns1)⟩
      rw [hfi', hfi2, hfi1]
  · rw [if_neg (by rw [hlen1]; exact hklast)]
    obtain ⟨w', hrun, hwf', hfi', hli', hwb', hcl', hsz', hE', hns'⟩ :=
      truncSlow_ok w1 m k index hwf1 hwb1'
        (by rw [hlen1]; exact hklen)
        (by rw [hoff1 k]; exact hlo)
        (by rw [hE1, hpay1 k]; exact hok1)
        (by rw [hpay1 k]; exact hslen1)
        (by rw [hpay1 k]; exact hlogk)
        (by rw [hpay1 k, hE1]; exact hEk)
        (by rw [hoff1 k, hcnt1 k]; exact hhi)
    refine ⟨w', hrun, hwf', ?_, hli', hwb', hcl',
      hsz'.trans hsz1, hE'.trans hE1, hns'.trans hns1⟩
    rw [hfi', hfi1]

/-- `Reset` on an open log with a flushed buffer: the state returns to the
empty-log shape. -/
theorem WF.reset_ok {w : WAL} {m : Nat → List Nat} (h : WF w m)
    (hbuf : w.writeBuffer = []) :
    WAL.resetOp w = (none, { w with
      segments := [], firstIndex := 1, lastIndex := 0, lastPtr := .none }) ∧
    WF { w with
      segments := [], firstIndex := 1, lastIndex := 0, lastPtr := .none } m := by
  constructor
  · unfold WAL.resetOp
    rw [if_neg (by rw [h.notClosed]; simp)]
  · refine { esz := h.esz, ssz := h.ssz, notClosed := h.notClosed,
             firstPos := le_rfl,
             emptyState := fun _ => ⟨rfl, rfl, hbuf, rfl⟩,
             ptrNotNone := fun hc => absurd rfl hc,
             bufPtr := fun hc => absurd hbuf hc,
             firstOff := fun hc => absurd rfl hc,
             lastLe := fun hc => absurd rfl hc,
             lastPos := fun hc => absurd rfl hc,
             mono := fun k hk => absurd hk (by simp),
             midWF := fun k hk => absurd hk (by simp),
             lastWF := fun k hk => absurd hk (by simp) }

/-- A freshly opened empty log satisfies the invariant with empty
contents. -/
theorem initial_wf (SS E : Nat) (ns : Bool) (hss : 1 ≤ SS) (hE : 1 ≤ E)
    (m : Nat → List Nat) : WF (WAL.initialWAL SS E ns) m := by
  refine { esz := hE, ssz := hss, notClosed := rfl, firstPos := le_rfl,
           emptyState := fun _ => ⟨rfl, rfl, rfl, rfl⟩,
           ptrNotNone := fun hc => absurd rfl hc,
           bufPtr := fun hc => absurd rfl hc,
           firstOff := fun hc => absurd rfl hc,
           lastLe := fun hc => absurd rfl hc,
           lastPos := fun hc => absurd rfl hc,
           mono := fun k hk => absurd hk (by simp [WAL.initialWAL]),
           midWF := fun k hk => absurd hk (by simp [WAL.initialWAL]),
           lastWF := fun k hk => absurd hk (by simp [WAL.initialWAL]) }

/-- `Read` with any argument preserves the invariant and every observable
(the only state change is the lazy segment load). -/
theorem WF.read_pres {w : WAL} {m : Nat → List Nat} {i : Nat}
    {e : Except Err (List Nat)} {w' : WAL} (h : WF w m)
    (hop : WAL.readOp w i = (e, w')) :
    WF w' m ∧ w'.writeBuffer = w.writeBuffer ∧
    w'.firstIndex = w.firstIndex ∧ w'.lastIndex = w.lastIndex ∧
    w'.closed = w.closed := by
  unfold WAL.readOp at hop
  cases hchk : w.checkIndex i with
  | some e0 =>
    rw [hchk] at hop
    dsimp only at hop
    have h2 := congrArg Prod.snd hop
    dsimp only at h2
    rw [← h2]
    exact ⟨h, rfl, rfl, rfl, rfl⟩
  | none =>
    rw [hchk] at hop
    dsimp only at hop
    split at hop
    · have h2 := congrArg Prod.snd hop
      dsimp only at h2
      rw [← h2]
      exact ⟨h, rfl, rfl, rfl, rfl⟩
    · obtain ⟨w1, hload, hwf1, hsz1, hE1, hns1, hcl1, hfi1, hli1, hwb1, hlp1,
        hlen1, hoff1, hlog1, hgd1, hfacts⟩ :=
        h.loadAt (w.searchSegmentIndex i).toNat
      rw [hload] at hop
      dsimp only at hop
      have hout : w' = w1 := by
        split at hop
        · have h2 := congrArg Prod.snd hop
          dsimp only at h2
          rw [← h2]
        · split at hop
          · have h2 := congrArg Prod.snd hop
            dsimp only at h2
            rw [← h2]
          · have h2 := congrArg Prod.snd hop
            dsimp only at h2
            rw [← h2]
      rw [hout]
      exact ⟨hwf1, hwb1, hfi1, hli1, hcl1⟩

/-- Log states reachable through the public API from a freshly opened
empty log under the flush discipline of the spec: every accepted `Write`
is immediately followed by a successful `flush` (P2 reads back entries
"after Flush", and the split paths of `Clean`/`Truncate` require the tail
data file to be complete on disk).  `m` is the abstract content of the
log: the payload supplied by the last accepted write at each index. -/
inductive Reach : WAL → (Nat → List Nat) → Prop where
  | init (SS E : Nat) (ns : Bool) : 1 ≤ SS → 1 ≤ E →
      Reach (WAL.initialWAL SS E ns) (fun _ => [])
  | write {w : WAL} {m : Nat → List Nat} {i : Nat} {d : List Nat}
      {w1 w2 : WAL} : Reach w m → WAL.writeOp w i d = (none, w1) →
      WAL.flushOp w1 = (none, w2) →
      Reach w2 (fun j => if j = i then d else m j)
  | readStep {w : WAL} {m : Nat → List Nat} {i : Nat}
      {e : Except Err (List Nat)} {w' : WAL} : Reach w m →
      WAL.readOp w i = (e, w') → Reach w' m
  | clean {w : WAL} {m : Nat → List Nat} {i : Nat} {w' : WAL} : Reach w m →
      WAL.cleanOp w i = (none, w') → Reach w' m
  | trunc {w : WAL} {m : Nat → List Nat} {i : Nat} {w' : WAL} : Reach w m →
      WAL.truncateOp w i = (none, w') → Reach w' m
  | reset {w : WAL} {m : Nat → List Nat} {w' : WAL} : Reach w m →
      WAL.resetOp w = (none, w') → Reach w' m

/-- Every reachable state satisfies the representation invariant and has a
flushed write buffer. -/
theorem reach_wf {w : WAL} {m : Nat → List Nat} (hr : Reach w m) :
    WF w m ∧ w.writeBuffer = [] := by
  induction hr with
  | init SS E ns hss hE => exact ⟨initial_wf SS E ns hss hE _, rfl⟩
  | write hr hw hf ih =>
    obtain ⟨hwf, hbuf⟩ := ih
    have hwf1 := hwf.write_ok hw
    obtain ⟨w2', heq, hwf2, hbuf2, -⟩ := hwf1.flush_ok
    rename_i w0 m0 i d w1 w2
    rw [heq] at hf
    have h2 := congrArg Prod.snd hf
    dsimp only at h2
    rw [← h2]
    exact ⟨hwf2, hbuf2⟩
  | readStep hr hop ih =>
    obtain ⟨hwf, hbuf⟩ := ih
    obtain ⟨hwf', hwb', -, -, -⟩ := hwf.read_pres hop
    refine ⟨hwf', ?_⟩
    rw [hwb']
    exact hbuf
  | clean hr hop ih =>
    obtain ⟨hwf, hbuf⟩ := ih
    rename_i w0 m0 i w'
    rcases eq_or_ne i w0.firstIndex with he | hidx
    · have hid : WAL.cleanOp w0 i = (none, w0) := by
        unfold WAL.cleanOp
        rw [if_pos he]
      rw [hid] at hop
      have h2 := congrArg Prod.snd hop
      dsimp only at h2
      rw [← h2]
      exact ⟨hwf, hbuf⟩
    · cases hchk : w0.checkIndex i with
      | some e0 =>
        have hid : WAL.cleanOp w0 i = (some e0, w0) := by
          unfold WAL.cleanOp
          rw [if_neg hidx, hchk]
        rw [hid] at hop
        exact absurd (congrArg Prod.fst hop) (by simp)
      | none =>
        have hb : w0.firstIndex ≤ i ∧ i ≤ w0.lastIndex := by
          unfold WAL.checkIndex at hchk
          rw [hwf.notClosed] at hchk
          by_cases hd : i = 0 ∨ w0.lastIndex = 0 ∨ i < w0.firstIndex ∨
              w0.lastIndex < i
          · rw [if_neg (by simp), if_pos hd] at hchk
            cases hchk
          · push_neg at hd
            exact ⟨by omega, by omega⟩
        obtain ⟨w'', heq, hwf', -, hbuf', -⟩ :=
          hwf.clean_ok hbuf hidx hb.1 hb.2
        rw [heq] at hop
        have h2 := congrArg Prod.snd hop
        dsimp only at h2
        rw [← h2]
        exact ⟨hwf', hbuf'⟩
  | trunc hr hop ih =>
    obtain ⟨hwf, hbuf⟩ := ih
    rename_i w0 m0 i w'
    rcases eq_or_ne i w0.lastIndex with he | hidx
    · have hid : WAL.truncateOp w0 i = (none, w0) := by
        unfold WAL.truncateOp
        rw [if_pos he]
      rw [hid] at hop
      have h2 := congrArg Prod.snd hop
      dsimp only at h2
      rw [← h2]
      exact ⟨hwf, hbuf⟩
    · cases hchk : w0.checkIndex i with
      | some e0 =>
        have hid : WAL.truncateOp w0 i = (some e0, w0) := by
          unfold WAL.truncateOp
          rw [if_neg hidx, hchk]
        rw [hid] at hop
        exact absurd (congrArg Prod.fst hop) (by simp)
      | none =>
        have hb : w0.firstIndex ≤ i ∧ i ≤ w0.lastIndex := by
          unfold WAL.checkIndex at hchk
          rw [hwf.notClosed] at hchk
          by_cases hd : i = 0 ∨ w0.lastIndex = 0 ∨ i < w0.firstIndex ∨
              w0.lastIndex < i
          · rw [if_neg (by simp), if_pos hd] at hchk
            cases hchk
          · push_neg at hd
            exact ⟨by omega, by omega⟩
        obtain ⟨w'', heq, hwf', -, -, hbuf', -⟩ :=
          hwf.trunc_ok hbuf hidx hb.1 hb.2
        rw [heq] at hop
        have h2 := congrArg Prod.snd hop
        dsimp only at h2
        rw [← h2]
        exact ⟨hwf', hbuf'⟩
  | reset hr hop ih =>
    obtain ⟨hwf, hbuf⟩ := ih
    obtain ⟨heq, hwf'⟩ := hwf.reset_ok hbuf
    rw [heq] at hop
    have h2 := congrArg Prod.snd hop
    dsimp only at h2
    rw [← h2]
    exact ⟨hwf', hbuf⟩

theorem getD_map_seg (f : Segment → Segment) (l : List Segment) (j : Nat)
    (hj : j < l.length) :
    (l.map f).getD j defaultSeg = f (l.getD j defaultSeg) := by
  rw [List.getD_eq_getElem _ _ (by simpa using hj), List.getD_eq_getElem _ _ hj]
  simp

/-- A successful `Close` on a flushed log marks it closed and closes every
segment, leaving the on-disk state intact. -/
theorem WF.close_ok {w : WAL} {m : Nat → List Nat} {w2 : WAL} (h : WF w m)
    (hbuf : w.writeBuffer = []) (hop : WAL.closeOp w = (none, w2)) :
    w2 = { w with closed := true, segments := w.segments.map Segment.closeSeg } := by
  have hfl : WAL.flushOp w = (none, w) := by
    unfold WAL.flushOp
    rw [if_neg (by rw [h.notClosed]; simp), if_pos hbuf]
  unfold WAL.closeOp at hop
  rw [hfl] at hop
  dsimp only at hop
  unfold WAL.syncOp at hop
  rw [if_neg (by rw [h.notClosed]; simp)] at hop
  cases hp : w.lastPtr with
  | none =>
    rw [hp] at hop
    dsimp only at hop
    rw [if_neg (by rw [h.notClosed]; simp)] at hop
    have h2 := congrArg Prod.snd hop
    dsimp only at h2
    rw [← hp]
    exact h2.symm
  | valid =>
    rw [hp] at hop
    dsimp only at hop
    rw [if_neg (by rw [h.notClosed]; simp)] at hop
    have h2 := congrArg Prod.snd hop
    dsimp only at h2
    rw [← hp]
    exact h2.symm
  | stale =>
    rw [hp] at hop
    dsimp only at hop
    exact absurd (congrArg Prod.fst hop) (by simp)

/-- Re-opening the directory of a flushed log restores the invariant, the
index bounds and the contents: the recovery walk rebuilds the segment list
from the persisted files and `resetLastSegment` reloads the tail. -/
theorem reopen_wf {w : WAL} {m : Nat → List Nat} (h : WF w m)
    (hbuf : w.writeBuffer = []) :
    ∃ w3, WAL.openFromDisk w.segmentSize w.segmentEntries w.noSplitSegment
        (w.segments.map (fun s => (s.offset, s.log, s.slots))) = (none, w3) ∧
      WF w3 m ∧ w3.firstIndex = w.firstIndex ∧ w3.lastIndex = w.lastIndex ∧
      w3.writeBuffer = [] ∧ w3.closed = false := by
  have hsegs : (w.segments.map (fun s => (s.offset, s.log, s.slots))).map
      (fun f => ({ offset := f.1, len := 0, slots := f.2.2, log := f.2.1 }
        : Segment)) = w.segments.map Segment.closeSeg := by
    rw [List.map_map]
    apply List.map_congr_left
    intro s _
    rfl
  unfold WAL.openFromDisk
  dsimp only
  rw [hsegs]
  cases hseg : w.segments with
  | nil =>
    obtain ⟨hf1, hli0, -, -⟩ := h.emptyState hseg
    rw [List.map_nil]
    dsimp only
    refine ⟨_, rfl, initial_wf _ _ _ h.ssz h.esz m, ?_, ?_, rfl, rfl⟩
    · rw [hf1]
      rfl
    · rw [hli0]
      rfl
  | cons a l' =>
    rw [List.map_cons]
    dsimp only
    have hne : w.segments ≠ [] := by rw [hseg]; simp
    have hL : 0 < w.segments.length := List.length_pos.mpr hne
    set L : Nat := w.segments.length with hLdef
    set v : WAL := { WAL.initialWAL w.segmentSize w.segmentEntries
        w.noSplitSegment with
      segments := Segment.closeSeg a :: List.map Segment.closeSeg l',
      firstIndex := (Segment.closeSeg a).offset + 1 } with hv
    have hvsegs : v.segments = w.segments.map Segment.closeSeg := by
      show Segment.closeSeg a :: List.map Segment.closeSeg l' = _
      rw [hseg, List.map_cons]
    have hvlen : v.segments.length = L := by
      rw [hvsegs, List.length_map]
    have hvne : v.segments ≠ [] := by
      intro hc
      rw [hc] at hvlen
      simp at hvlen
      omega
    have hvgd : ∀ j, j < L → v.segments.getD j defaultSeg =
        Segment.closeSeg (w.segments.getD j defaultSeg) := by
      intro j hj
      rw [hvsegs]
      exact getD_map_seg _ _ j hj
    have hlastv : WAL.lastSeg v =
        Segment.closeSeg (w.segments.getD (L - 1) defaultSeg) := by
      rw [lastSeg_eq_getD v hvne, hvlen, hvgd (L - 1) (by omega)]
    set es' : List (List Nat) := w.segPayloads m (L - 1) with hes'
    obtain ⟨hwflog, hwfE, hwfok, hwflen⟩ := h.lastWF (L - 1) (by omega)
    rw [hbuf, List.append_nil] at hwflog
    obtain ⟨w3, hreset, hsz3, hE3, hns3, hcl3, hfi3, hwb3, hptr3, hli3, hlen3,
      hgd3, hoffl3, hlogl3, hlenl3, hokl3⟩ :=
      resetLast_spec v es' hvne (by rw [hlastv]; rfl)
        (by rw [hlastv]; exact hwflog) hwfE (Or.inl (by rw [hlastv]; exact hwfok))
    rw [hvlen] at hgd3 hoffl3 hlogl3 hlenl3 hokl3
    have hli' : w3.lastIndex = w.lastIndex := by
      rw [hli3, hlastv]
      show (w.segments.getD (L - 1) defaultSeg).offset + es'.length = _
      have hcnt : es'.length = w.segCnt (L - 1) := segEs_length m _ _
      have := h.lastIdxEq hne
      rw [hcnt]
      exact this
    have hfi' : w3.firstIndex = w.firstIndex := by
      rw [hfi3]
      show (Segment.closeSeg a).offset + 1 = _
      have ha : a = w.segments.getD 0 defaultSeg := by
        rw [hseg]
        rfl
      have := h.firstOff hne
      have hfp := h.firstPos
      show a.offset + 1 = w.firstIndex
      rw [ha]
      show w.segOffD 0 + 1 = w.firstIndex
      omega
    have hwb' : w3.writeBuffer = [] := by
      rw [hwb3]
      rfl
    have hcl' : w3.closed = false := by
      rw [hcl3]
      rfl
    have hlen' : w3.segments.length = L := by
      rw [hlen3, hvlen]
    have hoffj : ∀ j, j < L → w3.segOffD j = w.segOffD j := by
      intro j hj
      rcases eq_or_ne j (L - 1) with rfl | hne2
      · show (w3.segments.getD (L - 1) defaultSeg).offset = _
        rw [hoffl3, hlastv]
        rfl
      · show (w3.segments.getD j defaultSeg).offset = _
        rw [hgd3 j (by omega), hvgd j hj]
        rfl
    have hcnt3 : ∀ j, j < L → w3.segCnt j = w.segCnt j := by
      intro j hj
      unfold WAL.segCnt
      rw [hlen', hli']
      rcases eq_or_ne (j + 1) L with he | hne2
      · rw [if_pos he, if_pos he, hoffj j hj]
      · rw [if_neg hne2, if_neg hne2, hoffj j hj]
        rcases lt_or_ge (j + 1) L with hlt | hge
        · rw [hoffj (j + 1) hlt]
        · have hd1 : w3.segOffD (j + 1) = 0 := by
            show (w3.segments.getD (j + 1) defaultSeg).offset = 0
            rw [List.getD_eq_default _ _ (by omega)]
            rfl
          have hd2 : w.segOffD (j + 1) = 0 := by
            show (w.segments.getD (j + 1) defaultSeg).offset = 0
            rw [List.getD_eq_default _ _ (by omega)]
            rfl
          rw [hd1, hd2]
    have hpay3 : ∀ j, j < L → w3.segPayloads m j = w.segPayloads m j := by
      intro j hj
      unfold WAL.segPayloads
      rw [hcnt3 j hj, hoffj j hj]
    refine ⟨w3, hreset, ?_, hfi', hli', hwb', hcl'⟩
    refine { esz := by rw [hE3]; exact h.esz, ssz := by rw [hsz3]; exact h.ssz,
             notClosed := hcl', firstPos := by rw [hfi']; exact h.firstPos,
             emptyState := ?_, ptrNotNone := fun _ => by rw [hptr3]; simp,
             bufPtr := fun _ => hptr3,
             firstOff := ?_, lastLe := ?_, lastPos := ?_, mono := ?_,
             midWF := ?_, lastWF := ?_ }
    · intro hc
      have h0 : w3.segments.length = 0 := by rw [hc]; rfl
      rw [hlen'] at h0
      omega
    · intro _
      rw [hoffj 0 (by omega), hfi']
      exact h.firstOff hne
    · intro _
      rw [hlen', hoffj (L - 1) (by omega), hli']
      exact h.lastLe hne
    · intro _
      rw [hli']
      exact h.lastPos hne
    · intro j hj
      rw [hlen'] at hj
      rw [hoffj j (by omega), hoffj (j + 1) (by omega)]
      exact h.mono j (by omega)
    · intro j hj
      rw [hlen'] at hj
      have hE3' : w3.segmentEntries = w.segmentEntries := hE3
      rw [hE3', hpay3 j (by omega), hgd3 j (by omega), hvgd j (by omega)]
      obtain ⟨hlg, hEb, hbr⟩ := h.midWF j hj
      refine ⟨hlg, hEb, ?_⟩
      rcases hbr with ⟨hok0, -⟩ | ⟨hz, -, hpos⟩
      · exact Or.inl ⟨hok0, Or.inr rfl⟩
      · exact Or.inr ⟨hz, rfl, hpos⟩
    · intro j hj
      rw [hlen'] at hj
      have hjL : j = L - 1 := by omega
      subst hjL
      have hE3' : w3.segmentEntries = w.segmentEntries := hE3
      rw [hE3', hpay3 _ (by omega), hwb']
      refine ⟨?_, hwfE, hokl3, hlenl3⟩
      rw [List.append_nil, hlogl3, hlastv]
      exact hwflog

theorem headD_eq_getD_zero {α : Type} (l : List α) (d : α) :
    l.headD d = l.getD 0 d := by
  cases l <;> rfl

theorem dedup_nil : dedupSegs [] = [] := rfl

theorem dedup_cons_cons (s t : Segment) (r : List Segment) :
    dedupSegs (s :: t :: r) =
      if s.offset = t.offset then dedupSegs (t :: r)
      else s :: dedupSegs (t :: r) := rfl

theorem dedup_ne_nil (l : List Segment) (h : l ≠ []) : dedupSegs l ≠ [] := by
  induction l with
  | nil => exact absurd rfl h
  | cons s rest ih =>
    cases rest with
    | nil => simp [dedupSegs]
    | cons t r =>
      rw [dedup_cons_cons]
      split
      · exact ih (by simp)
      · simp

/-- `dedupSegs` keeps the head's offset (the survivor of the first run has
the same offset as the original head). -/
theorem dedup_headD_offset (l : List Segment) (h : l ≠ []) :
    ((dedupSegs l).headD defaultSeg).offset = (l.headD defaultSeg).offset := by
  induction l with
  | nil => exact absurd rfl h
  | cons s rest ih =>
    cases rest with
    | nil => rfl
    | cons t r =>
      rw [dedup_cons_cons]
      split
      · rename_i heq
        rw [ih (by simp)]
        exact heq.symm
      · rfl

/-- Adjacent entries of the deduplicated list have distinct offsets. -/
theorem dedup_adj_ne (l : List Segment) :
    ∀ k, k + 1 < (dedupSegs l).length →
      ((dedupSegs l).getD k defaultSeg).offset ≠
        ((dedupSegs l).getD (k + 1) defaultSeg).offset := by
  induction l with
  | nil => intro k hk; simp [dedup_nil] at hk
  | cons s rest ih =>
    cases rest with
    | nil => intro k hk; simp [dedupSegs] at hk
    | cons t r =>
      by_cases heq : s.offset = t.offset
      · rw [dedup_cons_cons, if_pos heq]
        exact ih
      · rw [dedup_cons_cons, if_neg heq]
        intro k hk
        cases k with
        | zero =>
          show s.offset ≠ ((dedupSegs (t :: r)).getD 0 defaultSeg).offset
          rw [← headD_eq_getD_zero, dedup_headD_offset (t :: r) (by simp)]
          exact heq
        | succ k' =>
          show ((dedupSegs (t :: r)).getD k' defaultSeg).offset ≠
            ((dedupSegs (t :: r)).getD (k' + 1) defaultSeg).offset
          refine ih k' ?_
          simp only [List.length_cons] at hk
          omega

theorem dedup_cons_ne (s : Segment) (l : List Segment) (hne : l ≠ [])
    (h : s.offset ≠ (l.headD defaultSeg).offset) :
    dedupSegs (s :: l) = s :: dedupSegs l := by
  cases l with
  | nil => exact absurd rfl hne
  | cons t r =>
    rw [dedup_cons_cons]
    exact if_neg h

/-- A list without adjacent equal offsets is its own directory view. -/
theorem dedup_eq_self (l : List Segment)
    (h : ∀ k, k + 1 < l.length →
      (l.getD k defaultSeg).offset ≠ (l.getD (k + 1) defaultSeg).offset) :
    dedupSegs l = l := by
  induction l with
  | nil => rfl
  | cons s rest ih =>
    cases rest with
    | nil => rfl
    | cons t r =>
      have hrest : dedupSegs (t :: r) = t :: r := by
        refine ih ?_
        intro k hk
        refine h (k + 1) ?_
        simp only [List.length_cons] at hk ⊢
        omega
      rw [dedup_cons_cons,
        if_neg (show ¬s.offset = t.offset from h 0 (by simp)), hrest]

theorem headD_eraseIdx_offset (t : Segment) (r : List Segment) (k : Nat)
    (hk : k + 1 < (t :: r).length)
    (hoff : ((t :: r).getD k defaultSeg).offset =
      ((t :: r).getD (k + 1) defaultSeg).offset) :
    (((t :: r).eraseIdx k).headD defaultSeg).offset = t.offset := by
  cases k with
  | zero =>
    show (r.headD defaultSeg).offset = t.offset
    rw [headD_eq_getD_zero]
    exact hoff.symm
  | succ k'' => rfl

/-- Deduplication is reached by erasing one of an adjacent equal-offset pair
at a time. -/
theorem dedup_erase (l : List Segment) :
    ∀ kk, kk + 1 < l.length →
      (l.getD kk defaultSeg).offset = (l.getD (kk + 1) defaultSeg).offset →
      ∃ k, k + 1 < l.length ∧
        (l.getD k defaultSeg).offset = (l.getD (k + 1) defaultSeg).offset ∧
        dedupSegs l = dedupSegs (l.eraseIdx k) := by
  induction l with
  | nil => intro kk hkk; simp at hkk
  | cons s rest ih =>
    intro kk hkk hoff
    cases rest with
    | nil => simp at hkk
    | cons t r =>
      by_cases heq : s.offset = t.offset
      · refine ⟨0, by simp, heq, ?_⟩
        rw [dedup_cons_cons, if_pos heq,
          show (s :: t :: r).eraseIdx 0 = t :: r from rfl]
      · have hkk0 : kk ≠ 0 := by
          intro hc
          subst hc
          exact heq hoff
        obtain ⟨kk', rfl⟩ : ∃ kk', kk = kk' + 1 := ⟨kk - 1, by omega⟩
        obtain ⟨k, hk, hoffk, hded⟩ := ih kk'
          (by simp only [List.length_cons] at hkk ⊢; omega) hoff
        refine ⟨k + 1, by simp only [List.length_cons] at hk ⊢; omega, hoffk, ?_⟩
        have hne' : (t :: r).eraseIdx k ≠ [] := by
          intro hc
          have hl := congrArg List.length hc
          rw [List.length_eraseIdx] at hl
          rw [if_pos (show k < (t :: r).length from by omega)] at hl
          simp only [List.length_cons, List.length_nil] at hl
          simp only [List.length_cons] at hk
          omega
        have hhead := headD_eraseIdx_offset t r k hk hoffk
        rw [dedup_cons_cons, if_neg heq, hded]
        rw [show (s :: t :: r).eraseIdx (k + 1) = s :: (t :: r).eraseIdx k from rfl]
        rw [dedup_cons_ne s _ hne' (by rw [hhead]; exact heq)]

/-- Closing every segment commutes with the directory view (`closeSeg`
keeps offsets). -/
theorem dedup_map_close (l : List Segment) :
    dedupSegs (l.map Segment.closeSeg) = (dedupSegs l).map Segment.closeSeg := by
  induction l with
  | nil => rfl
  | cons s rest ih =>
    cases rest with
    | nil => rfl
    | cons t r =>
      simp only [List.map_cons] at ih ⊢
      rw [dedup_cons_cons, dedup_cons_cons]
      by_cases heq : s.offset = t.offset
      · rw [if_pos (show (Segment.closeSeg s).offset = (Segment.closeSeg t).offset
            from heq), if_pos heq]
        exact ih
      · rw [if_neg (show ¬(Segment.closeSeg s).offset = (Segment.closeSeg t).offset
            from heq), if_neg heq, ih, List.map_cons]

theorem getD_eraseIdx {α : Type} (l : List α) (k : Nat) (hk : k < l.length) :
    ∀ (j : Nat) (d : α), (l.eraseIdx k).getD j d =
      if j < k then l.getD j d else l.getD (j + 1) d := by
  induction l generalizing k with
  | nil => simp at hk
  | cons s rest ih =>
    intro j d
    cases k with
    | zero =>
      rw [if_neg (by omega)]
      rfl
    | succ k' =>
      cases j with
      | zero => rw [if_pos (by omega)]; rfl
      | succ j' =>
        show (rest.eraseIdx k').getD j' d = _
        rw [ih k' (by simp only [List.length_cons] at hk; omega) j' d]
        by_cases hc : j' < k'
        · rw [if_pos hc, if_pos (by omega)]
          rfl
        · rw [if_neg hc, if_neg (by omega)]
          rfl

/-- Erasing one of an adjacent equal-offset pair of segments preserves the
invariant: that segment owns no entries (the earlier duplicate of an
`appendSegment` name collision), so the abstract contents are intact. -/
theorem erase_wf (v : WAL) (m : Nat → List Nat) (k : Nat) (h : WF v m)
    (hk : k + 1 < v.segments.length)
    (heq : v.segOffD k = v.segOffD (k + 1)) :
    WF { v with segments := v.segments.eraseIdx k } m := by
  have hne : v.segments ≠ [] := by intro hc; rw [hc] at hk; simp at hk
  set u : WAL := { v with segments := v.segments.eraseIdx k } with hu
  have hulen : u.segments.length = v.segments.length - 1 := by
    show (v.segments.eraseIdx k).length = _
    rw [List.length_eraseIdx]
    rw [if_pos (show k < v.segments.length from by omega)]
  have hugd : ∀ j, u.segments.getD j defaultSeg =
      if j < k then v.segments.getD j defaultSeg
      else v.segments.getD (j + 1) defaultSeg := by
    intro j
    show (v.segments.eraseIdx k).getD j defaultSeg = _
    exact getD_eraseIdx _ k (by omega) j _
  have huoff : ∀ j, u.segOffD j =
      if j < k then v.segOffD j else v.segOffD (j + 1) := by
    intro j
    unfold WAL.segOffD
    rw [hugd j]
    split
    · rfl
    · rfl
  have hupay : ∀ j, j < u.segments.length →
      u.segPayloads m j =
        if j < k then v.segPayloads m j else v.segPayloads m (j + 1) := by
    intro j hj
    rw [hulen] at hj
    unfold WAL.segPayloads WAL.segCnt
    by_cases hc : j < k
    · rw [if_pos hc]
      rw [if_neg (show ¬ j + 1 = u.segments.length from by rw [hulen]; omega),
        if_neg (show ¬ j + 1 = v.segments.length from by omega)]
      rw [huoff (j + 1), huoff j, if_pos hc]
      by_cases hc1 : j + 1 < k
      · rw [if_pos hc1]
      · rw [if_neg hc1]
        rw [show j + 1 + 1 = k + 1 from by omega, ← heq,
          show k = j + 1 from by omega]
    · rw [if_neg hc]
      by_cases hlast : j + 1 = u.segments.length
      · rw [if_pos hlast,
          if_pos (show j + 1 + 1 = v.segments.length from by rw [hulen] at hlast; omega)]
        rw [huoff j, if_neg hc]
      · rw [if_neg hlast,
          if_neg (show ¬ j + 1 + 1 = v.segments.length from by rw [hulen] at hlast; omega)]
        rw [huoff (j + 1), huoff j, if_neg (show ¬ j + 1 < k from by omega), if_neg hc]
  refine { esz := h.esz, ssz := h.ssz, notClosed := h.notClosed,
           firstPos := h.firstPos,
           emptyState := ?_, ptrNotNone := ?_, bufPtr := h.bufPtr,
           firstOff := ?_, lastLe := ?_, lastPos := ?_, mono := ?_,
           midWF := ?_, lastWF := ?_ }
  · intro hc
    have h0 : u.segments.length = 0 := by rw [hc]; rfl
    rw [hulen] at h0
    exact absurd h0 (by omega)
  · intro _
    exact h.ptrNotNone hne
  · intro _
    rw [huoff 0]
    by_cases hc : 0 < k
    · rw [if_pos hc]
      exact h.firstOff hne
    · rw [if_neg hc]
      have hk0 : k = 0 := by omega
      rw [hk0] at heq
      rw [← heq]
      exact h.firstOff hne
  · intro _
    rw [hulen, huoff,
      if_neg (show ¬ v.segments.length - 1 - 1 < k from by omega)]
    rw [show v.segments.length - 1 - 1 + 1 = v.segments.length - 1 from by omega]
    exact h.lastLe hne
  · intro _
    exact h.lastPos hne
  · intro j hj
    rw [hulen] at hj
    rw [huoff j, huoff (j + 1)]
    by_cases hc1 : j + 1 < k
    · rw [if_pos hc1, if_pos (by omega)]
      exact h.mono j (by omega)
    · by_cases hc2 : j < k
      · rw [if_pos hc2, if_neg hc1]
        have h1 := h.mono j (by omega)
        have hjk : j + 1 = k := by omega
        rw [show j + 1 + 1 = k + 1 from by omega, ← heq, ← hjk]
        exact h1
      · rw [if_neg hc2, if_neg hc1]
        exact h.mono (j + 1) (by omega)
  · intro j hj
    rw [hulen] at hj
    rw [hugd j, hupay j (by rw [hulen]; omega)]
    by_cases hc : j < k
    · rw [if_pos hc, if_pos hc]
      exact h.midWF j (by omega)
    · rw [if_neg hc, if_neg hc]
      exact h.midWF (j + 1) (by omega)
  · intro j hj
    rw [hulen] at hj
    rw [hugd j, hupay j (by rw [hulen]; omega)]
    rw [if_neg (show ¬ j < k from by omega), if_neg (show ¬ j < k from by omega)]
    exact h.lastWF (j + 1) (by omega)

theorem dedup_wf_aux : ∀ (n : Nat) (v : WAL) (m : Nat → List Nat),
    v.segments.length ≤ n → WF v m →
    WF { v with segments := dedupSegs v.segments } m := by
  intro n
  induction n with
  | zero =>
    intro v m hlen h
    have hnil : v.segments = [] := by
      cases hseg : v.segments with
      | nil => rfl
      | cons a b => rw [hseg] at hlen; simp at hlen
    rw [hnil, dedup_nil, ← hnil]
    exact h
  | succ n ih =>
    intro v m hlen h
    by_cases hex : ∃ kk, kk + 1 < v.segments.length ∧
        v.segOffD kk = v.segOffD (kk + 1)
    · obtain ⟨kk, hkk, hkoff⟩ := hex
      obtain ⟨k, hk, hoff, hded⟩ := dedup_erase v.segments kk hkk hkoff
      have herase := erase_wf v m k h hk hoff
      have hlen' : (v.segments.eraseIdx k).length ≤ n := by
        rw [List.length_eraseIdx, if_pos (show k < v.segments.length from by omega)]
        omega
      have hrec := ih { v with segments := v.segments.eraseIdx k } m hlen' herase
      rw [hded]
      exact hrec
    · push_neg at hex
      have hid : dedupSegs v.segments = v.segments := by
        apply dedup_eq_self
        intro kk hkk
        exact hex kk hkk
      rw [hid]
      exact h

/-- The directory view of an invariant-satisfying log still satisfies the
invariant with the same contents: the dropped duplicates own no entries. -/
theorem dedup_wal_wf (v : WAL) (m : Nat → List Nat) (h : WF v m) :
    WF { v with segments := dedupSegs v.segments } m :=
  dedup_wf_aux v.segments.length v m le_rfl h

/-- Number of complete entries that the index-rebuild scan finds in a data
file (`0` when the scan panics). -/
def logEntryCount (data : List Nat) : Nat :=
  ((rebuildScan data 0).getD []).length

/-- Concrete witness state: a fresh log (`SegmentSize = 100`,
`SegmentEntries = 10`) after `Write(1, [5])` and `Flush`. -/
def witState1 : WAL :=
  (WAL.flushOp (WAL.writeOp (WAL.initialWAL 100 10 false) 1 [5]).2).2

/-- Abstract contents of `witState1`. -/
def witMap1 : Nat → List Nat := fun j => if j = 1 then [5] else []

/-- `witState1` after `Write(2, [6, 7])` and `Flush`. -/
def witState2 : WAL := (WAL.flushOp (WAL.writeOp witState1 2 [6, 7]).2).2

/-- Abstract contents of `witState2`. -/
def witMap2 : Nat → List Nat := fun j => if j = 2 then [6, 7] else witMap1 j

/-- A log whose very first entry overflows the segment size
(`SegmentSize = 1`, entry `[0, 0]` encodes to 3 bytes): the rollover inside
`Write` appends a second segment with the same offset `0`. -/
def witStateDup : WAL :=
  (WAL.flushOp (WAL.writeOp (WAL.initialWAL 1 1 false) 1 [0, 0]).2).2

/-- Abstract contents of `witStateDup`. -/
def witMapDup : Nat → List Nat := fun j => if j = 1 then [0, 0] else []

/-- A two-segment log with distinct offsets: `SegmentSize = 3` holds
`Write(1, [5])` (2 encoded bytes) but rolls over on `Write(2, [6])`,
appending a second segment with offset 1. -/
def witStateRoll : WAL :=
  (WAL.flushOp (WAL.writeOp
    (WAL.flushOp (WAL.writeOp (WAL.initialWAL 3 10 false) 1 [5]).2).2
    2 [6]).2).2

/-- Abstract contents of `witStateRoll`. -/
def witMapRoll : Nat → List Nat :=
  fun j => if j = 2 then [6] else if j = 1 then [5] else []

/-- A closed empty log. -/
def witClosed : WAL := { WAL.initialWAL 100 10 false with closed := true }

theorem reach_witState1 : Reach witState1 witMap1 :=
  Reach.write (Reach.init 100 10 false (by decide) (by decide)) rfl rfl

theorem reach_witState2 : Reach witState2 witMap2 :=
  Reach.write reach_witState1 rfl rfl

theorem reach_witStateDup : Reach witStateDup witMapDup :=
  Reach.write (Reach.init 1 1 false (by decide) (by decide)) rfl rfl

theorem reach_witStateRoll : Reach witStateRoll witMapRoll :=
  Reach.write (Reach.write (Reach.init 3 10 false (by decide) (by decide))
    rfl rfl) rfl rfl

theorem base_of_ite (c : Prop) [inst : Decidable c] (a b : Options)
    (ha : a.Base = b.Base) : (if c then a else b).Base = b.Base := by
  split
  · exact ha
  · rfl

/-- Per-branch view of `Options.check`: the first six validations never
touch `Base`, so the outcome is decided by the `Base` range checks alone
(`Base < 1` silently defaulted to `10`, `1 ≤ Base` outside `[2, 36]`
rejected, anything in `[2, 36]` accepted unchanged). -/
theorem check_base_cases (o : Options) :
    ∃ o6 : Options, o6.Base = o.Base ∧
      Options.check o = (if o6.Base < 1 then Except.ok { o6 with Base := 10 }
        else if o6.Base < 2 ∨ 36 < o6.Base then Except.error Err.base
        else Except.ok o6) := by
  unfold Options.check
  refine ⟨_, ?_, rfl⟩
  apply Eq.trans (base_of_ite _ _ _ ?_) <;> try rfl
  apply Eq.trans (base_of_ite _ _ _ ?_) <;> try rfl
  apply Eq.trans (base_of_ite _ _ _ ?_) <;> try rfl
  apply Eq.trans (base_of_ite _ _ _ ?_) <;> try rfl
  apply Eq.trans (base_of_ite _ _ _ ?_) <;> try rfl
  apply base_of_ite _ _ _ ?_
  rfl

/-- C1: on every reachable open log operated under the flush discipline
(each accepted `Write` followed by a successful `Flush`), `Read(i)` for
`i ∈ [firstIndex, lastIndex]` returns exactly the payload of the last
accepted `Write(i, ·)`, as tracked by the abstract contents map of
`Reach`. -/
theorem claim_C1 {w : WAL} {m : Nat → List Nat} (hr : Reach w m) (i : Nat)
    (h1 : w.firstIndex ≤ i) (h2 : i ≤ w.lastIndex) :
    ∃ w', WAL.readOp w i = (.ok (m i), w') := by
  obtain ⟨hwf, hbuf⟩ := reach_wf hr
  obtain ⟨w', hread, -⟩ := hwf.read_ok hbuf i h1 h2
  exact ⟨w', hread⟩

theorem claim_C1_witness :
    ∃ w', WAL.readOp witState1 1 = (.ok [5], w') :=
  claim_C1 reach_witState1 1 (by decide) (by decide)

/-- C2: refuted — the index-rebuild scan of `segment.load` does not
tolerate a torn trailing entry.  On a data file `[3, 170]` (varint size 3
followed by a single payload byte) the scan computes `n + size = 4 > 2` and
Go slices `data[4:]` past the end of the 2-byte mmap, panicking instead of
truncating the torn entry; in the model the load returns `none` (panic). -/
theorem claim_C2 :
    Segment.load 10
      { offset := 0, len := 0, slots := List.replicate 11 0, log := [3, 170] }
      = none := by
  have hdec : decodeVarint [3, 170] = (1, 3) := by decide
  have hscan : rebuildScan [3, 170] 0 = none := by
    rw [rebuildScan]
    rw [dif_neg (by decide)]
    rw [hdec]
    rw [dif_neg (by decide), dif_pos (by decide)]
  unfold Segment.load
  dsimp only
  rw [if_neg (by decide), if_neg (by decide)]
  rw [hscan]

/-- C3: round trip across `Close` and a re-`Open` of the same directory
with the same options preserves `FirstIndex`, `LastIndex`, and the payload
returned by `Read(i)` for every in-range `i`, on every reachable log.
`diskOf` renders the directory faithfully even at duplicate offsets (one
file pair per name, holding the newest same-named segment's content), and
the duplicates own no entries, so the recovery walk reconstructs the same
observable log. -/
theorem claim_C3 {w : WAL} {m : Nat → List Nat} {w2 : WAL} (hr : Reach w m)
    (hclose : WAL.closeOp w = (none, w2)) :
    ∃ w3, WAL.openFromDisk w.segmentSize w.segmentEntries w.noSplitSegment
        (WAL.diskOf w2) = (none, w3) ∧
      (WAL.firstIndexOp w3).1 = (WAL.firstIndexOp w).1 ∧
      (WAL.lastIndexOp w3).1 = (WAL.lastIndexOp w).1 ∧
      ∀ i, w.firstIndex ≤ i → i ≤ w.lastIndex →
        ∃ w4, WAL.readOp w3 i = (.ok (m i), w4) := by
  obtain ⟨hwf, hbuf⟩ := reach_wf hr
  have hw2 := hwf.close_ok hbuf hclose
  have hdwf := dedup_wal_wf w m hwf
  have hdisk : WAL.diskOf w2 =
      (dedupSegs w.segments).map (fun s => (s.offset, s.log, s.slots)) := by
    rw [hw2]
    unfold WAL.diskOf
    dsimp only
    rw [dedup_map_close, List.map_map]
    apply List.map_congr_left
    intro s hs
    rfl
  have hbuf' : ({ w with segments := dedupSegs w.segments } : WAL).writeBuffer
      = [] := hbuf
  obtain ⟨w3, hopen, hwf3, hfi3, hli3, hwb3, hcl3⟩ := reopen_wf hdwf hbuf'
  refine ⟨w3, ?_, ?_, ?_, ?_⟩
  · rw [hdisk]
    exact hopen
  · unfold WAL.firstIndexOp
    rw [if_neg (by rw [hcl3]; simp), if_neg (by rw [hwf.notClosed]; simp)]
    exact hfi3
  · unfold WAL.lastIndexOp
    rw [if_neg (by rw [hcl3]; simp), if_neg (by rw [hwf.notClosed]; simp)]
    exact hli3
  · intro i h1 h2
    obtain ⟨w4, hread, -⟩ := hwf3.read_ok hwb3 i (by rw [hfi3]; exact h1)
      (by rw [hli3]; exact h2)
    exact ⟨w4, hread⟩

theorem claim_C3_witness :
    ∃ w3, WAL.openFromDisk witState1.segmentSize witState1.segmentEntries
        witState1.noSplitSegment (WAL.diskOf (WAL.closeOp witState1).2) =
          (none, w3) ∧
      (WAL.firstIndexOp w3).1 = (WAL.firstIndexOp witState1).1 ∧
      (WAL.lastIndexOp w3).1 = (WAL.lastIndexOp witState1).1 ∧
      ∀ i, witState1.firstIndex ≤ i → i ≤ witState1.lastIndex →
        ∃ w4, WAL.readOp w3 i = (.ok (witMap1 i), w4) :=
  claim_C3 reach_witState1 rfl

/-- C4: on a reachable open log with `NoSplitSegment` unset, `Clean(index)`
is a no-op for `index = firstIndex`, fails with `OutOfRange` (and changes
nothing) for `index` outside `[firstIndex, lastIndex]`, and otherwise
succeeds with `firstIndex = index`, every `Read(j)` with `j < index`
failing `OutOfRange` and every `Read(j)` with `j ∈ [index, lastIndex]`
still returning its payload. -/
theorem claim_C4 {w : WAL} {m : Nat → List Nat} (hr : Reach w m)
    (index : Nat) (hns : w.noSplitSegment = false) :
    (index = w.firstIndex → WAL.cleanOp w index = (none, w)) ∧
    (index ≠ w.firstIndex → (index < w.firstIndex ∨ w.lastIndex < index) →
      WAL.cleanOp w index = (some .outOfRange, w)) ∧
    (w.firstIndex < index → index ≤ w.lastIndex →
      ∃ w', WAL.cleanOp w index = (none, w') ∧ w'.firstIndex = index ∧
        w'.lastIndex = w.lastIndex ∧
        (∀ j, j < index → ∃ w'', WAL.readOp w' j = (.error .outOfRange, w'')) ∧
        (∀ j, index ≤ j → j ≤ w.lastIndex →
          ∃ w'', WAL.readOp w' j = (.ok (m j), w''))) := by
  obtain ⟨hwf, hbuf⟩ := reach_wf hr
  refine ⟨?_, ?_, ?_⟩
  · intro h
    unfold WAL.cleanOp
    rw [if_pos h]
  · intro hidx hout
    have hchk : w.checkIndex index = some .outOfRange := by
      unfold WAL.checkIndex
      rw [hwf.notClosed]
      rw [if_neg (by simp), if_pos (by
        rcases hout with h | h
        · exact Or.inr (Or.inr (Or.inl h))
        · exact Or.inr (Or.inr (Or.inr h)))]
    unfold WAL.cleanOp
    rw [if_neg hidx, hchk]
  · intro hlo hhi
    obtain ⟨w', hop, hwf', hli', hwb', hcl', -, -, -, hfi'⟩ :=
      hwf.clean_ok hbuf (by omega) (by omega) hhi
    have hfi := hfi' hns
    refine ⟨w', hop, hfi, hli', ?_, ?_⟩
    · intro j hj
      refine ⟨w', ?_⟩
      exact read_oor w' j hcl' (Or.inr (Or.inr (Or.inl (by omega))))
    · intro j hj1 hj2
      obtain ⟨w'', hread, -⟩ := hwf'.read_ok hwb' j (by omega) (by omega)
      exact ⟨w'', hread⟩

theorem claim_C4_witness :
    ∃ w', WAL.cleanOp witState2 2 = (none, w') ∧ w'.firstIndex = 2 ∧
      w'.lastIndex = witState2.lastIndex ∧
      (∀ j, j < 2 → ∃ w'', WAL.readOp w' j = (.error .outOfRange, w'')) ∧
      (∀ j, 2 ≤ j → j ≤ witState2.lastIndex →
        ∃ w'', WAL.readOp w' j = (.ok (witMap2 j), w'')) :=
  (claim_C4 reach_witState2 2 rfl).2.2 (by decide) (by decide)

/-- C5: on a reachable open log, `Truncate(index)` is a no-op for
`index = lastIndex`, fails with `OutOfRange` (and changes nothing) for
`index` outside `[firstIndex, lastIndex]`, and otherwise succeeds with
`lastIndex = index`, every `Read(j)` with `j > index` failing `OutOfRange`
and every `Read(j)` with `j ∈ [firstIndex, index]` still returning its
payload. -/
theorem claim_C5 {w : WAL} {m : Nat → List Nat} (hr : Reach w m)
    (index : Nat) :
    (index = w.lastIndex → WAL.truncateOp w index = (none, w)) ∧
    (index ≠ w.lastIndex → (index < w.firstIndex ∨ w.lastIndex < index) →
      WAL.truncateOp w index = (some .outOfRange, w)) ∧
    (w.firstIndex ≤ index → index < w.lastIndex →
      ∃ w', WAL.truncateOp w index = (none, w') ∧ w'.lastIndex = index ∧
        w'.firstIndex = w.firstIndex ∧
        (∀ j, index < j → ∃ w'', WAL.readOp w' j = (.error .outOfRange, w'')) ∧
        (∀ j, w.firstIndex ≤ j → j ≤ index →
          ∃ w'', WAL.readOp w' j = (.ok (m j), w''))) := by
  obtain ⟨hwf, hbuf⟩ := reach_wf hr
  refine ⟨?_, ?_, ?_⟩
  · intro h
    unfold WAL.truncateOp
    rw [if_pos h]
  · intro hidx hout
    have hchk : w.checkIndex index = some .outOfRange := by
      unfold WAL.checkIndex
      rw [hwf.notClosed]
      rw [if_neg (by simp), if_pos (by
        rcases hout with h | h
        · exact Or.inr (Or.inr (Or.inl h))
        · exact Or.inr (Or.inr (Or.inr h)))]
    unfold WAL.truncateOp
    rw [if_neg hidx, hchk]
  · intro hlo hhi
    obtain ⟨w', hop, hwf', hfi', hli', hwb', hcl', -, -, -⟩ :=
      hwf.trunc_ok hbuf (by omega) hlo (by omega)
    refine ⟨w', hop, hli', hfi', ?_, ?_⟩
    · intro j hj
      refine ⟨w', ?_⟩
      exact read_oor w' j hcl' (Or.inr (Or.inr (Or.inr (by omega))))
    · intro j hj1 hj2
      obtain ⟨w'', hread, -⟩ := hwf'.read_ok hwb' j (by omega) (by omega)
      exact ⟨w'', hread⟩

theorem claim_C5_witness :
    ∃ w', WAL.truncateOp witState2 1 = (none, w') ∧ w'.lastIndex = 1 ∧
      w'.firstIndex = witState2.firstIndex ∧
      (∀ j, 1 < j → ∃ w'', WAL.readOp w' j = (.error .outOfRange, w'')) ∧
      (∀ j, witState2.firstIndex ≤ j → j ≤ 1 →
        ∃ w'', WAL.readOp w' j = (.ok (witMap2 j), w'')) :=
  (claim_C5 reach_witState2 1).2.2 (by decide) (by decide)

/-- C6: corrected — after `Close`, `Write`, `Read`, `Flush`, `Sync`,
`FirstIndex`, `LastIndex`, `IsExist` and `Reset` do return `Closed` for
every argument, and so do `Clean(index)` for `index ≠ firstIndex` and
`Truncate(index)` for `index ≠ lastIndex`; but `Clean(firstIndex)` and
`Truncate(lastIndex)` hit the no-op check before the closed check and
return `nil`. -/
theorem claim_C6 (v : WAL) (hcl : v.closed = true) (i : Nat)
    (d : List Nat) :
    WAL.writeOp v i d = (some .closed, v) ∧
    WAL.readOp v i = (.error .closed, v) ∧
    WAL.flushOp v = (some .closed, v) ∧
    WAL.syncOp v = (some .closed, v) ∧
    WAL.firstIndexOp v = (0, some .closed) ∧
    WAL.lastIndexOp v = (0, some .closed) ∧
    WAL.isExist v i = (false, some .closed) ∧
    WAL.resetOp v = (some .closed, v) ∧
    (i ≠ v.firstIndex → WAL.cleanOp v i = (some .closed, v)) ∧
    (i ≠ v.lastIndex → WAL.truncateOp v i = (some .closed, v)) ∧
    WAL.cleanOp v v.firstIndex = (none, v) ∧
    WAL.truncateOp v v.lastIndex = (none, v) := by
  have hchk : ∀ j, v.checkIndex j = some Err.closed := by
    intro j
    unfold WAL.checkIndex
    rw [if_pos hcl]
  refine ⟨?_, ?_, ?_, ?_, ?_, ?_, ?_, ?_, ?_, ?_, ?_, ?_⟩
  · unfold WAL.writeOp
    rw [if_pos hcl]
  · unfold WAL.readOp
    rw [hchk i]
  · unfold WAL.flushOp
    rw [if_pos hcl]
  · unfold WAL.syncOp
    rw [if_pos hcl]
  · unfold WAL.firstIndexOp
    rw [if_pos hcl]
  · unfold WAL.lastIndexOp
    rw [if_pos hcl]
  · unfold WAL.isExist
    rw [hchk i]
    dsimp only
    rw [if_pos rfl]
  · unfold WAL.resetOp
    rw [if_pos hcl]
  · intro hne
    unfold WAL.cleanOp
    rw [if_neg hne, hchk i]
  · intro hne
    unfold WAL.truncateOp
    rw [if_neg hne, hchk i]
  · unfold WAL.cleanOp
    rw [if_pos rfl]
  · unfold WAL.truncateOp
    rw [if_pos rfl]

theorem claim_C6_witness :
    WAL.writeOp witClosed 2 [7] = (some .closed, witClosed) :=
  (claim_C6 witClosed rfl 2 [7]).1

theorem claim_C6_counterexample :
    witClosed.closed = true ∧
    WAL.cleanOp witClosed witClosed.firstIndex = (none, witClosed) ∧
    WAL.truncateOp witClosed witClosed.lastIndex = (none, witClosed) :=
  ⟨rfl, rfl, rfl⟩

/-- C7: on an open log with `lastIndex > 0`, `Write(index, data)` with a
non-zero `index ≠ lastIndex + 1` fails with `OutOfOrder` and changes
nothing (`index = 0` instead fails with `ZeroIndex`, per the claim's second
half), and `Write(0, data)` on an open log always fails with
`ZeroIndex`. -/
theorem claim_C7 (v : WAL) (hcl : v.closed = false) (i : Nat)
    (d : List Nat) (hi0 : i ≠ 0) :
    (0 < v.lastIndex → i ≠ v.lastIndex + 1 →
      WAL.writeOp v i d = (some .outOfOrder, v)) ∧
    WAL.writeOp v 0 d = (some .zeroIndex, v) := by
  constructor
  · intro h1 h2
    unfold WAL.writeOp
    rw [if_neg (by rw [hcl]; simp), if_neg hi0, if_pos ⟨h1, h2⟩]
  · unfold WAL.writeOp
    rw [if_neg (by rw [hcl]; simp), if_pos rfl]

theorem claim_C7_witness :
    WAL.writeOp witState1 3 [9] = (some .outOfOrder, witState1) :=
  (claim_C7 witState1 rfl 3 [9] (by decide)).1 (by decide) (by decide)

/-- C8: corrected — in every reachable state the in-memory segment offsets
are non-decreasing (not strictly increasing: a first entry larger than the
segment size makes `Write` append two segments with the same offset and
name, the older of which shares the newer one's file pair and owns no
entries).  Contiguity holds through the number of complete entries parsed
from a segment's own data file wherever that file is the segment's own,
i.e. at every adjacent pair with distinct offsets; and on disk — one file
pair per distinct offset, the `dedupSegs` directory view — the names are
strictly increasing and every adjacent pair is exactly contiguous.  The
claim's `len`-based form of I3 does not hold: `len` is zeroed whenever a
segment is closed. -/
theorem claim_C8 {w : WAL} {m : Nat → List Nat} (hr : Reach w m) :
    (∀ k, k + 1 < w.segments.length → w.segOffD k ≤ w.segOffD (k + 1)) ∧
    (∀ k, k + 1 < w.segments.length → w.segOffD k < w.segOffD (k + 1) →
      w.segOffD (k + 1) = w.segOffD k +
        logEntryCount (w.segments.getD k defaultSeg).log) ∧
    (∀ k, k + 1 < (dedupSegs w.segments).length →
      ((dedupSegs w.segments).getD k defaultSeg).offset <
          ((dedupSegs w.segments).getD (k + 1) defaultSeg).offset ∧
      ((dedupSegs w.segments).getD (k + 1) defaultSeg).offset =
        ((dedupSegs w.segments).getD k defaultSeg).offset +
          logEntryCount ((dedupSegs w.segments).getD k defaultSeg).log) := by
  obtain ⟨hwf, -⟩ := reach_wf hr
  have key : ∀ (v : WAL), WF v m → ∀ k, k + 1 < v.segments.length →
      v.segOffD (k + 1) = v.segOffD k +
        logEntryCount (v.segments.getD k defaultSeg).log := by
    intro v hv k hk
    obtain ⟨hlog, -, -⟩ := hv.midWF k hk
    have hcnt : logEntryCount (v.segments.getD k defaultSeg).log =
        (v.segPayloads m k).length := by
      rw [hlog]
      unfold logEntryCount
      rw [rebuildScan_encAll]
      simp
    have hlen : (v.segPayloads m k).length = v.segCnt k := by
      unfold WAL.segPayloads
      exact segEs_length _ _ _
    rw [hcnt, hlen]
    have hoc := hv.offCnt k (by omega)
    rw [if_neg (by omega)] at hoc
    omega
  have hdwf := dedup_wal_wf w m hwf
  refine ⟨hwf.mono, ?_, ?_⟩
  · intro k hk _
    exact key w hwf k hk
  · intro k hk
    refine ⟨lt_of_le_of_ne (hdwf.mono k hk) (dedup_adj_ne w.segments k hk), ?_⟩
    exact key { w with segments := dedupSegs w.segments } hdwf k hk

theorem claim_C8_witness :
    witStateRoll.segOffD 1 = witStateRoll.segOffD 0 +
      logEntryCount (witStateRoll.segments.getD 0 defaultSeg).log :=
  (claim_C8 reach_witStateRoll).2.1 0 (by decide) (by decide)

theorem claim_C8_counterexample :
    1 < witStateDup.segments.length ∧
    witStateDup.segOffD 0 = witStateDup.segOffD 1 := by
  decide

/-- C9: corrected — a configured `Base` of at least 1 but outside `[2, 36]`
(so in particular `Base = 1` and `Base = 37`) makes `Open` fail with the
`Base` error, and any base in `[2, 36]` is accepted; but a non-positive
`Base` (e.g. `-1`), although outside `[2, 36]`, is treated as unset and
silently replaced by the default 10, so `Open` succeeds. -/
theorem claim_C9 (o : Options) :
    (1 ≤ o.Base → (o.Base < 2 ∨ 36 < o.Base) →
      openEmptyDir (some o) = .error .base) ∧
    (2 ≤ o.Base → o.Base ≤ 36 → ∃ w, openEmptyDir (some o) = .ok w) ∧
    (o.Base < 1 → ∃ w, openEmptyDir (some o) = .ok w) := by
  obtain ⟨o6, hB, hchk⟩ := check_base_cases o
  refine ⟨?_, ?_, ?_⟩
  · intro h1 h2
    unfold openEmptyDir
    dsimp only
    rw [hchk]
    rw [if_neg (by rw [hB]; omega), if_pos (by rw [hB]; exact h2)]
  · intro h1 h2
    unfold openEmptyDir
    dsimp only
    rw [hchk]
    rw [if_neg (by rw [hB]; omega), if_neg (by rw [hB]; omega)]
    exact ⟨_, rfl⟩
  · intro h1
    unfold openEmptyDir
    dsimp only
    rw [hchk]
    rw [if_pos (by rw [hB]; omega)]
    exact ⟨_, rfl⟩

theorem claim_C9_witness :
    openEmptyDir (some { defaultOptions with Base := 37 }) =
      .error .base :=
  (claim_C9 { defaultOptions with Base := 37 }).1 (by decide) (by decide)

theorem claim_C9_counterexample :
    openEmptyDir (some { defaultOptions with Base := -1 }) =
      .ok (WAL.initialWAL (1024 * 1024 * 512) (1024 * 1024 * 8) false) :=
  rfl

/-- C10: on an open log `IsExist(index)` never returns an error: it
returns `(true, nil)` exactly when the log is non-empty
(`1 ≤ lastIndex`) and `index` lies in `[firstIndex, lastIndex]` (with
`1 ≤ index`, which on a real log is implied by `1 ≤ firstIndex`), and
`(false, nil)` for every other index; on a closed log it returns
`(false, Closed)`. -/
theorem claim_C10 (v : WAL) (i : Nat) :
    (v.closed = false → (WAL.isExist v i).2 = none ∧
      ((WAL.isExist v i).1 = true ↔
        1 ≤ v.lastIndex ∧ v.firstIndex ≤ i ∧ i ≤ v.lastIndex ∧ 1 ≤ i)) ∧
    (v.closed = true → WAL.isExist v i = (false, some .closed)) := by
  constructor
  · intro hcl
    unfold WAL.isExist WAL.checkIndex
    rw [hcl]
    rw [if_neg (by simp)]
    by_cases hd : i = 0 ∨ v.lastIndex = 0 ∨ i < v.firstIndex ∨ v.lastIndex < i
    · rw [if_pos hd]
      dsimp only
      rw [if_neg (by decide)]
      refine ⟨rfl, ?_, ?_⟩
      · intro hc
        exact absurd hc (by simp)
      · intro hc
        exfalso
        omega
    · rw [if_neg hd]
      dsimp only
      refine ⟨rfl, ?_, ?_⟩
      · intro hc
        push_neg at hd
        omega
      · intro hc
        rfl
  · intro hcl
    unfold WAL.isExist WAL.checkIndex
    rw [if_pos hcl]
    dsimp only
    rw [if_pos rfl]

theorem claim_C10_witness :
    (WAL.isExist witState1 1).2 = none ∧
    ((WAL.isExist witState1 1).1 = true ↔
      1 ≤ witState1.lastIndex ∧ witState1.firstIndex ≤ 1 ∧
        1 ≤ witState1.lastIndex ∧ 1 ≤ 1) :=
  (claim_C10 witState1 1).1 rfl

end Wal
